import Mathlib

/-!
# Verification of `cartland/algorithms` (python sources)

Shallow embedding of `src/python/bst.py`, `src/python/bt.py`,
`src/python/heap.py` and `src/python/sort.py`, together with proofs and
refutations of the specification's claims.

Conventions:
* `BinaryTreeNode`/`None` pointers (bt.py) become the inductive type `BTree`
  with constructor `nil` for `None`.
* In-place mutation becomes explicit state passing: each Python method that
  mutates a structure is a Lean function returning the new structure.
* Python integers become `Int` (payloads) and `Nat` (indices).
* `raise ValueError` becomes `Except Unit` results.
* The unbounded `while balancing:` loop of `BST.balance_node` is modelled
  with explicit fuel (one unit per loop entry); every claim about
  `balance` is either proved for all fuel values or evaluated at a fuel
  large enough for the loop to reach its fixed point on the given input.
-/

namespace Algorithms

/-- `bt.py BinaryTreeNode`: a node holds `datum` and optional children
`left`, `right`; `nil` stands for Python `None`. -/
inductive BTree where
  | nil : BTree
  | node (left : BTree) (datum : Int) (right : BTree) : BTree
  deriving Repr, DecidableEq

namespace BTree

/-- Multiset of data stored in a tree, as the in-order list. -/
def toList : BTree → List Int
  | nil => []
  | node l d r => toList l ++ d :: toList r

/-- Number of nodes. -/
def size : BTree → Nat
  | nil => 0
  | node l _ r => size l + size r + 1

end BTree

open BTree

/-- `BST.insert_node` (bst.py lines 41-69): walk from `root`; at each node,
if `node.datum < new_node.datum` descend right (attaching `new_node` when the
right child is `None`), otherwise descend left.  `new_node` may be a whole
subtree (this is how `delete_item` reattaches the detached branches); the walk
compares only the datum of its root.  `insert_node(root, None) = root` and
`insert_node(None, n) = n` as in the source. -/
def insert_node : BTree → BTree → BTree
  | root, nil => root
  | nil, n => n
  | node l d r, node nl nd nr =>
    if d < nd then node l d (insert_node r (node nl nd nr))
    else node (insert_node l (node nl nd nr)) d r

/-- `BST.insert` (bst.py lines 29-39): wrap the item in a fresh leaf node and
insert it at the root. -/
def insert (t : BTree) (item : Int) : BTree :=
  insert_node t (node nil item nil)

/-- `BST.find` (bst.py lines 71-93): walk from the root; exact match returns
the node (we return its datum), `node.datum < item` descends right,
`item < node.datum` descends left; reaching `None` returns `None`. -/
def find : BTree → Int → Option Int
  | nil, _ => none
  | node l d r, item =>
    if d = item then some d
    else if d < item then find r item
    else find l item

/-- `BST.delete_item` (bst.py lines 106-147), inner walk once the root is
known not to match: locate the node matching `item` together with its parent.
On a match at a child of `cur`, clear the parent link that was followed and
reinsert the detached right subtree and then the left subtree starting at the
parent `cur` (the Python code mutates `parent` in place, so only the subtree
rooted at the parent changes). Absent item: returns the subtree unchanged. -/
def delete_walk : BTree → Int → BTree
  | nil, _ => nil
  | node l d r, item =>
    if d < item then
      match r with
      | nil => node l d nil
      | node rl rd rr =>
        if rd = item then insert_node (insert_node (node l d nil) rr) rl
        else node l d (delete_walk (node rl rd rr) item)
    else
      match l with
      | nil => node nil d r
      | node ll ld lr =>
        if ld = item then insert_node (insert_node (node nil d r) lr) ll
        else node (delete_walk (node ll ld lr) item) d r

/-- `BST.delete_item` (bst.py lines 106-147): `None` root stays `None`; a
matching root (parent is `None`) is replaced by reinserting its right subtree
and then its left subtree into an empty tree; otherwise the walk
`delete_walk` tracks the parent pointer. -/
def delete_item : BTree → Int → BTree
  | nil, _ => nil
  | node l d r, item =>
    if d = item then insert_node (insert_node nil r) l
    else delete_walk (node l d r) item

/-- `BST.rotate_left` (bst.py lines 193-204). -/
def rotate_left : BTree → BTree
  | nil => nil
  | node l d nil => node l d nil
  | node l d (node rl rd rr) => node (node l d rl) rd rr

/-- `BST.rotate_right` (bst.py lines 206-217). -/
def rotate_right : BTree → BTree
  | nil => nil
  | node nil d r => node nil d r
  | node (node ll ld lr) d r => node ll ld (node lr d r)

/-- `BST.node_depth` (bst.py lines 229-235). -/
def node_depth : BTree → Nat
  | nil => 0
  | node l _ r => 1 + max (node_depth l) (node_depth r)

/-- One guard of `BST.is_valid_node`: `mn is not None and node.datum < mn`
(symmetrically for `mx`). -/
def boundOk (b : Option Int) (cmp : Int → Int → Prop) [DecidableRel cmp] (d : Int) : Bool :=
  match b with
  | none => true
  | some m => !(decide (cmp d m))

/-- `BST.is_valid_node` (bst.py lines 249-272): recursive range check; the
minimum bound tightens going right, the maximum bound going left; equality is
allowed on both sides. -/
def is_valid_node : BTree → Option Int → Option Int → Bool
  | nil, _, _ => true
  | node l d r, mn, mx =>
    boundOk mn (· < ·) d && boundOk mx (· > ·) d &&
      is_valid_node l mn (some d) && is_valid_node r (some d) mx

/-- `BST.is_valid` (bst.py lines 237-247). -/
def is_valid (t : BTree) : Bool :=
  is_valid_node t none none

/-- An optional lower bound holds of a value (`none` is no bound); this is
what `is_valid_node`'s `mn` guard checks. -/
def lbOk : Option Int → Int → Prop
  | none, _ => True
  | some m, v => m ≤ v

/-- An optional upper bound holds of a value. -/
def ubOk : Option Int → Int → Prop
  | none, _ => True
  | some m, v => v ≤ m

/-- `BST.balance_node` (bst.py lines 159-191), with explicit fuel: one unit
of fuel is spent on each entry of the `while balancing:` loop body and on
each recursive call; exhausted fuel returns the tree as it stands (the claims
below are fuel-independent or evaluated with ample fuel).  The loop body
re-balances both children, compares their depths, and rotates when the
outside branch of the deeper side is at least as deep as its inside branch;
a rotation re-enters the loop. -/
def balance_node : Nat → BTree → BTree
  | 0, t => t
  | _ + 1, nil => nil
  | fuel + 1, node l d r =>
    let l' := balance_node fuel l
    let r' := balance_node fuel r
    let ld := node_depth l'
    let rd := node_depth r'
    if ld ≥ rd + 2 then
      match l' with
      | nil => node l' d r'
      | node ll _ lr =>
        if node_depth lr > node_depth ll then node l' d r'
        else balance_node fuel (rotate_right (node l' d r'))
    else if rd ≥ ld + 2 then
      match r' with
      | nil => node l' d r'
      | node rl _ rr =>
        if node_depth rl > node_depth rr then node l' d r'
        else balance_node fuel (rotate_left (node l' d r'))
    else node l' d r'

/-- `BST.insert_node`'s `while` walk with explicit fuel: one unit per loop
entry; `raise ValueError('Something went wrong')` — the branch after the loop
— becomes `Except.error ()` when fuel runs out without placing the node
(this is the only way the walk can end without placing it, mirroring the fact
that the Python loop can only reach the `raise` by exiting the loop). -/
def insert_walk (fuel : Nat) (root new_node : BTree) : Except Unit BTree :=
  match fuel, root with
  | 0, _ => Except.error ()
  | _ + 1, nil => Except.error ()
  | fuel + 1, node l d r =>
    match new_node with
    | nil => Except.error ()
    | node nl nd nr =>
      if d < nd then
        match r with
        | nil => Except.ok (node l d (node nl nd nr))
        | node rl rd rr =>
          Except.map (fun r2 => node l d r2)
            (insert_walk fuel (node rl rd rr) (node nl nd nr))
      else
        match l with
        | nil => Except.ok (node (node nl nd nr) d r)
        | node ll ld lr =>
          Except.map (fun l2 => node l2 d r)
            (insert_walk fuel (node ll ld lr) (node nl nd nr))

/-- `BST.insert_node` including its error branch: the two early returns,
then the walk. -/
def insert_node_fueled (fuel : Nat) (root new_node : BTree) : Except Unit BTree :=
  match new_node with
  | nil => Except.ok root
  | node nl nd nr =>
    match root with
    | nil => Except.ok (node nl nd nr)
    | node l d r => insert_walk fuel (node l d r) (node nl nd nr)

/-- Public tree operations, for claims over operation sequences.  `bal`
carries the fuel used for that `balance()` call (the Python loop is
unbounded; any sufficiently large fuel reproduces it). -/
inductive TreeOp where
  | ins (v : Int)
  | del (v : Int)
  | bal (fuel : Nat)
  deriving Repr, DecidableEq

/-- Apply one public operation to the tree held by a `BST` object. -/
def treeStep (t : BTree) : TreeOp → BTree
  | TreeOp.ins v => insert t v
  | TreeOp.del v => delete_item t v
  | TreeOp.bal fuel => balance_node fuel t

/-- Run a sequence of operations starting from the empty tree (`BST()`). -/
def treeRun (ops : List TreeOp) : BTree :=
  ops.foldl treeStep nil

/-- Every `ins v` in the sequence inserts a value not currently in the tree
(evaluated against the state at the moment of the call). -/
def freshInserts : BTree → List TreeOp → Bool
  | _, [] => true
  | t, TreeOp.ins v :: rest => !(toList t).contains v && freshInserts (insert t v) rest
  | t, TreeOp.del v :: rest => freshInserts (delete_item t v) rest
  | t, TreeOp.bal fuel :: rest => freshInserts (balance_node fuel t) rest

/-! ## Heap (`heap.py`) -/

/-- `Heap.__init__`: `items = [None]` (index 0 unused — modelled by a dummy
`0` that is never read as a live value), `item_count = 0`,
`invalid_index_set = set()`, `is_max_heap` per the constructor flag.  The
Python `set` of small indices is modelled as a strictly ascending list:
`add` inserts in order, `pop` removes the least element (what CPython's
`set.pop` does for small ints). -/
structure Heap where
  items : List Int
  item_count : Int
  invalid_index_set : List Nat
  is_max_heap : Bool
  deriving Repr, DecidableEq

/-- `Heap(max_heap=...)`. -/
def Heap.new (max_heap : Bool) : Heap :=
  { items := [0], item_count := 0, invalid_index_set := [], is_max_heap := max_heap }

/-- `Heap.count`. -/
def Heap.count (h : Heap) : Int := h.item_count

/-- `Heap.is_heap_order`: `parent >= child` for a max heap, `parent <= child`
for a min heap. -/
def heapOrder (is_max : Bool) (parent child : Int) : Bool :=
  if is_max then parent ≥ child else parent ≤ child

/-- `invalid_index_set.add(index)`: ordered insert without duplicates. -/
def setAdd (index : Nat) : List Nat → List Nat
  | [] => [index]
  | j :: rest =>
    if index < j then index :: j :: rest
    else if index = j then j :: rest
    else j :: setAdd index rest

/-- `Heap.insert_at_next_index`: bump the count, then either append a slot
(free set empty) or reuse the least free index (`set.pop`). -/
def Heap.insert_at_next_index (h : Heap) (item : Int) : Heap × Nat :=
  match h.invalid_index_set with
  | [] =>
    ({ h with
        item_count := h.item_count + 1,
        items := h.items ++ [item] },
      h.items.length)
  | index :: rest =>
    ({ h with
        item_count := h.item_count + 1,
        items := h.items.set index item,
        invalid_index_set := rest }, index)

/-- The `while index > 1` bubble-up loop of `Heap.insert`: compare with the
parent slot `index / 2`, swap while the pair violates heap order. -/
def bubble_up (is_max : Bool) (items : List Int) (index : Nat) : List Int :=
  if 1 < index then
    let parent_index := index / 2
    if heapOrder is_max (items.getD parent_index 0) (items.getD index 0) then items
    else
      bubble_up is_max
        ((items.set index (items.getD parent_index 0)).set parent_index
          (items.getD index 0))
        parent_index
  else items
  termination_by index
  decreasing_by exact Nat.div_lt_self (by omega) (by omega)

/-- `Heap.insert` (heap.py lines 48-74). -/
def Heap.insert (h : Heap) (item : Int) : Heap :=
  let hi := h.insert_at_next_index item
  { hi.1 with items := bubble_up hi.1.is_max_heap (hi.1.items.set hi.2 item) hi.2 }

/-- `Heap.peek` (heap.py lines 87-98): `raise ValueError` when `count() <= 0`,
modelled as `Except.error ()`. -/
def Heap.peek (h : Heap) : Except Unit Int :=
  if h.count ≤ 0 then Except.error () else Except.ok (h.items.getD 1 0)

/-- `Heap.is_invalid_index` (heap.py lines 137-142). -/
def is_invalid_index (len : Nat) (invalid : List Nat) (index : Nat) : Bool :=
  if index ≤ 0 then true
  else if index ≥ len then true
  else invalid.contains index

/-- The `while True` bubble-down walk of `Heap.pop`: promote a valid child
into the current slot until both children are invalid, then mark the final
slot invalid. -/
def pop_walk (is_max : Bool) (items : List Int) (invalid : List Nat) (index : Nat) :
    List Int × List Nat :=
  let left := index * 2
  let right := left + 1
  if is_invalid_index items.length invalid left then
    if is_invalid_index items.length invalid right then
      (items, setAdd index invalid)
    else pop_walk is_max (items.set index (items.getD right 0)) invalid right
  else if is_invalid_index items.length invalid right then
    pop_walk is_max (items.set index (items.getD left 0)) invalid left
  else if heapOrder is_max (items.getD left 0) (items.getD right 0) then
    pop_walk is_max (items.set index (items.getD left 0)) invalid left
  else
    pop_walk is_max (items.set index (items.getD right 0)) invalid right
  termination_by items.length - index
  decreasing_by
    all_goals simp_all [is_invalid_index, List.length_set]
    all_goals omega

/-- `Heap.pop` (heap.py lines 100-135): `peek` first (an empty heap errors
before any state change), then decrement the count and run the walk from
slot 1.  The pair returns the result (or the error) together with the heap
after the call. -/
def Heap.pop (h : Heap) : Except Unit Int × Heap :=
  match h.peek with
  | Except.error e => (Except.error e, h)
  | Except.ok result =>
    let h1 : Heap := { h with item_count := h.item_count - 1 }
    let iw := pop_walk h1.is_max_heap h1.items h1.invalid_index_set 1
    (Except.ok result, { h1 with items := iw.1, invalid_index_set := iw.2 })

/-- Public heap operations. -/
inductive HeapOp where
  | ins (v : Int)
  | pop
  deriving Repr, DecidableEq

/-- Apply one public heap operation. -/
def heapStep (h : Heap) : HeapOp → Heap
  | HeapOp.ins v => h.insert v
  | HeapOp.pop => (h.pop).2

/-- Run a sequence of operations starting from a fresh heap. -/
def heapRun (is_max : Bool) (ops : List HeapOp) : Heap :=
  ops.foldl heapStep (Heap.new is_max)

/-- Slot `i` is occupied relative to a slot-array length and a free-index
set: a live 1-based index inside the array and not in the set. -/
def occB (len : Nat) (free : List Nat) (i : Nat) : Bool :=
  decide (1 ≤ i) && decide (i < len) && !(free.contains i)

/-- Slot `i` of the heap is occupied. -/
def occupiedIdx (h : Heap) (i : Nat) : Bool :=
  occB h.items.length h.invalid_index_set i

/-- Every occupied non-root slot has an occupied parent slot — the free set
only ever grows at the fringe (`pop` frees a slot only when both its children
are already invalid, and `insert` reuses the least free index first). -/
def parentOcc (len : Nat) (free : List Nat) : Prop :=
  ∀ i, 2 ≤ i → occB len free i = true → occB len free (i / 2) = true

/-- The claimed heap invariant: for every occupied slot `i > 1` whose parent
slot `i / 2` is occupied, the configured ordering holds between the parent
and the child; free slots are excluded. -/
def HeapProp (h : Heap) : Prop :=
  ∀ i < h.items.length, 2 ≤ i → occupiedIdx h i = true → occupiedIdx h (i / 2) = true →
    heapOrder h.is_max_heap (h.items.getD (i / 2) 0) (h.items.getD i 0) = true

instance (h : Heap) : Decidable (HeapProp h) := by
  unfold HeapProp; infer_instance

/-- The full inductive invariant of reachable heaps: well-formed slot array
and free set, the count bookkeeping, the fringe property, and the heap
ordering itself. -/
def HeapInv (h : Heap) : Prop :=
  1 ≤ h.items.length ∧
  h.invalid_index_set.Sorted (· < ·) ∧
  (∀ j ∈ h.invalid_index_set, 1 ≤ j ∧ j < h.items.length) ∧
  h.item_count = (h.items.length : Int) - 1 - h.invalid_index_set.length ∧
  parentOcc h.items.length h.invalid_index_set ∧
  HeapProp h


/-- The list of occupied slot indices for a slot-array length and free set. -/
def occList (len : Nat) (free : List Nat) : List Nat :=
  (List.range len).filter (fun i => occB len free i)

/-- Multiset (as a list) of the values held in occupied slots. -/
def heapValues (h : Heap) : List Int :=
  ((List.range h.items.length).filter (fun i => occupiedIdx h i)).map
    (fun i => h.items.getD i 0)

/-! ## Sorters (`sort.py`)

The sorters only compare elements with `<` / `>` (`a > b` is `b < a` for the
payloads used here), so they are embedded generically over an element type
`α` and a strict comparison `lt : α → α → Bool`.  Claim C8 instantiates
`α := Int`, `lt := (· < ·)`; claim C9 instantiates key/tag pairs compared on
the key alone.  Python list mutation becomes `List.set` / `List.getD` on an
explicitly passed list; every `for` loop over indices becomes a recursion on
the same indices.  Loops whose bound cannot be read off the indices
(`while not done`, recursion of `quick_sort`) take explicit fuel chosen at
the call site; the correctness theorems prove those bounds sufficient. -/

section Sorters

variable {α : Type} [Inhabited α]

/-- The trailing `for` of `Sorter.is_sorted`: `val` is the previous element;
`val > next_val` (that is, `lt next_val val`) returns `False`. -/
def is_sorted_from (lt : α → α → Bool) (val : α) : List α → Bool
  | [] => true
  | next_val :: rest => if lt next_val val then false else is_sorted_from lt next_val rest

/-- `Sorter.is_sorted` (sort.py lines 26-36). -/
def is_sorted (lt : α → α → Bool) : List α → Bool
  | [] => true
  | val :: rest => is_sorted_from lt val rest

/-- One pass of `BubbleSorter.sort`'s inner `for i in xrange(len(data) - 1)`
loop from position `i`: swap adjacent out-of-order pairs
(`data[i] > data[i+1]`), clearing `done` whenever a swap fires. -/
def bubbleSweep (lt : α → α → Bool) (data : List α) (i : Nat) (done : Bool) :
    List α × Bool :=
  if i + 1 < data.length then
    if lt (data.getD (i + 1) default) (data.getD i default) then
      bubbleSweep lt
        ((data.set i (data.getD (i + 1) default)).set (i + 1) (data.getD i default))
        (i + 1) false
    else bubbleSweep lt data (i + 1) done
  else (data, done)
  termination_by data.length - i
  decreasing_by
    · simp only [List.length_set]; omega
    · omega

/-- The `while not done` loop of `BubbleSorter.sort`, with fuel (one unit per
pass; the sort below passes enough fuel to reach the fixed point). -/
def bubbleLoop (lt : α → α → Bool) : Nat → List α → List α
  | 0, data => data
  | fuel + 1, data =>
    let pass := bubbleSweep lt data 0 true
    if pass.2 then pass.1 else bubbleLoop lt fuel pass.1

/-- Number of inverted pairs; an upper bound on the passes `BubbleSorter`
needs. -/
def inversions (lt : α → α → Bool) : List α → Nat
  | [] => 0
  | a :: rest => (rest.filter (fun b => lt b a)).length + inversions lt rest

/-- `BubbleSorter.sort` (sort.py lines 41-52): `data = list(data_input)` then
swap passes until a pass performs no swap. -/
def bubble_sort (lt : α → α → Bool) (data : List α) : List α :=
  bubbleLoop lt (inversions lt data + 1) data

/-- The inner `for j in xrange(i, 0, -1)` loop of `InsertionSorter.sort`:
`j` counts down from `i` to `1`, swapping `data[j]`, `data[j-1]` whenever
`data[j] < data[j-1]` (no early exit). -/
def insertion_inner (lt : α → α → Bool) (data : List α) : Nat → List α
  | 0 => data
  | j + 1 =>
    insertion_inner lt
      (if lt (data.getD (j + 1) default) (data.getD j default) then
        (data.set (j + 1) (data.getD j default)).set j (data.getD (j + 1) default)
      else data) j

/-- The outer `for i in xrange(1, len(data))` loop of `InsertionSorter.sort`,
with fuel (the sort passes `len(data)`, which covers every iteration). -/
def insertion_outer (lt : α → α → Bool) : Nat → List α → Nat → List α
  | 0, data, _ => data
  | fuel + 1, data, i =>
    if i < data.length then insertion_outer lt fuel (insertion_inner lt data i) (i + 1)
    else data

/-- `InsertionSorter.sort` (sort.py lines 69-77). -/
def insertion_sort (lt : α → α → Bool) (data : List α) : List α :=
  insertion_outer lt data.length data 1

/-- The inner scan `for j in xrange(i, len(data))` of `SelectionSorter.sort`,
tracking `best_index` and `best_val`. -/
def selection_scan (lt : α → α → Bool) (data : List α) (j best_index : Nat)
    (best_val : α) : Nat × α :=
  if j < data.length then
    if lt (data.getD j default) best_val then
      selection_scan lt data (j + 1) j (data.getD j default)
    else selection_scan lt data (j + 1) best_index best_val
  else (best_index, best_val)
  termination_by data.length - j

/-- The outer `for i in xrange(len(data))` loop of `SelectionSorter.sort`:
scan for the minimum of the suffix, then swap it into position `i`. -/
def selection_outer (lt : α → α → Bool) : Nat → List α → Nat → List α
  | 0, data, _ => data
  | fuel + 1, data, i =>
    if i < data.length then
      let best := selection_scan lt data i i (data.getD i default)
      selection_outer lt fuel
        ((data.set i (data.getD best.1 default)).set best.1 (data.getD i default)) (i + 1)
    else data

/-- `SelectionSorter.sort` (sort.py lines 121-134). -/
def selection_sort (lt : α → α → Bool) (data : List α) : List α :=
  selection_outer lt data.length data 0

/-- The second/third `while` loops of `MergeSorter.merge`: append
`data[i..iend]` to `temp`. -/
def copy_seg (data : List α) (i iend : Nat) (temp : List α) : List α :=
  if i ≤ iend then copy_seg data (i + 1) iend (temp ++ [data.getD i default])
  else temp
  termination_by iend + 1 - i

/-- The first `while` loop of `MergeSorter.merge`: merge `data[li..left_end]`
and `data[ri..right_end]` into `temp`, taking the left element only when it
is strictly smaller. -/
def merge_fill (lt : α → α → Bool) (data : List α) (li left_end ri right_end : Nat)
    (temp : List α) : List α :=
  if li ≤ left_end ∧ ri ≤ right_end then
    if lt (data.getD li default) (data.getD ri default) then
      merge_fill lt data (li + 1) left_end ri right_end (temp ++ [data.getD li default])
    else merge_fill lt data li left_end (ri + 1) right_end (temp ++ [data.getD ri default])
  else copy_seg data ri right_end (copy_seg data li left_end temp)
  termination_by (left_end + 1 - li) + (right_end + 1 - ri)
  decreasing_by all_goals omega

/-- The final `for i in xrange(len(temp))` loop of `MergeSorter.merge`: write
`temp` back into `data` starting at position `pos`. -/
def write_seg (data : List α) (pos : Nat) : List α → List α
  | [] => data
  | t :: rest => write_seg (data.set pos t) (pos + 1) rest

/-- `MergeSorter.merge` (sort.py lines 94-116): `left_end = right - 1`. -/
def merge (lt : α → α → Bool) (data : List α) (left right right_end : Nat) : List α :=
  write_seg data left (merge_fill lt data left (right - 1) right right_end [])

/-- `MergeSorter.merge_sort` (sort.py lines 87-92): recursive halves, then
merge; `center = (left + right) / 2`. -/
def merge_sort (lt : α → α → Bool) (data : List α) (left right : Nat) : List α :=
  if left < right then
    let center := (left + right) / 2
    merge lt (merge_sort lt (merge_sort lt data left center) (center + 1) right)
      left (center + 1) right
  else data
  termination_by right - left
  decreasing_by all_goals omega

/-- `MergeSorter.sort` (sort.py lines 82-85): Python computes
`len(data_input) - 1`; for the empty list `-1` makes `left < right` fail, as
does the truncated `0` here. -/
def merge_sorter_sort (lt : α → α → Bool) (data : List α) : List α :=
  merge_sort lt data 0 (data.length - 1)

/-- The partition `for i in xrange(lo, hi + 1)` loop of
`QuickSorter.quick_sort`: rotate each value `< pivot_val` into the growing
low block; `pivot` tracks the slot currently holding `pivot_val`. -/
def partition_loop (lt : α → α → Bool) (pivot_val : α) (data : List α)
    (i hi pivot : Nat) : List α × Nat :=
  if i ≤ hi then
    if lt (data.getD i default) pivot_val then
      partition_loop lt pivot_val
        (((data.set pivot (data.getD i default)).set i
            (data.getD (pivot + 1) default)).set (pivot + 1) pivot_val)
        (i + 1) hi (pivot + 1)
    else partition_loop lt pivot_val data (i + 1) hi pivot
  else (data, pivot)
  termination_by hi + 1 - i

/-- `QuickSorter.quick_sort` (sort.py lines 144-160): `random.randint(lo, hi)`
becomes the pivot chooser `pick` (any function; correctness is proved for
every chooser that stays within `[lo, hi]`); the recursion takes fuel, one
unit per call, with `len(data)` fuel from `sort` — enough, as proved below,
whenever `pick` is in range. -/
def quick_sort (lt : α → α → Bool) (pick : Nat → Nat → Nat) :
    Nat → List α → Nat → Nat → List α
  | 0, data, _, _ => data
  | fuel + 1, data, lo, hi =>
    if lo ≥ hi then data
    else
      let pivot_val := data.getD (pick lo hi) default
      let d1 := (data.set (pick lo hi) (data.getD lo default)).set lo pivot_val
      let pr := partition_loop lt pivot_val d1 lo hi lo
      quick_sort lt pick fuel (quick_sort lt pick fuel pr.1 lo (pr.2 - 1)) (pr.2 + 1) hi

/-- `QuickSorter.sort` (sort.py lines 139-142). -/
def quick_sorter_sort (lt : α → α → Bool) (pick : Nat → Nat → Nat)
    (data : List α) : List α :=
  quick_sort lt pick data.length data 0 (data.length - 1)

end Sorters

/-- The second `for` loop of `HeapSorter.sort`: pop `n` times, collecting the
results (the Python code writes them into `data[i]`; after `len(data)` pops
the list is exactly the popped sequence).  A pop that errors stops the loop —
in Python it would raise; the proofs show it cannot happen here. -/
def heapPops : Nat → Heap → List Int
  | 0, _ => []
  | n + 1, h =>
    match h.pop with
    | (Except.ok v, h1) => v :: heapPops n h1
    | (Except.error _, _) => []

/-- `HeapSorter.sort` (sort.py lines 57-64): insert everything into a min
heap (`Heap()`), then pop `len(data)` times. -/
def heap_sorter_sort (data : List Int) : List Int :=
  heapPops data.length (data.foldl Heap.insert (Heap.new false))

/-- Key/tag pairs for stability claims: comparison looks at the key only, the
tag records the original position. -/
def ltKV (a b : Int × Nat) : Bool := decide (a.1 < b.1)

/-- The elements of `l` with key `k`, in order — stability says a sorter
preserves this list (same tags in the same order) for every key. -/
def keyFilter (k : Int) (l : List (Int × Nat)) : List (Int × Nat) :=
  l.filter (fun p => p.1 = k)

/-- A sorter on key/tag pairs is stable when it preserves the relative order
of equal-key elements. -/
def StableSort (f : List (Int × Nat) → List (Int × Nat)) : Prop :=
  ∀ l k, keyFilter k (f l) = keyFilter k l

/-- The comparison instantiating claim C8 at `Int`: Python's `<`. -/
def intLt (a b : Int) : Bool := decide (a < b)

/-- The slice `data[i..iend]` (inclusive) as a list. -/
def seg {α : Type} (data : List α) (i iend : Nat) : List α :=
  (data.drop i).take (iend + 1 - i)

/-- Pure two-list merge mirroring the first loop of `MergeSorter.merge`:
take the left element only when it is strictly smaller. -/
def mergeList {α : Type} (lt : α → α → Bool) : List α → List α → List α
  | [], ys => ys
  | x :: xs, [] => x :: xs
  | x :: xs, y :: ys =>
    if lt x y then x :: mergeList lt xs (y :: ys)
    else y :: mergeList lt (x :: xs) ys
termination_by xs ys => xs.length + ys.length

/-! ## Theorems: multiset behaviour of the tree operations -/

theorem count_insert_node (s t : BTree) (a : Int) :
    ((insert_node t s).toList.count a) = t.toList.count a + s.toList.count a := by
  match s with
  | nil =>
    cases t <;> simp [insert_node, toList]
  | node nl nd nr =>
    induction t with
    | nil => simp [insert_node, toList]
    | node l d r ihl ihr =>
      simp only [insert_node]
      split
      · simp only [toList, List.count_append, List.count_cons, ihr, toList] at *
        ring
      · simp only [toList, List.count_append, List.count_cons, ihl, toList] at *
        ring

theorem toList_insert_node (t s : BTree) :
    (insert_node t s).toList.Perm (t.toList ++ s.toList) := by
  rw [List.perm_iff_count]
  intro a
  rw [count_insert_node, List.count_append]

theorem toList_insert (t : BTree) (v : Int) :
    (insert t v).toList.Perm (t.toList ++ [v]) := by
  simpa [toList] using toList_insert_node t (node nil v nil)

theorem toList_rotate_left (t : BTree) : (rotate_left t).toList = t.toList := by
  match t with
  | nil => rfl
  | node l d nil => rfl
  | node l d (node rl rd rr) => simp [rotate_left, toList]

theorem toList_rotate_right (t : BTree) : (rotate_right t).toList = t.toList := by
  match t with
  | nil => rfl
  | node nil d r => rfl
  | node (node ll ld lr) d r => simp [rotate_right, toList]

theorem toList_balance_node : ∀ (fuel : Nat) (t : BTree),
    (balance_node fuel t).toList = t.toList
  | 0, t => rfl
  | _ + 1, nil => rfl
  | fuel + 1, node l d r => by
    rw [balance_node]
    have hl := toList_balance_node fuel l
    have hr := toList_balance_node fuel r
    split
    · split
      · simp [toList, hl, hr]
      · split
        · simp [toList, hl, hr]
        · rw [toList_balance_node fuel _, toList_rotate_right]
          simp [toList, hl, hr]
    · split
      · split
        · simp [toList, hl, hr]
        · split
          · simp [toList, hl, hr]
          · rw [toList_balance_node fuel _, toList_rotate_left]
            simp [toList, hl, hr]
      · simp [toList, hl, hr]

/-! ## Theorems: find / insert / delete -/

theorem find_eq_of_some : ∀ (t : BTree) (x d : Int), find t x = some d → d = x
  | nil, _, _ => by
    intro h
    cases h
  | node l dd r, x, d => by
    rw [find]
    split
    · intro h
      cases h
      assumption
    · split
      · exact fun h => find_eq_of_some r x d h
      · exact fun h => find_eq_of_some l x d h

theorem mem_of_find_some : ∀ (t : BTree) (x d : Int), find t x = some d → d ∈ t.toList
  | nil, _, _ => by
    intro h
    cases h
  | node l dd r, x, d => by
    rw [find]
    split
    · intro h
      cases h
      simp [toList]
    · split
      · intro h
        have := mem_of_find_some r x d h
        simp [toList]
        tauto
      · intro h
        have := mem_of_find_some l x d h
        simp [toList]
        tauto

theorem find_eq_none_of_not_mem (t : BTree) (x : Int) (h : x ∉ t.toList) :
    find t x = none := by
  cases hf : find t x with
  | none => rfl
  | some d =>
    have hd := find_eq_of_some t x d hf
    exact absurd (hd ▸ mem_of_find_some t x d hf) h

/-- C5: `find(x)` immediately after `insert(x)` returns a node whose datum
equals `x`, for every starting tree and every `x`, duplicates and the empty
tree included. -/
theorem claim_C5 (t : BTree) (x : Int) : find (insert t x) x = some x := by
  induction t with
  | nil => simp [insert, insert_node, find]
  | node l d r ihl ihr =>
    rw [insert, insert_node]
    split
    · rename_i hdx
      rw [find, if_neg (by omega : ¬ d = x), if_pos hdx]
      exact ihr
    · rename_i hdx
      by_cases hdeq : d = x
      · rw [find, if_pos hdeq, hdeq]
      · rw [find, if_neg hdeq, if_neg hdx]
        exact ihl

theorem delete_walk_not_mem : ∀ (t : BTree) (x : Int), x ∉ t.toList → delete_walk t x = t
  | nil, x, _ => rfl
  | node l d r, x, h => by
    have hl : x ∉ l.toList := by simp [toList] at h; tauto
    have hr : x ∉ r.toList := by simp [toList] at h; tauto
    have hd : d ≠ x := by simp [toList] at h; tauto
    rw [delete_walk.eq_def]
    simp only []
    split
    · match r with
      | nil => rfl
      | node rl rd rr =>
        have hrd : rd ≠ x := by simp [toList] at hr; tauto
        simp only []
        rw [if_neg hrd, delete_walk_not_mem (node rl rd rr) x hr]
    · match l with
      | nil => rfl
      | node ll ld lr =>
        have hld : ld ≠ x := by simp [toList] at hl; tauto
        simp only []
        rw [if_neg hld, delete_walk_not_mem (node ll ld lr) x hl]

theorem delete_item_not_mem (t : BTree) (x : Int) (h : x ∉ t.toList) :
    delete_item t x = t := by
  match t with
  | nil => rfl
  | node l d r =>
    have hd : d ≠ x := by simp [toList] at h; tauto
    rw [delete_item, if_neg hd]
    exact delete_walk_not_mem _ x h

/-- Either the walk deletes one occurrence of `x` (count drops by one), or it
misses and the tree — and therefore `find`, which takes the same turns — is
untouched. -/
theorem delete_walk_count : ∀ (t : BTree) (x : Int),
    (∀ l d r, t = node l d r → d ≠ x) →
    ((delete_walk t x).toList.count x = t.toList.count x - 1 ∧ 1 ≤ t.toList.count x)
    ∨ (delete_walk t x = t ∧ find t x = none)
  | nil, x, _ => Or.inr ⟨rfl, rfl⟩
  | node l d r, x, hroot => by
    have hd : d ≠ x := hroot l d r rfl
    rw [delete_walk.eq_def]
    simp only []
    split
    · rename_i hdx
      match r with
      | nil =>
        refine Or.inr ⟨rfl, ?_⟩
        rw [find, if_neg hd, if_pos hdx]
        rfl
      | node rl rd rr =>
        simp only []
        by_cases hrd : rd = x
        · subst hrd
          rw [if_pos rfl]
          refine Or.inl ⟨?_, ?_⟩
          · have h1 := count_insert_node rl (insert_node (node l d nil) rr) rd
            have h2 := count_insert_node rr (node l d nil) rd
            simp [toList, List.count_append, List.count_cons, hd] at h1 h2 ⊢ <;> omega
          · simp [toList, List.count_append, List.count_cons] <;> omega
        · rw [if_neg hrd]
          rcases delete_walk_count (node rl rd rr) x
              (by intro a b c h; cases h; exact hrd) with
            ⟨hcount, hge⟩ | ⟨heq, hfind⟩
          · refine Or.inl ⟨?_, ?_⟩
            · simp [toList, List.count_append, List.count_cons, hd] at hcount hge ⊢ <;> omega
            · simp [toList, List.count_append, List.count_cons, hd] at hge ⊢ <;> omega
          · refine Or.inr ⟨by rw [heq], ?_⟩
            rw [find, if_neg hd, if_pos hdx]
            exact hfind
    · rename_i hdx
      match l with
      | nil =>
        refine Or.inr ⟨rfl, ?_⟩
        rw [find, if_neg hd, if_neg hdx]
        rfl
      | node ll ld lr =>
        simp only []
        by_cases hld : ld = x
        · subst hld
          rw [if_pos rfl]
          refine Or.inl ⟨?_, ?_⟩
          · have h1 := count_insert_node ll (insert_node (node nil d r) lr) ld
            have h2 := count_insert_node lr (node nil d r) ld
            simp [toList, List.count_append, List.count_cons, hd] at h1 h2 ⊢ <;> omega
          · simp [toList, List.count_append, List.count_cons] <;> omega
        · rw [if_neg hld]
          rcases delete_walk_count (node ll ld lr) x
              (by intro a b c h; cases h; exact hld) with
            ⟨hcount, hge⟩ | ⟨heq, hfind⟩
          · refine Or.inl ⟨?_, ?_⟩
            · simp [toList, List.count_append, List.count_cons, hd] at hcount hge ⊢ <;> omega
            · simp [toList, List.count_append, List.count_cons, hd] at hge ⊢ <;> omega
          · refine Or.inr ⟨by rw [heq], ?_⟩
            rw [find, if_neg hd, if_neg hdx]
            exact hfind

theorem delete_item_count (t : BTree) (x : Int) :
    ((delete_item t x).toList.count x = t.toList.count x - 1 ∧ 1 ≤ t.toList.count x)
    ∨ (delete_item t x = t ∧ find t x = none) := by
  match t with
  | nil => exact Or.inr ⟨rfl, rfl⟩
  | node l d r =>
    by_cases hd : d = x
    · subst hd
      rw [delete_item, if_pos rfl]
      refine Or.inl ⟨?_, ?_⟩
      · have h1 := count_insert_node l (insert_node nil r) d
        have h2 := count_insert_node r nil d
        simp [toList, List.count_append, List.count_cons] at h1 h2 ⊢ <;> omega
      · simp [toList, List.count_append, List.count_cons] <;> omega
    · rw [delete_item, if_neg hd]
      exact delete_walk_count (node l d r) x (by intro a b c h; cases h; exact hd)

/-- C3: deleting a value that occurs exactly once makes a subsequent `find`
return `None`; deleting an absent value leaves the tree unchanged, so
`depth()` and `is_valid()` are stable and the delete is idempotent. -/
theorem claim_C3 (t : BTree) (x : Int) :
    (t.toList.count x = 1 → find (delete_item t x) x = none) ∧
    (x ∉ t.toList →
      delete_item t x = t ∧
      node_depth (delete_item t x) = node_depth t ∧
      is_valid (delete_item t x) = is_valid t ∧
      delete_item (delete_item t x) x = delete_item t x) := by
  constructor
  · intro hcount
    rcases delete_item_count t x with ⟨hc, _⟩ | ⟨heq, hfind⟩
    · refine find_eq_none_of_not_mem _ x ?_
      rw [← List.count_pos_iff]
      omega
    · rw [heq]
      exact hfind
  · intro hmem
    have heq := delete_item_not_mem t x hmem
    exact ⟨heq, by rw [heq], by rw [heq], by rw [heq, heq]⟩

theorem claim_C3_witness :
    find (delete_item (insert nil 5) 5) 5 = none ∧
    delete_item (insert nil 5) 7 = insert nil 5 :=
  ⟨(claim_C3 (insert nil 5) 5).1 (by decide),
   ((claim_C3 (insert nil 5) 7).2 (by decide)).1⟩

/-- C4: on the right-leaning chain built by inserting 18,19,20,21,22,23 into
an empty tree (depth 6), `balance()` brings the depth to exactly 4.  Fuel 30
is past the loop's fixed point on this input (`balance_node 6` already equals
every larger fuel). -/
theorem claim_C4 :
    node_depth (treeRun [TreeOp.ins 18, TreeOp.ins 19, TreeOp.ins 20,
      TreeOp.ins 21, TreeOp.ins 22, TreeOp.ins 23]) = 6 ∧
    node_depth (balance_node 30 (treeRun [TreeOp.ins 18, TreeOp.ins 19, TreeOp.ins 20,
      TreeOp.ins 21, TreeOp.ins 22, TreeOp.ins 23])) = 4 := by
  decide

/-- C10: `balance()` preserves the multiset of stored values, for every tree
and every fuel: the in-order list of the balanced tree is a permutation of
the original (in fact rotations preserve it exactly). -/
theorem claim_C10 (fuel : Nat) (t : BTree) :
    ((balance_node fuel t).toList).Perm t.toList := by
  rw [toList_balance_node]

/-! ## Theorems: validity of the tree operations -/

theorem is_valid_node_iff (l : BTree) (d : Int) (r : BTree) (mn mx : Option Int) :
    is_valid_node (node l d r) mn mx = true ↔
      lbOk mn d ∧ ubOk mx d ∧
        is_valid_node l mn (some d) = true ∧ is_valid_node r (some d) mx = true := by
  cases mn <;> cases mx <;>
    simp [is_valid_node, boundOk, lbOk, ubOk, Int.not_lt, and_assoc]

theorem ubOk_trans {mx : Option Int} {v d : Int} (h1 : v ≤ d) (h2 : ubOk mx d) :
    ubOk mx v := by
  cases mx <;> simp [ubOk] at h2 ⊢ <;> omega

theorem lbOk_trans {mn : Option Int} {v d : Int} (h1 : d ≤ v) (h2 : lbOk mn d) :
    lbOk mn v := by
  cases mn <;> simp [lbOk] at h2 ⊢ <;> omega

theorem mem_toList_left {l r : BTree} {d v : Int} (hv : v ∈ l.toList) :
    v ∈ (node l d r).toList := by
  simp only [toList, List.mem_append, List.mem_cons]
  exact Or.inl hv

theorem mem_toList_root (l r : BTree) (d : Int) : d ∈ (node l d r).toList := by
  simp [toList]

theorem mem_toList_right {l r : BTree} {d v : Int} (hv : v ∈ r.toList) :
    v ∈ (node l d r).toList := by
  simp only [toList, List.mem_append, List.mem_cons]
  exact Or.inr (Or.inr hv)

theorem valid_bounds : ∀ (t : BTree) (mn mx : Option Int),
    is_valid_node t mn mx = true → ∀ v ∈ t.toList, lbOk mn v ∧ ubOk mx v
  | nil, mn, mx, _ => by simp [toList]
  | node l d r, mn, mx, h => by
    rw [is_valid_node_iff] at h
    obtain ⟨h1, h2, h3, h4⟩ := h
    intro v hv
    simp only [toList, List.mem_append, List.mem_cons] at hv
    rcases hv with hv | hv | hv
    · obtain ⟨hl1, hl2⟩ := valid_bounds l mn (some d) h3 v hv
      exact ⟨hl1, ubOk_trans hl2 h2⟩
    · subst hv
      exact ⟨h1, h2⟩
    · obtain ⟨hr1, hr2⟩ := valid_bounds r (some d) mx h4 v hv
      exact ⟨lbOk_trans hr1 h1, hr2⟩

theorem valid_retighten : ∀ (t : BTree) (mn mx mn2 mx2 : Option Int),
    is_valid_node t mn mx = true →
    (∀ v ∈ t.toList, lbOk mn2 v) → (∀ v ∈ t.toList, ubOk mx2 v) →
    is_valid_node t mn2 mx2 = true
  | nil, _, _, _, _, _, _, _ => rfl
  | node l d r, mn, mx, mn2, mx2, h, hlb, hub => by
    rw [is_valid_node_iff] at h ⊢
    obtain ⟨h1, h2, h3, h4⟩ := h
    refine ⟨hlb d (mem_toList_root l r d), hub d (mem_toList_root l r d), ?_, ?_⟩
    · refine valid_retighten l mn (some d) mn2 (some d) h3 ?_ ?_
      · exact fun v hv => hlb v (mem_toList_left hv)
      · exact fun v hv => (valid_bounds l mn (some d) h3 v hv).2
    · refine valid_retighten r (some d) mx (some d) mx2 h4 ?_ ?_
      · exact fun v hv => (valid_bounds r (some d) mx h4 v hv).1
      · exact fun v hv => hub v (mem_toList_right hv)

/-- Reinserting a whole detached subtree `S` preserves validity, provided
every value of the host tree `T` lies entirely on one side of all of `S`,
the side agreeing with how the walk compares against `S`'s root datum `sd`.
This is the key fact behind `delete_item`'s reattachment strategy. -/
theorem insert_node_valid : ∀ (T sl : BTree) (sd : Int) (sr : BTree) (mn mx : Option Int),
    is_valid_node T mn mx = true →
    is_valid_node (node sl sd sr) mn mx = true →
    (∀ u ∈ T.toList,
      (u < sd → ∀ v ∈ (node sl sd sr).toList, u ≤ v) ∧
      (sd ≤ u → ∀ v ∈ (node sl sd sr).toList, v ≤ u)) →
    is_valid_node (insert_node T (node sl sd sr)) mn mx = true
  | nil, sl, sd, sr, mn, mx, _, hS, _ => hS
  | node l d r, sl, sd, sr, mn, mx, hT, hS, hsep => by
    rw [is_valid_node_iff] at hT
    obtain ⟨h1, h2, h3, h4⟩ := hT
    rw [insert_node]
    split
    · rename_i hlt
      rw [is_valid_node_iff]
      refine ⟨h1, h2, h3, ?_⟩
      refine insert_node_valid r sl sd sr (some d) mx h4 ?_ ?_
      · refine valid_retighten (node sl sd sr) mn mx (some d) mx hS ?_ ?_
        · intro v hv
          have := (hsep d (mem_toList_root l r d)).1 hlt v hv
          simpa [lbOk] using this
        · exact fun v hv => (valid_bounds (node sl sd sr) mn mx hS v hv).2
      · exact fun u hu => hsep u (mem_toList_right hu)
    · rename_i hge
      rw [is_valid_node_iff]
      refine ⟨h1, h2, ?_, h4⟩
      refine insert_node_valid l sl sd sr mn (some d) h3 ?_ ?_
      · refine valid_retighten (node sl sd sr) mn mx mn (some d) hS ?_ ?_
        · exact fun v hv => (valid_bounds (node sl sd sr) mn mx hS v hv).1
        · intro v hv
          have := (hsep d (mem_toList_root l r d)).2 (by omega) v hv
          simpa [ubOk] using this
      · exact fun u hu => hsep u (mem_toList_left hu)

/-- `insert` preserves `is_valid_node` for every value and any bounds the
value satisfies; at the top level the bounds are absent, so every insert
preserves validity. -/
theorem insert_node_leaf_valid (t : BTree) (v : Int) (mn mx : Option Int)
    (ht : is_valid_node t mn mx = true) (hlb : lbOk mn v) (hub : ubOk mx v) :
    is_valid_node (insert t v) mn mx = true := by
  refine insert_node_valid t nil v nil mn mx ht ?_ ?_
  · rw [is_valid_node_iff]
    exact ⟨hlb, hub, rfl, rfl⟩
  · intro u _
    constructor
    · intro hlt w hw
      simp [toList] at hw
      omega
    · intro hge w hw
      simp [toList] at hw
      omega

theorem insert_valid (t : BTree) (v : Int) (h : is_valid t = true) :
    is_valid (insert t v) = true := by
  exact insert_node_leaf_valid t v none none h trivial trivial

theorem lbOk_of_le {m v : Int} (h : m ≤ v) : lbOk (some m) v := h

theorem ubOk_of_le {m v : Int} (h : v ≤ m) : ubOk (some m) v := h

theorem le_of_lbOk {m v : Int} (h : lbOk (some m) v) : m ≤ v := h

theorem le_of_ubOk {m v : Int} (h : ubOk (some m) v) : v ≤ m := h

theorem rotate_right_valid : ∀ (t : BTree) (mn mx : Option Int),
    is_valid_node t mn mx = true → is_valid_node (rotate_right t) mn mx = true
  | nil, _, _, h => h
  | node nil d r, _, _, h => h
  | node (node ll ld lr) d r, mn, mx, h => by
    rw [is_valid_node_iff] at h
    obtain ⟨h1, h2, h3, h4⟩ := h
    rw [is_valid_node_iff] at h3
    obtain ⟨g1, g2, g3, g4⟩ := h3
    rw [rotate_right, is_valid_node_iff]
    refine ⟨g1, ubOk_trans (le_of_ubOk g2) h2, g3, ?_⟩
    rw [is_valid_node_iff]
    exact ⟨lbOk_of_le (le_of_ubOk g2), h2, g4, h4⟩

theorem rotate_left_valid : ∀ (t : BTree) (mn mx : Option Int),
    is_valid_node t mn mx = true → is_valid_node (rotate_left t) mn mx = true
  | nil, _, _, h => h
  | node l d nil, _, _, h => h
  | node l d (node rl rd rr), mn, mx, h => by
    rw [is_valid_node_iff] at h
    obtain ⟨h1, h2, h3, h4⟩ := h
    rw [is_valid_node_iff] at h4
    obtain ⟨g1, g2, g3, g4⟩ := h4
    rw [rotate_left, is_valid_node_iff]
    refine ⟨lbOk_trans (le_of_lbOk g1) h1, g2, ?_, g4⟩
    rw [is_valid_node_iff]
    exact ⟨h1, ubOk_of_le (le_of_lbOk g1), h3, g3⟩

theorem balance_node_valid : ∀ (fuel : Nat) (t : BTree) (mn mx : Option Int),
    is_valid_node t mn mx = true → is_valid_node (balance_node fuel t) mn mx = true
  | 0, t, _, _, h => h
  | _ + 1, nil, _, _, h => h
  | fuel + 1, node l d r, mn, mx, h => by
    rw [is_valid_node_iff] at h
    obtain ⟨h1, h2, h3, h4⟩ := h
    have hl := balance_node_valid fuel l mn (some d) h3
    have hr := balance_node_valid fuel r (some d) mx h4
    have hnode : is_valid_node (node (balance_node fuel l) d (balance_node fuel r)) mn mx
        = true := by
      rw [is_valid_node_iff]
      exact ⟨h1, h2, hl, hr⟩
    rw [balance_node]
    split
    · split
      · exact hnode
      · split
        · exact hnode
        · exact balance_node_valid fuel _ mn mx (rotate_right_valid _ mn mx hnode)
    · split
      · split
        · exact hnode
        · split
          · exact hnode
          · exact balance_node_valid fuel _ mn mx (rotate_left_valid _ mn mx hnode)
      · exact hnode

theorem insert_node_nil_left : ∀ (s : BTree), insert_node nil s = s
  | nil => rfl
  | node _ _ _ => rfl

theorem count_delete_walk_le : ∀ (t : BTree) (x a : Int),
    (delete_walk t x).toList.count a ≤ t.toList.count a
  | nil, x, a => le_refl _
  | node l d r, x, a => by
    rw [delete_walk.eq_def]
    simp only []
    split
    · match r with
      | nil => simp [toList]
      | node rl rd rr =>
        simp only []
        split
        · rename_i hrd
          subst hrd
          have h1 := count_insert_node rl (insert_node (node l d nil) rr) a
          have h2 := count_insert_node rr (node l d nil) a
          simp [toList, List.count_append, List.count_cons] at h1 h2 ⊢ <;> omega
        · have ih := count_delete_walk_le (node rl rd rr) x a
          simp [toList, List.count_append, List.count_cons] at ih ⊢ <;> omega
    · match l with
      | nil => simp [toList]
      | node ll ld lr =>
        simp only []
        split
        · rename_i hld
          subst hld
          have h1 := count_insert_node ll (insert_node (node nil d r) lr) a
          have h2 := count_insert_node lr (node nil d r) a
          simp [toList, List.count_append, List.count_cons] at h1 h2 ⊢ <;> omega
        · have ih := count_delete_walk_le (node ll ld lr) x a
          simp [toList, List.count_append, List.count_cons] at ih ⊢ <;> omega

theorem count_delete_item_le (t : BTree) (x a : Int) :
    (delete_item t x).toList.count a ≤ t.toList.count a := by
  match t with
  | nil => exact le_refl _
  | node l d r =>
    rw [delete_item]
    split
    · have h1 := count_insert_node l (insert_node nil r) a
      have h2 := count_insert_node r nil a
      simp [toList, List.count_append, List.count_cons] at h1 h2 ⊢ <;> omega
    · exact count_delete_walk_le (node l d r) x a

theorem nodup_delete_item (t : BTree) (x : Int) (h : t.toList.Nodup) :
    (delete_item t x).toList.Nodup := by
  rw [List.nodup_iff_count_le_one] at h ⊢
  exact fun a => le_trans (count_delete_item_le t x a) (h a)

theorem insert_node_nil_right : ∀ (t : BTree), insert_node t nil = t
  | nil => rfl
  | node _ _ _ => rfl

theorem mem_node_iff (l r : BTree) (d v : Int) :
    v ∈ (node l d r).toList ↔ v ∈ l.toList ∨ v = d ∨ v ∈ r.toList := by
  simp [toList]

theorem not_mem_toList_nil (v : Int) : v ∉ BTree.nil.toList := by
  simp [toList]

/-- The delete walk preserves validity on trees without duplicate values.
(With duplicates it can fail — see the C1 counterexample.) -/
theorem delete_walk_valid : ∀ (t : BTree) (x : Int) (mn mx : Option Int),
    (∀ l d r, t = node l d r → d ≠ x) →
    is_valid_node t mn mx = true → t.toList.Nodup →
    is_valid_node (delete_walk t x) mn mx = true
  | nil, _, _, _, _, _, _ => rfl
  | node l d r, x, mn, mx, hroot, hval, hnod => by
    have hd : d ≠ x := hroot l d r rfl
    rw [is_valid_node_iff] at hval
    obtain ⟨h1, h2, h3, h4⟩ := hval
    have Fl := valid_bounds l mn (some d) h3
    rw [delete_walk.eq_def]
    simp only []
    split
    · rename_i hdx
      match r with
      | nil =>
        rw [is_valid_node_iff]
        exact ⟨h1, h2, h3, rfl⟩
      | node rl rd rr =>
        rw [is_valid_node_iff] at h4
        obtain ⟨g1, g2, g3, g4⟩ := h4
        have Frl := valid_bounds rl (some d) (some rd) g3
        have Frr := valid_bounds rr (some rd) mx g4
        simp only []
        split
        · rename_i hrd
          -- the walk matched the right child; reattach rr then rl at this node
          have hnodL : (l.toList ++ d :: (rl.toList ++ rd :: rr.toList)).Nodup := by
            simpa [toList] using hnod
          have hcons : (d :: (rl.toList ++ rd :: rr.toList)).Nodup :=
            hnodL.of_append_right
          have hdnot : d ∉ rl.toList ++ rd :: rr.toList := (List.nodup_cons.mp hcons).1
          have hdisj : rl.toList.Disjoint (rd :: rr.toList) :=
            List.disjoint_of_nodup_append (List.nodup_cons.mp hcons).2
          have N : ∀ v ∈ rl.toList, v ≠ d ∧ v ≠ rd := by
            intro v hv
            constructor
            · rintro rfl
              exact hdnot (List.mem_append.mpr (Or.inl hv))
            · rintro rfl
              exact hdisj hv (List.mem_cons_self _ _)
          have hT : is_valid_node (node l d nil) mn mx = true := by
            rw [is_valid_node_iff]
            exact ⟨h1, h2, h3, rfl⟩
          have hT1 : is_valid_node (insert_node (node l d nil) rr) mn mx = true := by
            match rr with
            | nil => rw [insert_node_nil_right]; exact hT
            | node b1 b2 b3 =>
              refine insert_node_valid (node l d nil) b1 b2 b3 mn mx hT ?_ ?_
              · refine valid_retighten (node b1 b2 b3) (some rd) mx mn mx g4 ?_ ?_
                · intro v hv
                  have hdv : d ≤ v := by
                    have e1 := le_of_lbOk (Frr v hv).1
                    have e2 := le_of_lbOk g1
                    omega
                  exact lbOk_trans hdv h1
                · exact fun v hv => (Frr v hv).2
              · intro u hu
                rw [mem_node_iff] at hu
                have hud : u ≤ d := by
                  rcases hu with hu | hu | hu
                  · exact le_of_ubOk (Fl u hu).2
                  · omega
                  · exact absurd hu (not_mem_toList_nil u)
                have hrb2 : rd ≤ b2 := le_of_lbOk (Frr b2 (mem_toList_root b1 b3 b2)).1
                constructor
                · intro _ v hv
                  have e1 := le_of_lbOk (Frr v hv).1
                  have e2 := le_of_lbOk g1
                  omega
                · intro hb2u v hv
                  omega
          have hperm := toList_insert_node (node l d nil) rr
          match rl with
          | nil => rw [insert_node_nil_right]; exact hT1
          | node c1 c2 c3 =>
            refine insert_node_valid _ c1 c2 c3 mn mx hT1 ?_ ?_
            · refine valid_retighten (node c1 c2 c3) (some d) (some rd) mn mx g3 ?_ ?_
              · exact fun v hv => lbOk_trans (le_of_lbOk (Frl v hv).1) h1
              · exact fun v hv => ubOk_trans (le_of_ubOk (Frl v hv).2) g2
            · intro u hu
              have hu2 := hperm.subset hu
              rw [List.mem_append, mem_node_iff] at hu2
              have hc2 := Frl c2 (mem_toList_root c1 c3 c2)
              have hNc2 := N c2 (mem_toList_root c1 c3 c2)
              have hd_c2 : d < c2 := by
                have := le_of_lbOk hc2.1
                rcases hNc2 with ⟨e1, e2⟩
                omega
              have hc2_rd : c2 < rd := by
                have := le_of_ubOk hc2.2
                rcases hNc2 with ⟨e1, e2⟩
                omega
              constructor
              · intro hu_lt v hv
                have hvb1 := le_of_lbOk (Frl v hv).1
                have hNv := N v hv
                rcases hu2 with (hu | hu | hu) | hu
                · have := le_of_ubOk (Fl u hu).2
                  rcases hNv with ⟨e1, e2⟩
                  omega
                · rcases hNv with ⟨e1, e2⟩
                  omega
                · exact absurd hu (not_mem_toList_nil u)
                · have := le_of_lbOk (Frr u hu).1
                  omega
              · intro hu_ge v hv
                have hvb2 := le_of_ubOk (Frl v hv).2
                rcases hu2 with (hu | hu | hu) | hu
                · have := le_of_ubOk (Fl u hu).2
                  omega
                · omega
                · exact absurd hu (not_mem_toList_nil u)
                · have := le_of_lbOk (Frr u hu).1
                  omega
        · rename_i hrd
          -- recurse into the right child
          rw [is_valid_node_iff]
          refine ⟨h1, h2, h3, ?_⟩
          have hnodr : (node rl rd rr).toList.Nodup := by
            have hnodL : (l.toList ++ d :: (rl.toList ++ rd :: rr.toList)).Nodup := by
              simpa [toList] using hnod
            simpa [toList] using (List.nodup_cons.mp hnodL.of_append_right).2
          exact delete_walk_valid (node rl rd rr) x (some d) mx
            (by intro a b c hh; cases hh; exact hrd)
            (by rw [is_valid_node_iff]; exact ⟨g1, g2, g3, g4⟩) hnodr
    · rename_i hdx
      have hxd : x < d := by omega
      match l with
      | nil =>
        rw [is_valid_node_iff]
        exact ⟨h1, h2, rfl, h4⟩
      | node ll ld lr =>
        rw [is_valid_node_iff] at h3
        obtain ⟨k1, k2, k3, k4⟩ := h3
        have Fll := valid_bounds ll mn (some ld) k3
        have Flr := valid_bounds lr (some ld) (some d) k4
        have Fr := valid_bounds r (some d) mx h4
        simp only []
        split
        · rename_i hld
          -- the walk matched the left child; reattach lr then ll at this node
          have hnodL : ((ll.toList ++ ld :: lr.toList) ++ d :: r.toList).Nodup := by
            simpa [toList] using hnod
          have hleft : (ll.toList ++ ld :: lr.toList).Nodup := hnodL.of_append_left
          have hdisj2 : (ll.toList ++ ld :: lr.toList).Disjoint (d :: r.toList) :=
            List.disjoint_of_nodup_append hnodL
          have hldnot : ld ∉ lr.toList := (List.nodup_cons.mp hleft.of_append_right).1
          have N : ∀ v ∈ lr.toList, v ≠ ld ∧ v ≠ d := by
            intro v hv
            constructor
            · rintro rfl
              exact hldnot hv
            · rintro rfl
              refine hdisj2 ?_ (List.mem_cons_self _ _)
              exact List.mem_append.mpr (Or.inr (List.mem_cons_of_mem _ hv))
          have hT : is_valid_node (node nil d r) mn mx = true := by
            rw [is_valid_node_iff]
            exact ⟨h1, h2, rfl, h4⟩
          have hT1 : is_valid_node (insert_node (node nil d r) lr) mn mx = true := by
            match lr with
            | nil => rw [insert_node_nil_right]; exact hT
            | node b1 b2 b3 =>
              refine insert_node_valid (node nil d r) b1 b2 b3 mn mx hT ?_ ?_
              · refine valid_retighten (node b1 b2 b3) (some ld) (some d) mn mx k4 ?_ ?_
                · exact fun v hv => lbOk_trans (le_of_lbOk (Flr v hv).1) k1
                · exact fun v hv => ubOk_trans (le_of_ubOk (Flr v hv).2) h2
              · intro u hu
                rw [mem_node_iff] at hu
                have hdu : d ≤ u := by
                  rcases hu with hu | hu | hu
                  · exact absurd hu (not_mem_toList_nil u)
                  · omega
                  · exact le_of_lbOk (Fr u hu).1
                have hb2 := Flr b2 (mem_toList_root b1 b3 b2)
                have hNb2 := N b2 (mem_toList_root b1 b3 b2)
                have hb2d : b2 < d := by
                  have := le_of_ubOk hb2.2
                  rcases hNb2 with ⟨e1, e2⟩
                  omega
                constructor
                · intro hu_lt v hv
                  omega
                · intro _ v hv
                  have := le_of_ubOk (Flr v hv).2
                  rcases N v hv with ⟨e1, e2⟩
                  omega
          have hperm := toList_insert_node (node nil d r) lr
          match ll with
          | nil => rw [insert_node_nil_right]; exact hT1
          | node c1 c2 c3 =>
            refine insert_node_valid _ c1 c2 c3 mn mx hT1 ?_ ?_
            · refine valid_retighten (node c1 c2 c3) mn (some ld) mn mx k3 ?_ ?_
              · exact fun v hv => (Fll v hv).1
              · intro v hv
                have e1 := le_of_ubOk (Fll v hv).2
                have e2 := le_of_ubOk k2
                exact ubOk_trans (by omega : v ≤ d) h2
            · intro u hu
              have hu2 := hperm.subset hu
              rw [List.mem_append, mem_node_iff] at hu2
              have hc2 : c2 ≤ ld := le_of_ubOk (Fll c2 (mem_toList_root c1 c3 c2)).2
              constructor
              · intro hu_lt v hv
                exfalso
                rcases hu2 with (hu | hu | hu) | hu
                · exact (not_mem_toList_nil u) hu
                · omega
                · have e1 := le_of_lbOk (Fr u hu).1
                  omega
                · have e1 := le_of_lbOk (Flr u hu).1
                  rcases N u hu with ⟨e2, e3⟩
                  omega
              · intro hu_ge v hv
                have hvld : v ≤ ld := le_of_ubOk (Fll v hv).2
                rcases hu2 with (hu | hu | hu) | hu
                · exact absurd hu (not_mem_toList_nil u)
                · omega
                · have e1 := le_of_lbOk (Fr u hu).1
                  omega
                · have e1 := le_of_lbOk (Flr u hu).1
                  rcases N u hu with ⟨e2, e3⟩
                  omega
        · rename_i hld
          -- recurse into the left child
          rw [is_valid_node_iff]
          refine ⟨h1, h2, ?_, h4⟩
          have hnodl : (node ll ld lr).toList.Nodup := by
            have hnodL : ((node ll ld lr).toList ++ d :: r.toList).Nodup := by
              simpa [toList] using hnod
            exact hnodL.of_append_left
          exact delete_walk_valid (node ll ld lr) x mn (some d)
            (by intro a b c hh; cases hh; exact hld)
            (by rw [is_valid_node_iff]; exact ⟨k1, k2, k3, k4⟩) hnodl

theorem delete_item_valid (t : BTree) (x : Int) (hv : is_valid t = true)
    (hn : t.toList.Nodup) : is_valid (delete_item t x) = true := by
  match t with
  | nil => exact rfl
  | node l d r =>
    rw [delete_item]
    split
    · rename_i hdeq
      rw [is_valid] at hv ⊢
      rw [is_valid_node_iff] at hv
      obtain ⟨h1, h2, h3, h4⟩ := hv
      have Fl := valid_bounds l none (some d) h3
      have Fr := valid_bounds r (some d) none h4
      rw [insert_node_nil_left]
      match l with
      | nil =>
        rw [insert_node_nil_right]
        exact valid_retighten r (some d) none none none h4 (fun v _ => trivial)
          (fun v _ => trivial)
      | node c1 c2 c3 =>
        refine insert_node_valid r c1 c2 c3 none none ?_ ?_ ?_
        · exact valid_retighten r (some d) none none none h4 (fun v _ => trivial)
            (fun v _ => trivial)
        · exact valid_retighten (node c1 c2 c3) none (some d) none none h3
            (fun v _ => trivial) (fun v _ => trivial)
        · intro u hu
          have hdu : d ≤ u := le_of_lbOk (Fr u hu).1
          have hc2 : c2 ≤ d := le_of_ubOk (Fl c2 (mem_toList_root c1 c3 c2)).2
          constructor
          · intro hlt v hv2
            omega
          · intro hge v hv2
            have := le_of_ubOk (Fl v hv2).2
            omega
    · rename_i hdeq
      exact delete_walk_valid (node l d r) x none none
        (by intro a b c hh; cases hh; exact hdeq) hv hn

theorem nodup_insert_fresh (t : BTree) (v : Int) (hn : t.toList.Nodup)
    (hvm : v ∉ t.toList) : (insert t v).toList.Nodup := by
  rw [(toList_insert t v).nodup_iff, List.nodup_append]
  refine ⟨hn, List.nodup_singleton v, ?_⟩
  intro a ha hav
  rw [List.mem_singleton] at hav
  subst hav
  exact hvm ha

theorem treeRun_invariant : ∀ (ops : List TreeOp) (t : BTree),
    is_valid t = true → t.toList.Nodup → freshInserts t ops = true →
    is_valid (ops.foldl treeStep t) = true ∧ (ops.foldl treeStep t).toList.Nodup
  | [], t, hv, hn, _ => ⟨hv, hn⟩
  | TreeOp.ins v :: rest, t, hv, hn, hf => by
    rw [freshInserts, Bool.and_eq_true] at hf
    obtain ⟨hf1, hf2⟩ := hf
    have hvm : v ∉ t.toList := by simpa using hf1
    rw [List.foldl_cons]
    exact treeRun_invariant rest (insert t v) (insert_valid t v hv)
      (nodup_insert_fresh t v hn hvm) hf2
  | TreeOp.del v :: rest, t, hv, hn, hf => by
    rw [freshInserts] at hf
    rw [List.foldl_cons]
    exact treeRun_invariant rest (delete_item t v) (delete_item_valid t v hv hn)
      (nodup_delete_item t v hn) hf
  | TreeOp.bal fuel :: rest, t, hv, hn, hf => by
    rw [freshInserts] at hf
    rw [List.foldl_cons]
    refine treeRun_invariant rest (balance_node fuel t)
      (balance_node_valid fuel t none none hv) ?_ hf
    rw [toList_balance_node]
    exact hn

theorem freshInserts_append : ∀ (pre suf : List TreeOp) (t : BTree),
    freshInserts t (pre ++ suf) = true → freshInserts t pre = true
  | [], _, _, _ => rfl
  | TreeOp.ins v :: rest, suf, t, h => by
    rw [List.cons_append, freshInserts, Bool.and_eq_true] at h
    rw [freshInserts, Bool.and_eq_true]
    exact ⟨h.1, freshInserts_append rest suf (insert t v) h.2⟩
  | TreeOp.del v :: rest, suf, t, h => by
    rw [List.cons_append, freshInserts] at h
    rw [freshInserts]
    exact freshInserts_append rest suf (delete_item t v) h
  | TreeOp.bal fuel :: rest, suf, t, h => by
    rw [List.cons_append, freshInserts] at h
    rw [freshInserts]
    exact freshInserts_append rest suf (balance_node fuel t) h

/-- C1 counterexample: starting from an empty tree, the call sequence
`insert(2); insert(1); insert(1); insert(1); balance(); insert(2); delete(2)`
leaves `is_valid()` false, so the claim fails as stated (duplicates
included).  `balance()` rotates a duplicate `1` to the root with the old
root in its right branch; the final `delete(2)` then reattaches the subtree
`1 → right 2` under the root's left branch, where the maximum bound is `1`.
The balance fuel 30 is far past the loop's fixed point on this input. -/
theorem claim_C1_counterexample :
    is_valid (treeRun [TreeOp.ins 2, TreeOp.ins 1, TreeOp.ins 1, TreeOp.ins 1,
      TreeOp.bal 30, TreeOp.ins 2, TreeOp.del 2]) = false := by
  decide

/-- C1 (amended): for every sequence of insert/delete/balance operations from
the empty tree in which each inserted value is not already in the tree at the
moment of its insert (in particular, for pairwise-distinct inserts),
`is_valid()` returns true after every call — stated for every prefix `pre` of
the sequence, with `bal` carrying any fuel. -/
theorem claim_C1_amended (pre suf : List TreeOp)
    (h : freshInserts nil (pre ++ suf) = true) :
    is_valid (treeRun pre) = true := by
  have hp := freshInserts_append pre suf nil h
  exact (treeRun_invariant pre nil rfl List.nodup_nil hp).1

theorem claim_C1_amended_witness :
    freshInserts nil ([TreeOp.ins 2, TreeOp.ins 1, TreeOp.del 2, TreeOp.bal 5]
      ++ [TreeOp.ins 3]) = true ∧
    is_valid (treeRun [TreeOp.ins 2, TreeOp.ins 1, TreeOp.del 2, TreeOp.bal 5]) = true :=
  ⟨by decide,
   claim_C1_amended [TreeOp.ins 2, TreeOp.ins 1, TreeOp.del 2, TreeOp.bal 5]
     [TreeOp.ins 3] (by decide)⟩

theorem insert_walk_ok : ∀ (fuel : Nat) (l : BTree) (d : Int) (r nl : BTree)
    (nd : Int) (nr : BTree), node_depth (node l d r) ≤ fuel →
    insert_walk fuel (node l d r) (node nl nd nr)
      = Except.ok (insert_node (node l d r) (node nl nd nr))
  | 0, l, d, r, nl, nd, nr, hfuel => by
    rw [node_depth] at hfuel
    omega
  | fuel + 1, l, d, r, nl, nd, nr, hfuel => by
    have hml := Nat.le_max_left (node_depth l) (node_depth r)
    have hmr := Nat.le_max_right (node_depth l) (node_depth r)
    rw [node_depth] at hfuel
    rw [insert_walk.eq_def, insert_node]
    simp only []
    split
    · match r with
      | nil => rw [insert_node_nil_left]
      | node rl rd rr =>
        simp only []
        rw [insert_walk_ok fuel rl rd rr nl nd nr (by omega)]
        rfl
    · match l with
      | nil => rw [insert_node_nil_left]
      | node ll ld lr =>
        simp only []
        rw [insert_walk_ok fuel ll ld lr nl nd nr (by omega)]
        rfl

/-- C7: for every (finite, acyclic by construction) tree and every new node,
the insert walk terminates by placing the node — given fuel at least the
tree's depth (the walk visits one node per level), it returns `Except.ok`
with exactly the `insert_node` result; the `raise ValueError` branch is
unreachable. -/
theorem claim_C7 (fuel : Nat) (t n : BTree) (hfuel : node_depth t ≤ fuel) :
    insert_node_fueled fuel t n = Except.ok (insert_node t n) := by
  match n with
  | nil =>
    rw [insert_node_fueled, insert_node_nil_right]
  | node nl nd nr =>
    match t with
    | nil => rw [insert_node_fueled, insert_node_nil_left]
    | node l d r => exact insert_walk_ok fuel l d r nl nd nr hfuel

theorem claim_C7_witness :
    node_depth (insert nil 5) ≤ 3 ∧
    insert_node_fueled 3 (insert nil 5) (node nil 7 nil)
      = Except.ok (insert_node (insert nil 5) (node nil 7 nil)) :=
  ⟨by decide, claim_C7 3 (insert nil 5) (node nil 7 nil) (by decide)⟩

/-! ## Theorems: heap -/

theorem pop_state_of_empty (h : Heap) (hc : h.count ≤ 0) : h.pop = (Except.error (), h) := by
  have hp : h.peek = Except.error () := by rw [Heap.peek, if_pos hc]
  rw [Heap.pop]
  rw [hp]

/-- C6: `peek()` and `pop()` on a heap whose count is not positive (in
particular a fresh heap) return the error outcome — `raise ValueError`
modelled as `Except.error` — rather than any value, and `pop` leaves the
heap state unchanged (the error is raised before any mutation). -/
theorem claim_C6 (h : Heap) (hc : h.count ≤ 0) :
    h.peek = Except.error () ∧ h.pop = (Except.error (), h) :=
  ⟨by rw [Heap.peek, if_pos hc], pop_state_of_empty h hc⟩

theorem claim_C6_witness :
    (Heap.new false).peek = Except.error () ∧
    (Heap.new false).pop = (Except.error (), Heap.new false) :=
  claim_C6 (Heap.new false) (by decide)

theorem getD_set_self (l : List Int) (i : Nat) (v : Int) (h : i < l.length) :
    (l.set i v).getD i 0 = v := by
  simp [List.getD_eq_getElem?_getD, List.getElem?_set, h]

theorem getD_set_ne (l : List Int) (i j : Nat) (v : Int) (h : i ≠ j) :
    (l.set i v).getD j 0 = l.getD j 0 := by
  simp [List.getD_eq_getElem?_getD, List.getElem?_set, h]

theorem heapOrder_total (m : Bool) (a b : Int) (h : heapOrder m a b = false) :
    heapOrder m b a = true := by
  cases m <;> simp [heapOrder] at h ⊢ <;> omega

theorem heapOrder_trans (m : Bool) (a b c : Int) (h1 : heapOrder m a b = true)
    (h2 : heapOrder m b c = true) : heapOrder m a c = true := by
  cases m <;> simp [heapOrder] at h1 h2 ⊢ <;> omega

theorem mem_setAdd : ∀ (free : List Nat) (i j : Nat),
    (j ∈ setAdd i free ↔ j = i ∨ j ∈ free)
  | [], i, j => by simp [setAdd]
  | k :: rest, i, j => by
    rw [setAdd]
    split
    · simp
    · split
      · rename_i hlt heq
        subst heq
        simp
      · simp [mem_setAdd rest i j]
        tauto


theorem sorted_setAdd : ∀ (free : List Nat) (i : Nat),
    free.Sorted (· < ·) → (setAdd i free).Sorted (· < ·)
  | [], i, _ => List.sorted_singleton i
  | k :: rest, i, hs => by
    rw [List.sorted_cons] at hs
    obtain ⟨hk, hrest⟩ := hs
    rw [setAdd]
    split
    · rename_i hlt
      rw [List.sorted_cons]
      refine ⟨?_, ?_⟩
      · intro b hb
        rw [List.mem_cons] at hb
        rcases hb with hb | hb
        · omega
        · have := hk b hb
          omega
      · rw [List.sorted_cons]
        exact ⟨hk, hrest⟩
    · split
      · rename_i heq
        rw [List.sorted_cons]
        exact ⟨hk, hrest⟩
      · rename_i hlt heq
        rw [List.sorted_cons]
        refine ⟨?_, sorted_setAdd rest i hrest⟩
        intro b hb
        rw [mem_setAdd] at hb
        rcases hb with hb | hb
        · omega
        · exact hk b hb

theorem length_setAdd : ∀ (free : List Nat) (i : Nat), free.contains i = false →
    (setAdd i free).length = free.length + 1
  | [], i, _ => rfl
  | k :: rest, i, hni => by
    simp only [List.contains_cons, Bool.or_eq_false_iff] at hni
    obtain ⟨h1, h2⟩ := hni
    rw [setAdd]
    split
    · rfl
    · split
      · rename_i heq
        exact absurd heq (by simpa using h1)
      · simp [length_setAdd rest i h2]

theorem not_contains_iff (free : List Nat) (i : Nat) :
    free.contains i = false ↔ i ∉ free := by
  simp

theorem occB_iff (len : Nat) (free : List Nat) (i : Nat) :
    occB len free i = true ↔ 1 ≤ i ∧ i < len ∧ i ∉ free := by
  simp [occB, and_assoc]

theorem occ_chain (len : Nat) (free : List Nat) (hpo : parentOcc len free) :
    ∀ j, occB len free j = true → occB len free 1 = true
  | 0, hj => by
    rw [occB_iff] at hj
    omega
  | 1, hj => hj
  | j + 2, hj => occ_chain len free hpo ((j + 2) / 2) (hpo (j + 2) (by omega) hj)
  termination_by j => j
  decreasing_by omega

theorem one_not_free (len : Nat) (free : List Nat)
    (hbound : ∀ j ∈ free, 1 ≤ j ∧ j < len) (hpo : parentOcc len free)
    (hlen : free.length + 1 < len) : free.contains 1 = false := by
  rw [not_contains_iff]
  intro h1
  have hall : ∀ j, 1 ≤ j → j < len → j ∈ free := by
    intro j hj1 hj2
    by_contra hj
    have hocc : occB len free j = true := by
      rw [occB_iff]
      exact ⟨hj1, hj2, hj⟩
    have := occ_chain len free hpo j hocc
    rw [occB_iff] at this
    exact this.2.2 h1
  have hsub : Finset.Ico 1 len ⊆ free.toFinset := by
    intro j hj
    rw [Finset.mem_Ico] at hj
    rw [List.mem_toFinset]
    exact hall j hj.1 hj.2
  have hcard := Finset.card_le_card hsub
  rw [Nat.card_Ico] at hcard
  have := List.toFinset_card_le free
  omega

/-- The bubble-up loop of `Heap.insert` restores the heap order: if every
occupied parent/child pair except those under or at `index` is ordered, and
the value above `index` dominates `index`'s children, then after the loop
every occupied pair is ordered.  The slot array length, the free set and the
occupancy are untouched. -/
theorem bubble_up_spec (is_max : Bool) (len : Nat) (free : List Nat) (index : Nat) :
    ∀ (items : List Int),
    items.length = len →
    parentOcc len free →
    1 ≤ index → index < len → free.contains index = false →
    (∀ c, 2 ≤ c → occB len free c = true → c ≠ index →
      heapOrder is_max (items.getD (c / 2) 0) (items.getD c 0) = true) →
    (2 ≤ index → ∀ c, 2 ≤ c → occB len free c = true → c / 2 = index →
      heapOrder is_max (items.getD (index / 2) 0) (items.getD c 0) = true) →
    (bubble_up is_max items index).length = len ∧
    (∀ c, 2 ≤ c → occB len free c = true →
      heapOrder is_max ((bubble_up is_max items index).getD (c / 2) 0)
        ((bubble_up is_max items index).getD c 0) = true) := by
  induction index using Nat.strong_induction_on with
  | _ index ih =>
    intro items hlen hpo hge1 hlt hnf hA hB
    rw [bubble_up]
    split
    · rename_i hidx
      dsimp only
      split
      · rename_i hord
        refine ⟨hlen, ?_⟩
        intro c hc2 hoc
        by_cases hci : c = index
        · subst hci
          exact hord
        · exact hA c hc2 hoc hci
      · rename_i hord
        have hord2 : heapOrder is_max (items.getD (index / 2) 0)
            (items.getD index 0) = false := by
          rw [Bool.eq_false_iff]
          exact hord
        have hoccI : occB len free index = true := by
          rw [occB_iff]
          refine ⟨hge1, hlt, by simpa using hnf⟩
        have hoccP : occB len free (index / 2) = true := hpo index (by omega) hoccI
        have hply : index / 2 < len := ((occB_iff len free (index / 2)).mp hoccP).2.1
        have hpnf : (index / 2) ∉ free := ((occB_iff len free (index / 2)).mp hoccP).2.2
        have hpge1 : 1 ≤ index / 2 := ((occB_iff len free (index / 2)).mp hoccP).1
        have hpi : index / 2 ≠ index := by omega
        have hv2 : ∀ k, k ≠ index → k ≠ index / 2 →
            (((items.set index (items.getD (index / 2) 0)).set (index / 2)
              (items.getD index 0)).getD k 0) = items.getD k 0 := by
          intro k hk1 hk2
          rw [getD_set_ne _ _ _ _ (fun he => hk2 he.symm),
            getD_set_ne _ _ _ _ (fun he => hk1 he.symm)]
        have hvI : (((items.set index (items.getD (index / 2) 0)).set (index / 2)
            (items.getD index 0)).getD index 0) = items.getD (index / 2) 0 := by
          rw [getD_set_ne _ _ _ _ hpi, getD_set_self _ _ _ (by omega)]
        have hvP : (((items.set index (items.getD (index / 2) 0)).set (index / 2)
            (items.getD index 0)).getD (index / 2) 0) = items.getD index 0 := by
          rw [getD_set_self _ _ _ (by simp; omega)]
        refine ih (index / 2) (by omega) _ (by simp [hlen]) hpo hpge1 (by omega)
          (by simpa using hpnf) ?_ ?_
        · -- ordered except at index / 2
          intro c hc2 hoc hcp
          by_cases hci : c = index
          · rw [hci, hvP, hvI]
            exact heapOrder_total is_max _ _ hord2
          · by_cases hcc : c / 2 = index
            · have hcgt : index < c := by omega
              rw [hv2 c hci (by omega)]
              rw [hcc, hvI]
              exact hB (by omega) c hc2 hoc hcc
            · by_cases hcpp : c / 2 = index / 2
              · rw [hv2 c hci (by omega), hcpp, hvP]
                refine heapOrder_trans is_max _ _ _
                  (heapOrder_total is_max _ _ hord2) ?_
                have := hA c hc2 hoc hci
                rw [hcpp] at this
                exact this
              · rw [hv2 c hci (by omega), hv2 (c / 2) hcc hcpp]
                exact hA c hc2 hoc hci
        · -- the value above index / 2 dominates its children
          intro hp2 c hc2 hoc hcp
          have hgne1 : index / 2 / 2 ≠ index := by omega
          have hgne2 : index / 2 / 2 ≠ index / 2 := by omega
          rw [hv2 _ hgne1 hgne2]
          have hstep : heapOrder is_max (items.getD (index / 2 / 2) 0)
              (items.getD (index / 2) 0) = true :=
            hA (index / 2) hp2 hoccP hpi
          by_cases hci : c = index
          · subst hci
            rw [hvI]
            exact hstep
          · rw [hv2 c hci (by omega)]
            refine heapOrder_trans is_max _ _ _ hstep ?_
            have := hA c hc2 hoc hci
            rw [hcp] at this
            exact this
    · rename_i hidx
      refine ⟨hlen, ?_⟩
      intro c hc2 hoc
      exact hA c hc2 hoc (by omega)

theorem insert_free_nil (h : Heap) (v : Int) (hfs : h.invalid_index_set = []) :
    h.insert v =
      { items := bubble_up h.is_max_heap ((h.items ++ [v]).set h.items.length v)
          h.items.length,
        item_count := h.item_count + 1,
        invalid_index_set := [],
        is_max_heap := h.is_max_heap } := by
  rw [Heap.insert, Heap.insert_at_next_index, hfs]

theorem insert_free_cons (h : Heap) (v : Int) (f : Nat) (rest : List Nat)
    (hfs : h.invalid_index_set = f :: rest) :
    h.insert v =
      { items := bubble_up h.is_max_heap ((h.items.set f v).set f v) f,
        item_count := h.item_count + 1,
        invalid_index_set := rest,
        is_max_heap := h.is_max_heap } := by
  rw [Heap.insert, Heap.insert_at_next_index, hfs]

theorem pop_pos_eq (h : Heap) (hc : ¬ h.count ≤ 0) :
    h.pop = (Except.ok (h.items.getD 1 0),
      { items := (pop_walk h.is_max_heap h.items h.invalid_index_set 1).1,
        item_count := h.item_count - 1,
        invalid_index_set := (pop_walk h.is_max_heap h.items h.invalid_index_set 1).2,
        is_max_heap := h.is_max_heap }) := by
  have hp : h.peek = Except.ok (h.items.getD 1 0) := by rw [Heap.peek, if_neg hc]
  rw [Heap.pop, hp]

theorem HeapInv_mk (items : List Int) (cnt : Int) (free : List Nat) (m : Bool)
    (h1 : 1 ≤ items.length) (h2 : free.Sorted (· < ·))
    (h3 : ∀ j ∈ free, 1 ≤ j ∧ j < items.length)
    (h4 : cnt = (items.length : Int) - 1 - free.length)
    (h5 : parentOcc items.length free)
    (h6 : ∀ c, 2 ≤ c → occB items.length free c = true →
      heapOrder m (items.getD (c / 2) 0) (items.getD c 0) = true) :
    HeapInv
      { items := items, item_count := cnt, invalid_index_set := free,
        is_max_heap := m } := by
  refine ⟨h1, h2, h3, h4, h5, ?_⟩
  intro i hi hi2 ho _
  exact h6 i hi2 ho

theorem insert_inv (h : Heap) (v : Int) (hinv : HeapInv h) : HeapInv (h.insert v) := by
  obtain ⟨hlen1, hsort, hbound, hcount, hpo, hprop⟩ := hinv
  cases hfs : h.invalid_index_set with
  | nil =>
    rw [insert_free_nil h v hfs]
    have hlen2 : ((h.items ++ [v]).set h.items.length v).length = h.items.length + 1 := by
      simp
    have hg1 : ∀ j, j < h.items.length →
        ((h.items ++ [v]).set h.items.length v).getD j 0 = h.items.getD j 0 := by
      intro j hj
      rw [getD_set_ne _ _ _ _ (by omega)]
      simp [List.getD_eq_getElem?_getD, List.getElem?_append, hj]
    have hpo2 : parentOcc (h.items.length + 1) [] := by
      intro i h2 hocc
      rw [occB_iff] at hocc ⊢
      refine ⟨by omega, by omega, by simp⟩
    obtain ⟨hblen, hbord⟩ := bubble_up_spec h.is_max_heap (h.items.length + 1) []
      h.items.length ((h.items ++ [v]).set h.items.length v) hlen2 hpo2 (by omega)
      (by omega) (by simp)
      (by
        intro c hc2 hoc hci
        rw [occB_iff] at hoc
        have hclt : c < h.items.length := by omega
        rw [hg1 c (by omega), hg1 (c / 2) (by omega)]
        refine hprop c (by omega) (by omega) ?_ ?_
        · rw [occupiedIdx, occB_iff, hfs]
          exact ⟨by omega, by omega, by simp⟩
        · rw [occupiedIdx, occB_iff, hfs]
          refine ⟨by omega, by omega, by simp⟩)
      (by
        intro h2 c hc2 hoc hcd
        rw [occB_iff] at hoc
        exfalso
        omega)
    refine HeapInv_mk _ _ _ _ ?_ List.sorted_nil (by simp) ?_ ?_ ?_
    · rw [hblen]
      omega
    · rw [hblen, hcount, hfs]
      push_cast
      ring
    · rw [hblen]
      exact hpo2
    · rw [hblen]
      exact hbord
  | cons f rest =>
    rw [insert_free_cons h v f rest hfs]
    have hsc := List.sorted_cons.mp (hfs ▸ hsort)
    obtain ⟨hfall, hsort2⟩ := hsc
    have hfb := hbound f (by rw [hfs]; exact List.mem_cons_self _ _)
    have hfnr : f ∉ rest := fun hmem => absurd (hfall f hmem) (lt_irrefl f)
    have hlen2 : ((h.items.set f v).set f v).length = h.items.length := by simp
    have hpo2 : parentOcc h.items.length rest := by
      intro i h2 hocc
      rw [occB_iff] at hocc ⊢
      obtain ⟨hi1, hi2, hi3⟩ := hocc
      by_cases hif : i = f
      · subst hif
        refine ⟨by omega, by omega, ?_⟩
        intro hmem
        have := hfall _ hmem
        omega
      · have hocco : occB h.items.length h.invalid_index_set i = true := by
          rw [occB_iff, hfs]
          refine ⟨hi1, hi2, ?_⟩
          simp only [List.mem_cons, not_or]
          exact ⟨hif, hi3⟩
        have hpc := hpo i h2 hocco
        rw [occB_iff, hfs] at hpc
        obtain ⟨g1, g2, g3⟩ := hpc
        simp only [List.mem_cons, not_or] at g3
        exact ⟨g1, g2, g3.2⟩
    obtain ⟨hblen, hbord⟩ := bubble_up_spec h.is_max_heap h.items.length rest f
      ((h.items.set f v).set f v) hlen2 hpo2 (by omega) (by omega)
      (by simpa using hfnr)
      (by
        intro c hc2 hoc hcf
        rw [occB_iff] at hoc
        obtain ⟨e1, e2, e3⟩ := hoc
        have hocco : occB h.items.length h.invalid_index_set c = true := by
          rw [occB_iff, hfs]
          refine ⟨e1, e2, ?_⟩
          simp only [List.mem_cons, not_or]
          exact ⟨hcf, e3⟩
        have hpocc := hpo c hc2 hocco
        have hc2f : c / 2 ≠ f := by
          rw [occB_iff, hfs] at hpocc
          have := hpocc.2.2
          simp only [List.mem_cons, not_or] at this
          exact this.1
        rw [List.set_set]
        rw [getD_set_ne _ _ _ _ (Ne.symm hcf), getD_set_ne _ _ _ _ (Ne.symm hc2f)]
        exact hprop c e2 hc2 hocco hpocc)
      (by
        intro hf2 c hc2 hoc hcdiv
        rw [occB_iff] at hoc
        obtain ⟨e1, e2, e3⟩ := hoc
        have hcf : c ≠ f := by omega
        have hocco : occB h.items.length h.invalid_index_set c = true := by
          rw [occB_iff, hfs]
          refine ⟨e1, e2, ?_⟩
          simp only [List.mem_cons, not_or]
          exact ⟨hcf, e3⟩
        have hpc := hpo c hc2 hocco
        rw [hcdiv, occB_iff, hfs] at hpc
        exact absurd (List.mem_cons_self f rest) hpc.2.2)
    refine HeapInv_mk _ _ _ _ ?_ hsort2 ?_ ?_ ?_ ?_
    · rw [hblen]
      omega
    · intro j hj
      rw [hblen]
      exact hbound j (by rw [hfs]; exact List.mem_cons_of_mem f hj)
    · rw [hblen, hcount, hfs]
      push_cast
      simp
      ring
    · rw [hblen]
      exact hpo2
    · rw [hblen]
      exact hbord

theorem is_invalid_iff (len : Nat) (free : List Nat) (j : Nat) :
    is_invalid_index len free j = true ↔ j = 0 ∨ len ≤ j ∨ j ∈ free := by
  rw [is_invalid_index]
  split
  · simp
    omega
  · split
    · simp
      omega
    · rename_i g1 g2
      simp
      constructor
      · exact fun h => Or.inr (Or.inr h)
      · rintro (h | h | h)
        · omega
        · omega
        · exact h

/-- After promoting the value of `child` into the vacant slot `index`, the
partial heap order holds everywhere except at `child`. -/
theorem pop_walk_stepA (is_max : Bool) (len index child : Nat) (items : List Int)
    (free : List Nat) (hlen : items.length = len) (hge1 : 1 ≤ index)
    (hchild : child = index * 2 ∨ child = index * 2 + 1)
    (hcocc : occB len free child = true)
    (hA : ∀ c, 2 ≤ c → occB len free c = true → c ≠ index →
      heapOrder is_max (items.getD (c / 2) 0) (items.getD c 0) = true)
    (hB : 2 ≤ index → ∀ c, 2 ≤ c → occB len free c = true → c / 2 = index →
      heapOrder is_max (items.getD (index / 2) 0) (items.getD c 0) = true)
    (hsib : ∀ c, 2 ≤ c → occB len free c = true → c / 2 = index → c ≠ child →
      heapOrder is_max (items.getD child 0) (items.getD c 0) = true) :
    ∀ c, 2 ≤ c → occB len free c = true → c ≠ child →
      heapOrder is_max ((items.set index (items.getD child 0)).getD (c / 2) 0)
        ((items.set index (items.getD child 0)).getD c 0) = true := by
  intro c hc2 hoc hcc
  have hclen : child < len := ((occB_iff len free child).mp hcocc).2.1
  by_cases hci : c = index
  · subst hci
    rw [getD_set_ne _ _ _ _ (by omega), getD_set_self _ _ _ (by omega)]
    exact hB hc2 child (by omega) hcocc (by omega)
  · by_cases hcd : c / 2 = index
    · rw [getD_set_ne _ _ _ _ (Ne.symm hci), hcd, getD_set_self _ _ _ (by omega)]
      exact hsib c hc2 hoc hcd hcc
    · rw [getD_set_ne _ _ _ _ (Ne.symm hci), getD_set_ne _ _ _ _ (Ne.symm hcd)]
      exact hA c hc2 hoc hci

/-- After the promotion, the value above the new vacant slot `child`
dominates `child`'s children. -/
theorem pop_walk_stepB (is_max : Bool) (len index child : Nat) (items : List Int)
    (free : List Nat) (hlen : items.length = len) (hge1 : 1 ≤ index) (hlt : index < len)
    (hchild : child = index * 2 ∨ child = index * 2 + 1)
    (hA : ∀ c, 2 ≤ c → occB len free c = true → c ≠ index →
      heapOrder is_max (items.getD (c / 2) 0) (items.getD c 0) = true) :
    2 ≤ child → ∀ c, 2 ≤ c → occB len free c = true → c / 2 = child →
      heapOrder is_max ((items.set index (items.getD child 0)).getD (child / 2) 0)
        ((items.set index (items.getD child 0)).getD c 0) = true := by
  intro _ c hc2 hoc hcd
  have hcd2 : child / 2 = index := by omega
  rw [hcd2, getD_set_self _ _ _ (by omega), getD_set_ne _ _ _ _ (by omega)]
  have := hA c hc2 hoc (by omega)
  rw [hcd] at this
  exact this

theorem pop_walk_spec (is_max : Bool) (len : Nat) (index : Nat) (items : List Int)
    (free : List Nat) (hlen : items.length = len) (hsort : free.Sorted (· < ·))
    (hbound : ∀ j ∈ free, 1 ≤ j ∧ j < len) (hpo : parentOcc len free)
    (hge1 : 1 ≤ index) (hlt : index < len) (hnf : free.contains index = false)
    (hA : ∀ c, 2 ≤ c → occB len free c = true → c ≠ index →
      heapOrder is_max (items.getD (c / 2) 0) (items.getD c 0) = true)
    (hB : 2 ≤ index → ∀ c, 2 ≤ c → occB len free c = true → c / 2 = index →
      heapOrder is_max (items.getD (index / 2) 0) (items.getD c 0) = true) :
    (pop_walk is_max items free index).1.length = len ∧
    (pop_walk is_max items free index).2.Sorted (· < ·) ∧
    (∀ j ∈ (pop_walk is_max items free index).2, 1 ≤ j ∧ j < len) ∧
    (pop_walk is_max items free index).2.length = free.length + 1 ∧
    parentOcc len (pop_walk is_max items free index).2 ∧
    (∀ c, 2 ≤ c → occB len (pop_walk is_max items free index).2 c = true →
      heapOrder is_max ((pop_walk is_max items free index).1.getD (c / 2) 0)
        ((pop_walk is_max items free index).1.getD c 0) = true) := by
  rw [pop_walk]
  rw [hlen]
  split
  · rename_i hinvL
    split
    · -- both children invalid: mark this slot
      rename_i hinvR
      rw [is_invalid_iff] at hinvL hinvR
      have hmark : ∀ i, occB len (setAdd index free) i = true →
          occB len free i = true ∧ i ≠ index := by
        intro i hi
        rw [occB_iff] at hi ⊢
        obtain ⟨i1, i2, i3⟩ := hi
        rw [mem_setAdd] at i3
        push_neg at i3
        exact ⟨⟨i1, i2, i3.2⟩, i3.1⟩
      refine ⟨hlen, sorted_setAdd free index hsort, ?_, length_setAdd free index hnf,
        ?_, ?_⟩
      · intro j hj
        rw [mem_setAdd] at hj
        rcases hj with hj | hj
        · omega
        · exact hbound j hj
      · intro i h2 hocc
        obtain ⟨hio, hine⟩ := hmark i hocc
        have hip := hpo i h2 hio
        rw [occB_iff] at hip ⊢
        refine ⟨hip.1, hip.2.1, ?_⟩
        rw [mem_setAdd]
        push_neg
        refine ⟨?_, hip.2.2⟩
        intro hieq
        rw [occB_iff] at hio
        rcases (by omega : i = index * 2 ∨ i = index * 2 + 1) with hii | hii
        · rw [hii] at hio
          rcases hinvL with h | h | h
          · omega
          · omega
          · exact hio.2.2 h
        · rw [hii] at hio
          rcases hinvR with h | h | h
          · omega
          · omega
          · exact hio.2.2 h
      · intro c hc2 hocc
        obtain ⟨hco, hcne⟩ := hmark c hocc
        exact hA c hc2 hco hcne
    · -- promote the right child
      rename_i hinvR
      rw [is_invalid_iff] at hinvL
      have hvR : ¬ (index * 2 + 1 = 0 ∨ len ≤ index * 2 + 1 ∨ index * 2 + 1 ∈ free) := by
        rw [← is_invalid_iff len free]
        simpa using hinvR
      push_neg at hvR
      have hRocc : occB len free (index * 2 + 1) = true := by
        rw [occB_iff]
        refine ⟨by omega, hvR.2.1, hvR.2.2⟩
      have hsib : ∀ c, 2 ≤ c → occB len free c = true → c / 2 = index →
          c ≠ index * 2 + 1 →
          heapOrder is_max (items.getD (index * 2 + 1) 0) (items.getD c 0) = true := by
        intro c hc2 hoc hcd hcc
        rw [occB_iff] at hoc
        exfalso
        have hii : c = index * 2 := by omega
        rw [hii] at hoc
        rcases hinvL with h | h | h
        · omega
        · omega
        · exact hoc.2.2 h
      have hA2 := pop_walk_stepA is_max len index (index * 2 + 1) items free hlen hge1
        (Or.inr rfl) hRocc hA hB hsib
      have hB2 := pop_walk_stepB is_max len index (index * 2 + 1) items free hlen hge1
        hlt (Or.inr rfl) hA
      exact pop_walk_spec is_max len (index * 2 + 1)
        (items.set index (items.getD (index * 2 + 1) 0)) free (by simp [hlen]) hsort
        hbound hpo (by omega) hvR.2.1 (by simpa using hvR.2.2) hA2 hB2
  · rename_i hinvL
    have hvL : ¬ (index * 2 = 0 ∨ len ≤ index * 2 ∨ index * 2 ∈ free) := by
      rw [← is_invalid_iff len free]
      simpa using hinvL
    push_neg at hvL
    have hLocc : occB len free (index * 2) = true := by
      rw [occB_iff]
      refine ⟨by omega, hvL.2.1, hvL.2.2⟩
    split
    · -- right child invalid: promote the left child
      rename_i hinvR
      rw [is_invalid_iff] at hinvR
      have hsib : ∀ c, 2 ≤ c → occB len free c = true → c / 2 = index →
          c ≠ index * 2 →
          heapOrder is_max (items.getD (index * 2) 0) (items.getD c 0) = true := by
        intro c hc2 hoc hcd hcc
        rw [occB_iff] at hoc
        exfalso
        have hii : c = index * 2 + 1 := by omega
        rw [hii] at hoc
        rcases hinvR with h | h | h
        · omega
        · omega
        · exact hoc.2.2 h
      have hA2 := pop_walk_stepA is_max len index (index * 2) items free hlen hge1
        (Or.inl rfl) hLocc hA hB hsib
      have hB2 := pop_walk_stepB is_max len index (index * 2) items free hlen hge1
        hlt (Or.inl rfl) hA
      exact pop_walk_spec is_max len (index * 2)
        (items.set index (items.getD (index * 2) 0)) free (by simp [hlen]) hsort
        hbound hpo (by omega) hvL.2.1 (by simpa using hvL.2.2) hA2 hB2
    · rename_i hinvR
      have hvR : ¬ (index * 2 + 1 = 0 ∨ len ≤ index * 2 + 1 ∨ index * 2 + 1 ∈ free) := by
        rw [← is_invalid_iff len free]
        simpa using hinvR
      push_neg at hvR
      have hRocc : occB len free (index * 2 + 1) = true := by
        rw [occB_iff]
        refine ⟨by omega, hvR.2.1, hvR.2.2⟩
      split
      · -- left child on top: promote it
        rename_i hord
        have hsib : ∀ c, 2 ≤ c → occB len free c = true → c / 2 = index →
            c ≠ index * 2 →
            heapOrder is_max (items.getD (index * 2) 0) (items.getD c 0) = true := by
          intro c hc2 hoc hcd hcc
          have hcr : c = index * 2 + 1 := by omega
          rw [hcr]
          exact hord
        have hA2 := pop_walk_stepA is_max len index (index * 2) items free hlen hge1
          (Or.inl rfl) hLocc hA hB hsib
        have hB2 := pop_walk_stepB is_max len index (index * 2) items free hlen hge1
          hlt (Or.inl rfl) hA
        exact pop_walk_spec is_max len (index * 2)
          (items.set index (items.getD (index * 2) 0)) free (by simp [hlen]) hsort
          hbound hpo (by omega) hvL.2.1 (by simpa using hvL.2.2) hA2 hB2
      · -- right child on top: promote it
        rename_i hord
        have hord2 : heapOrder is_max (items.getD (index * 2) 0)
            (items.getD (index * 2 + 1) 0) = false := by
          rw [Bool.eq_false_iff]
          exact hord
        have hsib : ∀ c, 2 ≤ c → occB len free c = true → c / 2 = index →
            c ≠ index * 2 + 1 →
            heapOrder is_max (items.getD (index * 2 + 1) 0) (items.getD c 0) = true := by
          intro c hc2 hoc hcd hcc
          have hcl : c = index * 2 := by omega
          rw [hcl]
          exact heapOrder_total is_max _ _ hord2
        have hA2 := pop_walk_stepA is_max len index (index * 2 + 1) items free hlen hge1
          (Or.inr rfl) hRocc hA hB hsib
        have hB2 := pop_walk_stepB is_max len index (index * 2 + 1) items free hlen hge1
          hlt (Or.inr rfl) hA
        exact pop_walk_spec is_max len (index * 2 + 1)
          (items.set index (items.getD (index * 2 + 1) 0)) free (by simp [hlen]) hsort
          hbound hpo (by omega) hvR.2.1 (by simpa using hvR.2.2) hA2 hB2
termination_by len - index
decreasing_by
  all_goals omega

/-- `Heap.pop` preserves the heap invariant. -/
theorem pop_inv (h : Heap) (hinv : HeapInv h) : HeapInv (h.pop).2 := by
  obtain ⟨hlen1, hsort, hbound, hcount, hpo, hprop⟩ := hinv
  by_cases hc : h.count ≤ 0
  · rw [pop_state_of_empty h hc]
    exact ⟨hlen1, hsort, hbound, hcount, hpo, hprop⟩
  · have hcgt : 0 < h.item_count := by
      rw [Heap.count] at hc
      omega
    have hflen : h.invalid_index_set.length + 1 < h.items.length := by
      omega
    have hnf : h.invalid_index_set.contains 1 = false :=
      one_not_free h.items.length h.invalid_index_set hbound hpo hflen
    have hA : ∀ c, 2 ≤ c →
        occB h.items.length h.invalid_index_set c = true → c ≠ 1 →
        heapOrder h.is_max_heap (h.items.getD (c / 2) 0) (h.items.getD c 0) = true := by
      intro c hc2 hoc _
      have hclen : c < h.items.length := ((occB_iff _ _ c).mp hoc).2.1
      exact hprop c hclen hc2 hoc (hpo c hc2 hoc)
    have hB : 2 ≤ 1 → ∀ c, 2 ≤ c →
        occB h.items.length h.invalid_index_set c = true → c / 2 = 1 →
        heapOrder h.is_max_heap (h.items.getD (1 / 2) 0) (h.items.getD c 0) = true := by
      intro habs
      omega
    have hspec := pop_walk_spec h.is_max_heap h.items.length 1 h.items
      h.invalid_index_set rfl hsort hbound hpo (by omega) (by omega) hnf hA hB
    obtain ⟨s1, s2, s3, s4, s5, s6⟩ := hspec
    rw [pop_pos_eq h hc]
    refine HeapInv_mk _ _ _ _ (by rw [s1]; omega) s2 ?_ ?_ ?_ ?_
    · rw [s1]
      exact s3
    · rw [s1, s4]
      push_cast
      omega
    · rw [s1]
      exact s5
    · rw [s1]
      exact s6

/-- A fresh heap satisfies the invariant. -/
theorem new_inv (m : Bool) : HeapInv (Heap.new m) := by
  refine ⟨by simp [Heap.new], by simp [Heap.new], by simp [Heap.new],
    by simp [Heap.new], ?_, ?_⟩
  · intro i h2 hocc
    rw [occB_iff] at hocc
    simp [Heap.new] at hocc
    omega
  · intro i hi
    simp [Heap.new] at hi
    omega

/-- Each public heap operation preserves the invariant. -/
theorem heapStep_inv (h : Heap) (op : HeapOp) (hinv : HeapInv h) :
    HeapInv (heapStep h op) := by
  cases op with
  | ins v => exact insert_inv h v hinv
  | pop => exact pop_inv h hinv

/-- Folding operations over an invariant heap keeps the invariant. -/
theorem heapFoldl_inv : ∀ (ops : List HeapOp) (h : Heap), HeapInv h →
    HeapInv (ops.foldl heapStep h)
  | [], _, hi => hi
  | op :: rest, h, hi => heapFoldl_inv rest (heapStep h op) (heapStep_inv h op hi)

/-- C2: for every heap mode and every sequence of insert/pop operations
starting from a fresh heap, the heap property holds afterwards: for every
occupied slot `i > 1` whose parent slot `i / 2` is occupied, the configured
ordering holds between the parent and child values, free slots excluded.
(Applied to every prefix of a sequence, this gives the property after each
operation.) -/
theorem claim_C2 (is_max : Bool) (ops : List HeapOp) : HeapProp (heapRun is_max ops) :=
  (heapFoldl_inv ops (Heap.new is_max) (new_inv is_max)).2.2.2.2.2

/-! ## Theorems: adjacent-swap toolkit for the index-based sorter loops -/

section SwapLemmas

variable {α : Type} [Inhabited α]

theorem list_decomp : ∀ (l : List α) (j : Nat), j + 1 < l.length →
    l = l.take j ++ l.getD j default :: l.getD (j + 1) default :: l.drop (j + 2)
  | [], _, h => by simp at h
  | [a], 0, h => by simp at h
  | a :: b :: rest, 0, _ => by simp
  | a :: rest, j + 1, h => by
    have ih := list_decomp rest j (by simpa using h)
    simp only [List.take_succ_cons, List.getD_cons_succ, List.drop_succ_cons,
      List.cons_append]
    exact congrArg (fun t => a :: t) ih

theorem set_swap_eq : ∀ (l : List α) (j : Nat), j + 1 < l.length →
    (l.set j (l.getD (j + 1) default)).set (j + 1) (l.getD j default)
      = l.take j ++ l.getD (j + 1) default :: l.getD j default :: l.drop (j + 2)
  | [], _, h => by simp at h
  | [a], 0, h => by simp at h
  | a :: b :: rest, 0, _ => by simp
  | a :: rest, j + 1, h => by
    have ih := set_swap_eq rest j (by simpa using h)
    simp only [List.set_cons_succ, List.getD_cons_succ, List.take_succ_cons,
      List.drop_succ_cons, List.cons_append]
    exact congrArg (fun t => a :: t) ih

theorem set_swap_eq' (l : List α) (j : Nat) :
    (l.set (j + 1) (l.getD j default)).set j (l.getD (j + 1) default)
      = (l.set j (l.getD (j + 1) default)).set (j + 1) (l.getD j default) := by
  apply List.set_comm
  omega

theorem set_swap_perm (l : List α) (j : Nat) (h : j + 1 < l.length) :
    ((l.set j (l.getD (j + 1) default)).set (j + 1) (l.getD j default)).Perm l := by
  rw [set_swap_eq l j h]
  conv_rhs => rw [list_decomp l j h]
  exact List.Perm.append_left _ (List.Perm.swap _ _ _)

end SwapLemmas

theorem keyFilter_swap (l : List (Int × Nat)) (j : Nat) (h : j + 1 < l.length)
    (hne : (l.getD (j + 1) default).1 ≠ (l.getD j default).1) (k : Int) :
    keyFilter k ((l.set j (l.getD (j + 1) default)).set (j + 1) (l.getD j default))
      = keyFilter k l := by
  have key : ∀ (pre post : List (Int × Nat)) (a b : Int × Nat), b.1 ≠ a.1 →
      keyFilter k (pre ++ b :: a :: post) = keyFilter k (pre ++ a :: b :: post) := by
    intro pre post a b hba
    simp only [keyFilter, List.filter_append, List.filter_cons]
    by_cases ha : a.1 = k <;> by_cases hb : b.1 = k
    · exact absurd (hb.trans ha.symm) hba
    · simp [ha, hb]
    · simp [ha, hb]
    · simp [ha, hb]
  rw [set_swap_eq l j h]
  conv_rhs => rw [list_decomp l j h]
  exact key _ _ _ _ hne

theorem insertion_inner_keyFilter :
    ∀ (j : Nat) (data : List (Int × Nat)), j < data.length → ∀ k,
      keyFilter k (insertion_inner ltKV data j) = keyFilter k data
  | 0, _, _, _ => rfl
  | j + 1, data, hj, k => by
    rw [insertion_inner]
    by_cases hsw : ltKV (data.getD (j + 1) default) (data.getD j default) = true
    · rw [if_pos hsw]
      have hne : (data.getD (j + 1) default).1 ≠ (data.getD j default).1 := by
        simp only [ltKV, decide_eq_true_eq] at hsw
        omega
      rw [set_swap_eq' data j]
      rw [insertion_inner_keyFilter j _ (by simp only [List.length_set]; omega) k]
      exact keyFilter_swap data j hj hne k
    · rw [if_neg hsw]
      exact insertion_inner_keyFilter j data (by omega) k

theorem insertion_outer_keyFilter :
    ∀ (fuel : Nat) (data : List (Int × Nat)) (i : Nat) (k : Int),
      keyFilter k (insertion_outer ltKV fuel data i) = keyFilter k data
  | 0, _, _, _ => rfl
  | fuel + 1, data, i, k => by
    rw [insertion_outer]
    by_cases hlt : i < data.length
    · rw [if_pos hlt]
      rw [insertion_outer_keyFilter fuel _ (i + 1) k]
      exact insertion_inner_keyFilter i data hlt k
    · rw [if_neg hlt]

theorem bubbleSweep_keyFilter (data : List (Int × Nat)) (i : Nat) (done : Bool) :
    (bubbleSweep ltKV data i done).1.length = data.length ∧
    ∀ k, keyFilter k (bubbleSweep ltKV data i done).1 = keyFilter k data := by
  rw [bubbleSweep]
  split
  · rename_i hlt
    split
    · rename_i hsw
      have hne : (data.getD (i + 1) default).1 ≠ (data.getD i default).1 := by
        simp only [ltKV, decide_eq_true_eq] at hsw
        omega
      have ih := bubbleSweep_keyFilter
        ((data.set i (data.getD (i + 1) default)).set (i + 1) (data.getD i default))
        (i + 1) false
      refine ⟨?_, ?_⟩
      · rw [ih.1]
        simp
      · intro k
        rw [ih.2 k]
        exact keyFilter_swap data i hlt hne k
    · exact bubbleSweep_keyFilter data (i + 1) done
  · exact ⟨rfl, fun _ => rfl⟩
termination_by data.length - i
decreasing_by
  all_goals first
    | (simp only [List.length_set]; omega)
    | omega

theorem bubbleLoop_keyFilter : ∀ (fuel : Nat) (data : List (Int × Nat)) (k : Int),
    keyFilter k (bubbleLoop ltKV fuel data) = keyFilter k data
  | 0, _, _ => rfl
  | fuel + 1, data, k => by
    rw [bubbleLoop]
    have hs := bubbleSweep_keyFilter data 0 true
    split
    · exact hs.2 k
    · rw [bubbleLoop_keyFilter fuel _ k]
      exact hs.2 k

theorem merge_pair_eval :
    merge_sorter_sort ltKV [((1 : Int), (0 : Nat)), (1, 1)] = [(1, 1), (1, 0)] := by
  rw [merge_sorter_sort]
  simp [merge_sort, merge, merge_fill, copy_seg, write_seg, ltKV]

/-- C9 counterexample: `MergeSorter` is not stable — on ties
`merge` takes the right-hand element first (`if data[li] < data[ri]` falls
through to the right branch when the keys are equal), so the two equal-keyed
pairs come out in reversed input order. -/
theorem claim_C9_counterexample : ¬ StableSort (merge_sorter_sort ltKV) := by
  intro hs
  have h := hs [((1 : Int), (0 : Nat)), (1, 1)] 1
  rw [merge_pair_eval] at h
  simp [keyFilter] at h

/-- C9 (amended): the insertion and bubble sorters are stable — both only
swap adjacent elements that compare strictly out of order, preserving the
relative order of equal keys — but the merge sorter is not: its merge takes
the right-hand element when the heads compare equal. -/
theorem claim_C9_amended :
    StableSort (insertion_sort ltKV) ∧ StableSort (bubble_sort ltKV) ∧
    ¬ StableSort (merge_sorter_sort ltKV) := by
  refine ⟨?_, ?_, ?_⟩
  · intro l k
    rw [insertion_sort]
    exact insertion_outer_keyFilter l.length l 1 k
  · intro l k
    rw [bubble_sort]
    exact bubbleLoop_keyFilter (inversions ltKV l + 1) l k
  · intro hs
    have h := hs [((1 : Int), (0 : Nat)), (1, 1)] 1
    rw [merge_pair_eval] at h
    simp [keyFilter] at h

/-! ## Theorems: claim C8, the six sorters sort (bubble first) -/

theorem intLt_asymm (a b : Int) (h : intLt a b = true) : intLt b a = false := by
  simp only [intLt, decide_eq_true_eq] at h
  simp only [intLt, decide_eq_false_iff_not]
  omega

theorem intLt_neg_trans (a b c : Int) (h1 : intLt a b = false) (h2 : intLt b c = false) :
    intLt a c = false := by
  simp only [intLt, decide_eq_false_iff_not] at h1 h2 ⊢
  omega

section SortedBridge

variable {α : Type} [Inhabited α]

theorem is_sorted_from_chain (lt : α → α → Bool) :
    ∀ (l : List α) (v : α), List.Chain (fun a b => lt b a = false) v l →
      is_sorted_from lt v l = true
  | [], _, _ => rfl
  | x :: rest, v, h => by
    cases h with
    | cons hvx hrest =>
      rw [is_sorted_from, hvx]
      simp only [Bool.false_eq_true, if_false]
      exact is_sorted_from_chain lt rest x hrest

theorem is_sorted_of_chain (lt : α → α → Bool) (l : List α)
    (h : List.Chain' (fun a b => lt b a = false) l) : is_sorted lt l = true := by
  cases l with
  | nil => rfl
  | cons a rest =>
    rw [is_sorted]
    exact is_sorted_from_chain lt rest a h

theorem chain_of_adj (lt : α → α → Bool) : ∀ (l : List α),
    (∀ j, j + 1 < l.length → lt (l.getD (j + 1) default) (l.getD j default) = false) →
    List.Chain' (fun a b => lt b a = false) l
  | [], _ => trivial
  | [_], _ => by simp
  | a :: b :: rest, h => by
    rw [List.chain'_cons]
    constructor
    · simpa using h 0 (by simp)
    · refine chain_of_adj lt (b :: rest) ?_
      intro j hj
      simpa using h (j + 1) (by simpa using hj)

theorem inversions_append (lt : α → α → Bool) : ∀ (pre X : List α),
    inversions lt (pre ++ X) = inversions lt pre + inversions lt X +
      (pre.map (fun p => (X.filter (fun y => lt y p)).length)).sum
  | [], X => by simp [inversions]
  | p :: rest, X => by
    rw [List.cons_append, inversions, inversions_append lt rest X, inversions]
    rw [List.filter_append, List.length_append]
    simp only [List.map_cons, List.sum_cons]
    omega

theorem inversions_swap (lt : α → α → Bool)
    (hasym : ∀ a b, lt a b = true → lt b a = false) (pre post : List α) (a b : α)
    (h : lt b a = true) :
    inversions lt (pre ++ b :: a :: post) + 1 = inversions lt (pre ++ a :: b :: post) := by
  rw [inversions_append, inversions_append]
  have hperm : (b :: a :: post).Perm (a :: b :: post) := List.Perm.swap a b post
  have hcross : (pre.map fun p => ((b :: a :: post).filter (fun y => lt y p)).length).sum
      = (pre.map fun p => ((a :: b :: post).filter (fun y => lt y p)).length).sum := by
    apply congrArg
    apply List.map_congr_left
    intro p _
    exact (hperm.filter _).length_eq
  rw [hcross]
  have hmid : inversions lt (b :: a :: post) + 1 = inversions lt (a :: b :: post) := by
    rw [inversions, inversions, inversions, inversions]
    rw [List.filter_cons, List.filter_cons, h, hasym b a h]
    simp
    omega
  omega

theorem bubbleSweep_perm (lt : α → α → Bool) (data : List α) (i : Nat) (done : Bool) :
    (bubbleSweep lt data i done).1.Perm data := by
  rw [bubbleSweep]
  split
  · rename_i hlt
    split
    · exact (bubbleSweep_perm lt _ (i + 1) false).trans (set_swap_perm data i hlt)
    · exact bubbleSweep_perm lt data (i + 1) done
  · exact List.Perm.refl data
termination_by data.length - i
decreasing_by
  all_goals first
    | (simp only [List.length_set]; omega)
    | omega

theorem bubbleSweep_done (lt : α → α → Bool) : ∀ (data : List α) (i : Nat) (done : Bool),
    (bubbleSweep lt data i done).2 = true →
    done = true ∧ ∀ j, i ≤ j → j + 1 < data.length →
      lt (data.getD (j + 1) default) (data.getD j default) = false := by
  intro data i done h
  rw [bubbleSweep] at h
  split at h
  · rename_i hlt
    split at h
    · rename_i hsw
      have := (bubbleSweep_done lt _ _ _ h).1
      exact absurd this (by simp)
    · rename_i hsw
      have ih := bubbleSweep_done lt _ _ _ h
      refine ⟨ih.1, ?_⟩
      intro j hij hj
      rcases Nat.eq_or_lt_of_le hij with hji | hji
      · rw [hji] at hsw
        simpa using hsw
      · exact ih.2 j hji hj
  · rename_i hlt
    refine ⟨h, ?_⟩
    intro j hij hj
    omega
termination_by data i => data.length - i
decreasing_by
  all_goals first
    | (simp only [List.length_set]; omega)
    | omega

theorem bubbleSweep_nochange (lt : α → α → Bool) :
    ∀ (data : List α) (i : Nat) (done : Bool),
    (∀ j, i ≤ j → j + 1 < data.length →
      lt (data.getD (j + 1) default) (data.getD j default) = false) →
    bubbleSweep lt data i done = (data, done) := by
  intro data i done hadj
  rw [bubbleSweep]
  split
  · rename_i hlt
    split
    · rename_i hsw
      rw [hadj i (le_refl i) hlt] at hsw
      exact absurd hsw (by simp)
    · exact bubbleSweep_nochange lt data (i + 1) done (fun j hij hj => hadj j (by omega) hj)
  · rfl
termination_by data i => data.length - i
decreasing_by omega

theorem bubbleSweep_inversions (lt : α → α → Bool)
    (hasym : ∀ a b, lt a b = true → lt b a = false) :
    ∀ (data : List α) (i : Nat) (done : Bool),
    inversions lt (bubbleSweep lt data i done).1 ≤ inversions lt data ∧
    ((bubbleSweep lt data i done).2 = false → done = true →
      inversions lt (bubbleSweep lt data i done).1 < inversions lt data) := by
  intro data i done
  rw [bubbleSweep]
  split
  · rename_i hlt
    split
    · rename_i hsw
      have ih := bubbleSweep_inversions lt hasym
        ((data.set i (data.getD (i + 1) default)).set (i + 1) (data.getD i default))
        (i + 1) false
      have hswap : inversions lt
          ((data.set i (data.getD (i + 1) default)).set (i + 1) (data.getD i default)) + 1
          = inversions lt data := by
        rw [set_swap_eq data i hlt]
        conv_rhs => rw [list_decomp data i hlt]
        exact inversions_swap lt hasym _ _ _ _ hsw
      constructor
      · omega
      · intro _ _
        omega
    · exact bubbleSweep_inversions lt hasym data (i + 1) done
  · refine ⟨le_refl _, ?_⟩
    intro hf ht
    rw [ht] at hf
    exact absurd hf (by simp)
termination_by data i => data.length - i
decreasing_by
  all_goals first
    | (simp only [List.length_set]; omega)
    | omega

theorem bubbleLoop_sorted (lt : α → α → Bool)
    (hasym : ∀ a b, lt a b = true → lt b a = false) :
    ∀ (fuel : Nat) (data : List α), inversions lt data < fuel →
    List.Chain' (fun a b => lt b a = false) (bubbleLoop lt fuel data) ∧
    (bubbleLoop lt fuel data).Perm data
  | 0, _, h => absurd h (by omega)
  | fuel + 1, data, h => by
    rw [bubbleLoop]
    split
    · rename_i hdone
      have hd := bubbleSweep_done lt data 0 true hdone
      have hadj : ∀ j, j + 1 < data.length →
          lt (data.getD (j + 1) default) (data.getD j default) = false :=
        fun j hj => hd.2 j (by omega) hj
      have hnc := bubbleSweep_nochange lt data 0 true (fun j _ hj => hadj j hj)
      rw [hnc]
      exact ⟨chain_of_adj lt data hadj, List.Perm.refl data⟩
    · rename_i hdone
      have hstrict := (bubbleSweep_inversions lt hasym data 0 true).2
        (by simpa using hdone) rfl
      have ih := bubbleLoop_sorted lt hasym fuel (bubbleSweep lt data 0 true).1
        (by omega)
      exact ⟨ih.1, ih.2.trans (bubbleSweep_perm lt data 0 true)⟩

theorem bubble_sort_spec (lt : α → α → Bool)
    (hasym : ∀ a b, lt a b = true → lt b a = false) (data : List α) :
    (bubble_sort lt data).Perm data ∧ is_sorted lt (bubble_sort lt data) = true := by
  have h := bubbleLoop_sorted lt hasym (inversions lt data + 1) data (by omega)
  rw [bubble_sort]
  exact ⟨h.2, is_sorted_of_chain lt _ h.1⟩

end SortedBridge

section InsertionSorted

variable {α : Type} [Inhabited α]

theorem getD_set_self' (l : List α) (i : Nat) (v : α) (h : i < l.length) :
    (l.set i v).getD i default = v := by
  simp [List.getD_eq_getElem?_getD, List.getElem?_set, h]

theorem getD_set_ne' (l : List α) (i j : Nat) (v : α) (h : i ≠ j) :
    (l.set i v).getD j default = l.getD j default := by
  simp [List.getD_eq_getElem?_getD, List.getElem?_set, h]

theorem swap_getD (data : List α) (j m : Nat) (h : j + 1 < data.length) :
    ((data.set j (data.getD (j + 1) default)).set (j + 1) (data.getD j default)).getD
        m default
      = if m = j + 1 then data.getD j default
        else if m = j then data.getD (j + 1) default
        else data.getD m default := by
  by_cases h1 : m = j + 1
  · rw [if_pos h1, h1, getD_set_self' _ _ _ (by simp only [List.length_set]; omega)]
  · rw [if_neg h1, getD_set_ne' _ _ _ _ (Ne.symm h1)]
    by_cases h2 : m = j
    · rw [if_pos h2, h2, getD_set_self' _ _ _ (by omega)]
    · rw [if_neg h2, getD_set_ne' _ _ _ _ (Ne.symm h2)]

theorem insertion_inner_sorted (lt : α → α → Bool)
    (hasym : ∀ a b, lt a b = true → lt b a = false)
    (hntrans : ∀ a b c, lt a b = false → lt b c = false → lt a c = false) :
    ∀ (j : Nat) (data : List α) (i : Nat), j ≤ i → i < data.length →
    (∀ m, 1 ≤ m → m ≤ i → m ≠ j →
      lt (data.getD m default) (data.getD (m - 1) default) = false) →
    (j < i → lt (data.getD (j + 1) default) (data.getD j default) = false ∧
      (1 ≤ j → lt (data.getD (j + 1) default) (data.getD (j - 1) default) = false)) →
    (insertion_inner lt data j).Perm data ∧
    (∀ m, 1 ≤ m → m ≤ i →
      lt ((insertion_inner lt data j).getD m default)
        ((insertion_inner lt data j).getD (m - 1) default) = false)
  | 0, data, i, _, _, ha, _ => by
    refine ⟨List.Perm.refl data, ?_⟩
    intro m h1 h2
    exact ha m h1 h2 (by omega)
  | j + 1, data, i, hji, hilen, ha, hb => by
    rw [insertion_inner]
    by_cases hsw : lt (data.getD (j + 1) default) (data.getD j default) = true
    · rw [if_pos hsw]
      rw [set_swap_eq' data j]
      set b := data.getD (j + 1) default with hbdef
      set a := data.getD j default with hadef
      set data2 := (data.set j b).set (j + 1) a with hd2
      have hlen2 : data2.length = data.length := by
        rw [hd2]
        simp
      have hget : ∀ m, data2.getD m default
          = if m = j + 1 then a else if m = j then b else data.getD m default := by
        intro m
        rw [hd2, hbdef, hadef]
        exact swap_getD data j m (by omega)
      have hA : ∀ m, 1 ≤ m → m ≤ i → m ≠ j →
          lt (data2.getD m default) (data2.getD (m - 1) default) = false := by
        intro m h1 h2 hmj
        rw [hget m, hget (m - 1)]
        by_cases hm1 : m = j + 1
        · rw [if_pos hm1, if_neg (by omega), if_pos (by omega)]
          exact hasym _ _ hsw
        · by_cases hm2 : m = j + 2
          · rw [if_neg hm1, if_neg hmj, if_pos (show m - 1 = j + 1 by omega), hm2, hadef]
            exact (hb (by omega)).2 (by omega)
          · rw [if_neg hm1, if_neg hmj, if_neg (by omega), if_neg (by omega)]
            exact ha m h1 h2 hm1
      have hB : j < i →
          lt (data2.getD (j + 1) default) (data2.getD j default) = false ∧
          (1 ≤ j → lt (data2.getD (j + 1) default) (data2.getD (j - 1) default) = false) := by
        intro hji2
        constructor
        · rw [hget (j + 1), hget j, if_pos rfl, if_neg (by omega), if_pos rfl]
          exact hasym _ _ hsw
        · intro h1j
          rw [hget (j + 1), hget (j - 1), if_pos rfl, if_neg (by omega), if_neg (by omega)]
          exact ha j h1j (by omega) (by omega)
      have IH := insertion_inner_sorted lt hasym hntrans j data2 i (by omega)
        (by rw [hlen2]; exact hilen) hA hB
      refine ⟨IH.1.trans ?_, IH.2⟩
      rw [hd2, hbdef, hadef]
      exact set_swap_perm data j (by omega)
    · rw [if_neg hsw]
      have hswf : lt (data.getD (j + 1) default) (data.getD j default) = false := by
        cases hx : lt (data.getD (j + 1) default) (data.getD j default)
        · rfl
        · exact absurd hx hsw
      refine insertion_inner_sorted lt hasym hntrans j data i (by omega) hilen ?_ ?_
      · intro m h1 h2 hmj
        by_cases hm1 : m = j + 1
        · rw [hm1]
          simpa using hswf
        · exact ha m h1 h2 hm1
      · intro hji2
        refine ⟨hswf, ?_⟩
        intro h1j
        exact hntrans _ _ _ hswf (ha j h1j (by omega) (by omega))

theorem insertion_outer_sorted (lt : α → α → Bool)
    (hasym : ∀ a b, lt a b = true → lt b a = false)
    (hntrans : ∀ a b c, lt a b = false → lt b c = false → lt a c = false) :
    ∀ (fuel : Nat) (data : List α) (i : Nat), 1 ≤ i → data.length ≤ fuel + i →
    (∀ m, 1 ≤ m → m < i →
      lt (data.getD m default) (data.getD (m - 1) default) = false) →
    (insertion_outer lt fuel data i).Perm data ∧
    ∀ m, 1 ≤ m → m < data.length →
      lt ((insertion_outer lt fuel data i).getD m default)
        ((insertion_outer lt fuel data i).getD (m - 1) default) = false
  | 0, data, i, h1i, hfl, hpre => by
    refine ⟨List.Perm.refl data, ?_⟩
    intro m hm1 hm2
    exact hpre m hm1 (by omega)
  | fuel + 1, data, i, h1i, hfl, hpre => by
    rw [insertion_outer]
    by_cases hlt : i < data.length
    · rw [if_pos hlt]
      have hinner := insertion_inner_sorted lt hasym hntrans i data i (le_refl i) hlt
        (fun m hm1 hm2 hmi => hpre m hm1 (by omega))
        (fun habs => absurd habs (by omega))
      have hlen : (insertion_inner lt data i).length = data.length :=
        hinner.1.length_eq
      have IH := insertion_outer_sorted lt hasym hntrans fuel (insertion_inner lt data i)
        (i + 1) (by omega) (by omega)
        (fun m hm1 hm2 => hinner.2 m hm1 (by omega))
      refine ⟨IH.1.trans hinner.1, ?_⟩
      intro m hm1 hm2
      exact IH.2 m hm1 (by omega)
    · rw [if_neg hlt]
      refine ⟨List.Perm.refl data, ?_⟩
      intro m hm1 hm2
      exact hpre m hm1 (by omega)

theorem insertion_sort_spec (lt : α → α → Bool)
    (hasym : ∀ a b, lt a b = true → lt b a = false)
    (hntrans : ∀ a b c, lt a b = false → lt b c = false → lt a c = false)
    (data : List α) :
    (insertion_sort lt data).Perm data ∧ is_sorted lt (insertion_sort lt data) = true := by
  rw [insertion_sort]
  have h := insertion_outer_sorted lt hasym hntrans data.length data 1 (by omega)
    (by omega) (by intro m h1 h2; omega)
  refine ⟨h.1, is_sorted_of_chain lt _ (chain_of_adj lt _ ?_)⟩
  intro j hj
  have hlen := h.1.length_eq
  have hp := h.2 (j + 1) (by omega) (by omega)
  simpa using hp

end InsertionSorted

section SelectionSorted

variable {α : Type} [Inhabited α]

theorem double_set_getD (data : List α) (i bi m : Nat) (hi : i < data.length)
    (hbi : bi < data.length) :
    ((data.set i (data.getD bi default)).set bi (data.getD i default)).getD m default
      = if m = bi then data.getD i default
        else if m = i then data.getD bi default
        else data.getD m default := by
  by_cases h1 : m = bi
  · rw [if_pos h1, h1, getD_set_self' _ _ _ (by simp only [List.length_set]; exact hbi)]
  · rw [if_neg h1, getD_set_ne' _ _ _ _ (Ne.symm h1)]
    by_cases h2 : m = i
    · rw [if_pos h2, h2, getD_set_self' _ _ _ hi]
    · rw [if_neg h2, getD_set_ne' _ _ _ _ (Ne.symm h2)]

end SelectionSorted

theorem count_set_default (l : List Int) (n : Nat) (a x : Int) :
    ∀ (hn : n < l.length),
    (l.set n a).count x + (if l.getD n default = x then 1 else 0)
      = l.count x + (if a = x then 1 else 0) := by
  induction l generalizing n with
  | nil => intro hn; simp at hn
  | cons c t ih =>
    intro hn
    cases n with
    | zero =>
      simp only [List.set_cons_zero, List.count_cons, List.getD_cons_zero]
      by_cases hc : c = x <;> by_cases ha : a = x <;> simp [hc, ha]
    | succ n =>
      have h2 := ih n (by simpa using hn)
      simp only [List.set_cons_succ, List.count_cons, List.getD_cons_succ]
      omega

theorem transposition_perm (l : List Int) (i bi : Nat) (hi : i < l.length)
    (hbi : bi < l.length) :
    ((l.set i (l.getD bi default)).set bi (l.getD i default)).Perm l := by
  rw [List.perm_iff_count]
  intro x
  have c1 := count_set_default l i (l.getD bi default) x hi
  have c2 := count_set_default (l.set i (l.getD bi default)) bi (l.getD i default) x
    (by simp only [List.length_set]; exact hbi)
  have c3 : (l.set i (l.getD bi default)).getD bi default = l.getD bi default := by
    by_cases hib : i = bi
    · rw [hib, getD_set_self' _ _ _ (hib ▸ hi)]
    · rw [getD_set_ne' _ _ _ _ hib]
  rw [c3] at c2
  by_cases e1 : l.getD i default = x <;> by_cases e2 : l.getD bi default = x <;>
    simp [e1, e2] at c1 c2 ⊢ <;> omega

theorem selection_scan_spec : ∀ (data : List Int) (j bi : Nat) (bv : Int) (i : Nat),
    bi < data.length → data.getD bi default = bv → i ≤ bi →
    (∀ m, i ≤ m → m < j → intLt (data.getD m default) bv = false) →
    i ≤ j →
    (selection_scan intLt data j bi bv).1 < data.length ∧
    i ≤ (selection_scan intLt data j bi bv).1 ∧
    data.getD (selection_scan intLt data j bi bv).1 default
      = (selection_scan intLt data j bi bv).2 ∧
    (∀ m, i ≤ m → m < data.length →
      intLt (data.getD m default) (selection_scan intLt data j bi bv).2 = false) := by
  intro data j bi bv i hbi hval hibi hprev hij
  rw [selection_scan]
  split
  · rename_i hjlen
    split
    · rename_i hless
      refine selection_scan_spec data (j + 1) j (data.getD j default) i hjlen rfl
        (by omega) ?_ (by omega)
      intro m him hmj
      by_cases hmj2 : m < j
      · have h1 := hprev m him hmj2
        simp only [intLt, decide_eq_true_eq] at hless
        simp only [intLt, decide_eq_false_iff_not] at h1 ⊢
        omega
      · have hm : m = j := by omega
        rw [hm]
        simp [intLt]
    · rename_i hless
      refine selection_scan_spec data (j + 1) bi bv i hbi hval hibi ?_ (by omega)
      intro m him hmj
      by_cases hmj2 : m < j
      · exact hprev m him hmj2
      · have hm : m = j := by omega
        rw [hm]
        simpa using hless
  · rename_i hjlen
    refine ⟨hbi, hibi, hval, ?_⟩
    intro m him hmlen
    exact hprev m him (by omega)
termination_by data j => data.length - j
decreasing_by
  all_goals omega

theorem selection_outer_sorted : ∀ (fuel : Nat) (data : List Int) (i : Nat),
    data.length ≤ fuel + i →
    (∀ m, 1 ≤ m → m < i →
      intLt (data.getD m default) (data.getD (m - 1) default) = false) →
    (∀ m, i ≤ m → m < data.length → 1 ≤ i →
      intLt (data.getD m default) (data.getD (i - 1) default) = false) →
    (selection_outer intLt fuel data i).Perm data ∧
    ∀ m, 1 ≤ m → m < data.length →
      intLt ((selection_outer intLt fuel data i).getD m default)
        ((selection_outer intLt fuel data i).getD (m - 1) default) = false
  | 0, data, i, hfl, hpre, _ => by
    refine ⟨List.Perm.refl data, ?_⟩
    intro m hm1 hm2
    exact hpre m hm1 (by omega)
  | fuel + 1, data, i, hfl, hpre, hbnd => by
    rw [selection_outer]
    by_cases hlt : i < data.length
    · rw [if_pos hlt]
      have hscan := selection_scan_spec data i i (data.getD i default) i hlt rfl
        (le_refl i) (by intro m h1 h2; omega) (le_refl i)
      obtain ⟨hb1, hb2, hb3, hb4⟩ := hscan
      set best := selection_scan intLt data i i (data.getD i default) with hbest
      set data2 := (data.set i (data.getD best.1 default)).set best.1
        (data.getD i default) with hd2
      have hget : ∀ m, data2.getD m default
          = if m = best.1 then data.getD i default
            else if m = i then data.getD best.1 default
            else data.getD m default := by
        intro m
        rw [hd2]
        exact double_set_getD data i best.1 m hlt hb1
      have hlen2 : data2.length = data.length := by
        rw [hd2]
        simp
      have hperm2 : data2.Perm data := by
        rw [hd2]
        exact transposition_perm data i best.1 hlt hb1
      have hvi : data2.getD i default = best.2 := by
        rw [hget i]
        by_cases hib : i = best.1
        · rw [if_pos hib, hib, hb3]
        · rw [if_neg hib, if_pos rfl, hb3]
      have hpre2 : ∀ m, 1 ≤ m → m < i + 1 →
          intLt (data2.getD m default) (data2.getD (m - 1) default) = false := by
        intro m hm1 hm2
        by_cases hmi : m = i
        · have hvm : data2.getD m default = best.2 := by
            rw [hmi]
            exact hvi
          rw [hvm, hget (m - 1), if_neg (by omega), if_neg (by omega)]
          have hh := hbnd best.1 hb2 hb1 (by omega)
          rw [hb3] at hh
          rw [hmi]
          exact hh
        · rw [hget m, hget (m - 1)]
          rw [if_neg (by omega), if_neg hmi, if_neg (by omega), if_neg (by omega)]
          exact hpre m hm1 (by omega)
      have hbnd2 : ∀ m, i + 1 ≤ m → m < data2.length → 1 ≤ i + 1 →
          intLt (data2.getD m default) (data2.getD (i + 1 - 1) default) = false := by
        intro m him hmlen _
        have him2 : i + 1 - 1 = i := by omega
        rw [him2, hvi, hget m]
        by_cases hmb : m = best.1
        · rw [if_pos hmb]
          exact hb4 i (le_refl i) hlt
        · rw [if_neg hmb, if_neg (by omega)]
          exact hb4 m (by omega) (by omega)
      have IH := selection_outer_sorted fuel data2 (i + 1) (by omega) hpre2 hbnd2
      refine ⟨IH.1.trans hperm2, ?_⟩
      intro m hm1 hm2
      exact IH.2 m hm1 (by omega)
    · rw [if_neg hlt]
      refine ⟨List.Perm.refl data, ?_⟩
      intro m hm1 hm2
      exact hpre m hm1 (by omega)

theorem selection_sort_spec (data : List Int) :
    (selection_sort intLt data).Perm data ∧
    is_sorted intLt (selection_sort intLt data) = true := by
  rw [selection_sort]
  have h := selection_outer_sorted data.length data 0 (by omega)
    (by intro m h1 h2; omega) (by intro m h1 h2 h3; omega)
  refine ⟨h.1, is_sorted_of_chain intLt _ (chain_of_adj intLt _ ?_)⟩
  intro j hj
  have hlen := h.1.length_eq
  have hp := h.2 (j + 1) (by omega) (by omega)
  simpa using hp

section MergeSorted

variable {α : Type} [Inhabited α]

theorem seg_empty (data : List α) (i iend : Nat) (h : iend + 1 ≤ i) :
    seg data i iend = [] := by
  rw [seg]
  have : iend + 1 - i = 0 := by omega
  rw [this, List.take_zero]

theorem seg_cons (data : List α) (i iend : Nat) (hle : i ≤ iend) (hlen : i < data.length) :
    seg data i iend = data.getD i default :: seg data (i + 1) iend := by
  rw [seg, seg, List.drop_eq_getElem_cons hlen, List.getD_eq_getElem data default hlen]
  have : iend + 1 - i = (iend + 1 - (i + 1)) + 1 := by omega
  rw [this, List.take_succ_cons]

theorem seg_length (data : List α) (i iend : Nat) (hlen : iend < data.length) :
    (seg data i iend).length = iend + 1 - i := by
  rw [seg]
  simp only [List.length_take, List.length_drop]
  omega

theorem seg_append (data : List α) (i c iend : Nat) (h1 : i ≤ c + 1) (h2 : c ≤ iend) :
    seg data i c ++ seg data (c + 1) iend = seg data i iend := by
  rw [seg, seg, seg]
  have h3 : iend + 1 - i = (c + 1 - i) + (iend - c) := by omega
  rw [h3, List.take_add]
  congr 1
  rw [List.drop_drop]
  have e2 : i + (c + 1 - i) = c + 1 := by omega
  have e3 : iend - c = iend + 1 - (c + 1) := by omega
  rw [e2, e3]

theorem seg_whole (data : List α) (h : 1 ≤ data.length) :
    seg data 0 (data.length - 1) = data := by
  rw [seg, List.drop_zero]
  have : data.length - 1 + 1 - 0 = data.length := by omega
  rw [this, List.take_length]

theorem copy_seg_eq (data : List α) : ∀ (i iend : Nat) (temp : List α),
    iend < data.length →
    copy_seg data i iend temp = temp ++ seg data i iend := by
  intro i iend temp hlen
  rw [copy_seg]
  split
  · rename_i hle
    rw [copy_seg_eq data (i + 1) iend _ hlen]
    rw [seg_cons data i iend hle (by omega)]
    simp
  · rename_i hle
    rw [seg_empty data i iend (by omega)]
    simp
termination_by i iend _ => iend + 1 - i
decreasing_by omega

theorem mergeList_nil_right (lt : α → α → Bool) : ∀ (xs : List α),
    mergeList lt xs [] = xs
  | [] => by rw [mergeList]
  | _ :: _ => by rw [mergeList]

theorem mergeList_perm (lt : α → α → Bool) : ∀ (xs ys : List α),
    (mergeList lt xs ys).Perm (xs ++ ys)
  | [], ys => by
    rw [mergeList]
    exact List.Perm.refl ys
  | x :: xs, [] => by
    rw [mergeList]
    simp
  | x :: xs, y :: ys => by
    rw [mergeList]
    split
    · exact (mergeList_perm lt xs (y :: ys)).cons x
    · refine ((mergeList_perm lt (x :: xs) ys).cons y).trans ?_
      exact List.perm_middle.symm
termination_by xs ys => xs.length + ys.length
decreasing_by
  all_goals simp
  all_goals omega

theorem mergeList_head (lt : α → α → Bool) : ∀ (xs ys : List α) (z : α),
    (mergeList lt xs ys).head? = some z →
    xs.head? = some z ∨ ys.head? = some z := by
  intro xs ys z h
  match xs, ys with
  | [], ys =>
    rw [mergeList] at h
    exact Or.inr h
  | x :: xs, [] =>
    rw [mergeList] at h
    exact Or.inl h
  | x :: xs, y :: ys =>
    rw [mergeList] at h
    split at h
    · simp at h
      simp [h]
    · simp at h
      simp [h]

theorem mergeList_chain (lt : α → α → Bool)
    (hasym : ∀ a b, lt a b = true → lt b a = false) :
    ∀ (xs ys : List α),
    List.Chain' (fun a b => lt b a = false) xs →
    List.Chain' (fun a b => lt b a = false) ys →
    List.Chain' (fun a b => lt b a = false) (mergeList lt xs ys)
  | [], ys, _, hy => by
    rw [mergeList]
    exact hy
  | x :: xs, [], hx, _ => by
    rw [mergeList]
    exact hx
  | x :: xs, y :: ys, hx, hy => by
    rw [mergeList]
    rw [List.chain'_cons'] at hx hy
    split
    · rename_i hxy
      rw [List.chain'_cons']
      refine ⟨?_, mergeList_chain lt hasym xs (y :: ys) hx.2 (by
        rw [List.chain'_cons']
        exact hy)⟩
      intro w hw
      rcases mergeList_head lt xs (y :: ys) w hw with hh | hh
      · exact hx.1 w hh
      · simp at hh
        rw [← hh]
        exact hasym _ _ hxy
    · rename_i hxy
      rw [List.chain'_cons']
      refine ⟨?_, mergeList_chain lt hasym (x :: xs) ys (by
        rw [List.chain'_cons']
        exact hx) hy.2⟩
      intro w hw
      rcases mergeList_head lt (x :: xs) ys w hw with hh | hh
      · simp at hh
        rw [← hh]
        simpa using hxy
      · exact hy.1 w hh
termination_by xs ys => xs.length + ys.length
decreasing_by
  all_goals simp
  all_goals omega

theorem merge_fill_eq (lt : α → α → Bool) (data : List α) :
    ∀ (li le ri re : Nat) (temp : List α), le < data.length → re < data.length →
    merge_fill lt data li le ri re temp
      = temp ++ mergeList lt (seg data li le) (seg data ri re) := by
  intro li le ri re temp hle hre
  rw [merge_fill]
  split
  · rename_i hg
    rw [seg_cons data li le hg.1 (by omega), seg_cons data ri re hg.2 (by omega)]
    rw [mergeList]
    split
    · rw [merge_fill_eq lt data (li + 1) le ri re _ hle hre]
      rw [← seg_cons data ri re hg.2 (by omega)]
      simp
    · rw [merge_fill_eq lt data li le (ri + 1) re _ hle hre]
      rw [← seg_cons data li le hg.1 (by omega)]
      simp
  · rename_i hg
    rw [copy_seg_eq data ri re _ hre, copy_seg_eq data li le temp hle]
    rcases Decidable.not_and_iff_or_not.mp hg with hh | hh
    · rw [seg_empty data li le (by omega)]
      rw [mergeList]
      simp
    · rw [seg_empty data ri re (by omega), mergeList_nil_right]
      simp
termination_by li le ri re _ => (le + 1 - li) + (re + 1 - ri)
decreasing_by
  all_goals omega

theorem write_seg_eq : ∀ (temp data : List α) (pos : Nat),
    pos + temp.length ≤ data.length →
    write_seg data pos temp = data.take pos ++ temp ++ data.drop (pos + temp.length)
  | [], data, pos, h => by
    rw [write_seg]
    simp
  | t :: rest, data, pos, h => by
    rw [write_seg]
    rw [write_seg_eq rest (data.set pos t) (pos + 1)
      (by simp only [List.length_set]; simp at h; omega)]
    have hset : data.set pos t = data.take pos ++ t :: data.drop (pos + 1) := by
      rw [List.set_eq_take_append_cons_drop]
      rw [if_pos (by simp at h; omega)]
    rw [hset]
    have htl : (data.take pos).length = pos := by
      simp at h ⊢
      omega
    have h1 : (data.take pos ++ t :: data.drop (pos + 1)).take (pos + 1)
        = data.take pos ++ [t] := by
      have : pos + 1 = (data.take pos).length + 1 := by omega
      rw [this, List.take_append]
      simp
    have h2 : (data.take pos ++ t :: data.drop (pos + 1)).drop (pos + 1 + rest.length)
        = data.drop (pos + (t :: rest).length) := by
      have e1 : pos + 1 + rest.length = (data.take pos).length + (rest.length + 1) := by
        omega
      rw [e1, List.drop_append, List.drop_succ_cons, List.drop_drop]
      congr 1
      simp only [List.length_cons]
      omega
    rw [h1, h2]
    simp

end MergeSorted

section MergeSortMain

variable {α : Type} [Inhabited α]

theorem take_getD_decomp (data : List α) (n : Nat) (h : n < data.length) :
    data = data.take n ++ data.getD n default :: data.drop (n + 1) := by
  have h1 := List.take_append_drop n data
  rw [List.drop_eq_getElem_cons h] at h1
  rw [List.getD_eq_getElem data default h]
  exact h1.symm

theorem merge_sort_spec (lt : α → α → Bool)
    (hasym : ∀ a b, lt a b = true → lt b a = false) :
    ∀ (data : List α) (left right : Nat), left ≤ right + 1 → right < data.length →
    ∃ S : List α, S.Perm (seg data left right) ∧
      List.Chain' (fun a b => lt b a = false) S ∧
      merge_sort lt data left right = data.take left ++ S ++ data.drop (right + 1) := by
  intro data left right hlr hrlen
  have htake : (data.take left).length = left := by
    rw [List.length_take]
    omega
  by_cases hlt : left < right
  · have hms : merge_sort lt data left right
        = merge lt (merge_sort lt (merge_sort lt data left ((left + right) / 2))
            ((left + right) / 2 + 1) right) left ((left + right) / 2 + 1) right := by
      rw [merge_sort, if_pos hlt]
    have hc1 : left ≤ (left + right) / 2 := by omega
    have hc2 : (left + right) / 2 < right := by omega
    obtain ⟨S1, hS1p, hS1c, hS1e⟩ :=
      merge_sort_spec lt hasym data left ((left + right) / 2) (by omega) (by omega)
    have hS1len : S1.length = (left + right) / 2 + 1 - left := by
      rw [hS1p.length_eq, seg_length data left ((left + right) / 2) (by omega)]
    have hr1len : (merge_sort lt data left ((left + right) / 2)).length = data.length := by
      rw [hS1e]
      simp only [List.length_append, List.length_take, List.length_drop]
      omega
    have hr1drop : (merge_sort lt data left ((left + right) / 2)).drop
        ((left + right) / 2 + 1) = data.drop ((left + right) / 2 + 1) := by
      rw [hS1e]
      exact List.drop_left' (by rw [List.length_append]; omega)
    have hr1take : (merge_sort lt data left ((left + right) / 2)).take
        ((left + right) / 2 + 1) = data.take left ++ S1 := by
      rw [hS1e]
      exact List.take_left' (by rw [List.length_append]; omega)
    have hr1dropR : (merge_sort lt data left ((left + right) / 2)).drop (right + 1)
        = data.drop (right + 1) := by
      rw [hS1e]
      have e1 : right + 1 = (data.take left ++ S1).length + (right - (left + right) / 2) := by
        rw [List.length_append]
        omega
      rw [e1, List.drop_append, List.drop_drop]
      congr 1
      omega
    obtain ⟨S2, hS2p, hS2c, hS2e⟩ :=
      merge_sort_spec lt hasym (merge_sort lt data left ((left + right) / 2))
        ((left + right) / 2 + 1) right (by omega) (by rw [hr1len]; omega)
    have hseg2 : seg (merge_sort lt data left ((left + right) / 2))
        ((left + right) / 2 + 1) right = seg data ((left + right) / 2 + 1) right := by
      rw [seg, seg, hr1drop]
    rw [hseg2] at hS2p
    have hS2len : S2.length = right - (left + right) / 2 := by
      rw [hS2p.length_eq, seg_length data ((left + right) / 2 + 1) right hrlen]
      omega
    have hr2e : merge_sort lt (merge_sort lt data left ((left + right) / 2))
        ((left + right) / 2 + 1) right
        = data.take left ++ (S1 ++ (S2 ++ data.drop (right + 1))) := by
      rw [hS2e, hr1take, hr1dropR]
      simp [List.append_assoc]
    have hr2len : (merge_sort lt (merge_sort lt data left ((left + right) / 2))
        ((left + right) / 2 + 1) right).length = data.length := by
      rw [hr2e]
      simp only [List.length_append, List.length_take, List.length_drop]
      omega
    have hr2dropleft : (merge_sort lt (merge_sort lt data left ((left + right) / 2))
        ((left + right) / 2 + 1) right).drop left = S1 ++ (S2 ++ data.drop (right + 1)) := by
      rw [hr2e]
      exact List.drop_left' htake
    have hseg1 : seg (merge_sort lt (merge_sort lt data left ((left + right) / 2))
        ((left + right) / 2 + 1) right) left ((left + right) / 2) = S1 := by
      rw [seg, hr2dropleft]
      exact List.take_left' (by omega)
    have hseg2' : seg (merge_sort lt (merge_sort lt data left ((left + right) / 2))
        ((left + right) / 2 + 1) right) ((left + right) / 2 + 1) right = S2 := by
      rw [seg]
      have hd : (merge_sort lt (merge_sort lt data left ((left + right) / 2))
          ((left + right) / 2 + 1) right).drop ((left + right) / 2 + 1)
          = S2 ++ data.drop (right + 1) := by
        rw [hr2e, ← List.append_assoc]
        exact List.drop_left' (by rw [List.length_append]; omega)
      rw [hd]
      exact List.take_left' (by omega)
    have hTp : (mergeList lt S1 S2).Perm (S1 ++ S2) := mergeList_perm lt S1 S2
    have hTc := mergeList_chain lt hasym S1 S2 hS1c hS2c
    have hTlen : (mergeList lt S1 S2).length = right + 1 - left := by
      rw [hTp.length_eq, List.length_append]
      omega
    have hfill := merge_fill_eq lt
      (merge_sort lt (merge_sort lt data left ((left + right) / 2))
        ((left + right) / 2 + 1) right)
      left ((left + right) / 2) ((left + right) / 2 + 1) right []
      (by rw [hr2len]; omega) (by rw [hr2len]; omega)
    have hwrite := write_seg_eq (mergeList lt S1 S2)
      (merge_sort lt (merge_sort lt data left ((left + right) / 2))
        ((left + right) / 2 + 1) right) left
      (by rw [hr2len, hTlen]; omega)
    have hr2takeleft : (merge_sort lt (merge_sort lt data left ((left + right) / 2))
        ((left + right) / 2 + 1) right).take left = data.take left := by
      rw [hr2e]
      exact List.take_left' htake
    have hr2dropT : (merge_sort lt (merge_sort lt data left ((left + right) / 2))
        ((left + right) / 2 + 1) right).drop (left + (mergeList lt S1 S2).length)
        = data.drop (right + 1) := by
      rw [hTlen]
      have e1 : left + (right + 1 - left) = right + 1 := by omega
      rw [e1, hr2e, ← List.append_assoc, ← List.append_assoc]
      exact List.drop_left' (by
        rw [List.length_append, List.length_append]
        omega)
    refine ⟨mergeList lt S1 S2, ?_, hTc, ?_⟩
    · refine hTp.trans ?_
      have hsa := seg_append data left ((left + right) / 2) right (by omega) (by omega)
      rw [← hsa]
      exact List.Perm.append hS1p hS2p
    · rw [hms, merge]
      simp only [Nat.add_sub_cancel]
      rw [hfill, hseg1, hseg2', List.nil_append, hwrite, hr2takeleft, hr2dropT]
  · have hms : merge_sort lt data left right = data := by
      rw [merge_sort, if_neg hlt]
    by_cases hlr2 : left = right + 1
    · refine ⟨[], ?_, List.chain'_nil, ?_⟩
      · rw [seg_empty data left right (by omega)]
      · rw [hms, hlr2, List.append_nil, List.take_append_drop]
    · have hlr3 : left = right := by omega
      refine ⟨[data.getD right default], ?_, List.chain'_singleton _, ?_⟩
      · rw [seg_cons data left right (by omega) (by omega),
          seg_empty data (left + 1) right (by omega), hlr3]
      · rw [hms, hlr3, List.append_assoc, List.singleton_append]
        exact take_getD_decomp data right hrlen
termination_by data left right => right - left
decreasing_by
  all_goals omega

theorem merge_sorter_sort_spec (lt : α → α → Bool)
    (hasym : ∀ a b, lt a b = true → lt b a = false) (data : List α) :
    (merge_sorter_sort lt data).Perm data ∧
    is_sorted lt (merge_sorter_sort lt data) = true := by
  rw [merge_sorter_sort]
  cases data with
  | nil =>
    have h : merge_sort lt ([] : List α) 0 0 = [] := by
      rw [merge_sort, if_neg (by omega)]
    simp only [List.length_nil]
    rw [h]
    exact ⟨List.Perm.refl _, rfl⟩
  | cons a rest =>
    have hlen : 1 ≤ (a :: rest).length := by simp
    obtain ⟨S, hSp, hSc, hSe⟩ := merge_sort_spec lt hasym (a :: rest) 0
      ((a :: rest).length - 1) (by omega) (by simp)
    rw [seg_whole _ hlen] at hSp
    have he : (a :: rest).length - 1 + 1 = (a :: rest).length := by omega
    rw [hSe, List.take_zero, List.nil_append, he, List.drop_length, List.append_nil]
    exact ⟨hSp, is_sorted_of_chain lt S hSc⟩

end MergeSortMain

/-! ## Theorems: quick sort (claim C8) -/

section QuickHelpers

variable {α : Type} [Inhabited α]

theorem rot_getD (data : List α) (pivot i m : Nat) (pv : α) (hp : pivot < data.length)
    (hi : i < data.length) (hp1 : pivot + 1 < data.length) :
    (((data.set pivot (data.getD i default)).set i
        (data.getD (pivot + 1) default)).set (pivot + 1) pv).getD m default
      = if m = pivot + 1 then pv
        else if m = i then data.getD (pivot + 1) default
        else if m = pivot then data.getD i default
        else data.getD m default := by
  by_cases h1 : m = pivot + 1
  · rw [if_pos h1, h1, getD_set_self' _ _ _ (by simp only [List.length_set]; omega)]
  · rw [if_neg h1, getD_set_ne' _ _ _ _ (Ne.symm h1)]
    by_cases h2 : m = i
    · rw [if_pos h2, h2, getD_set_self' _ _ _ (by simp only [List.length_set]; omega)]
    · rw [if_neg h2, getD_set_ne' _ _ _ _ (Ne.symm h2)]
      by_cases h3 : m = pivot
      · rw [if_pos h3, h3, getD_set_self' _ _ _ hp]
      · rw [if_neg h3, getD_set_ne' _ _ _ _ (Ne.symm h3)]

theorem mem_seg (l : List α) : ∀ (a b : Nat), b < l.length → ∀ v, v ∈ seg l a b →
    ∃ m, a ≤ m ∧ m ≤ b ∧ l.getD m default = v := by
  intro a b hb v hv
  by_cases hab : a ≤ b
  · rw [seg_cons l a b hab (by omega)] at hv
    rcases List.mem_cons.mp hv with hv | hv
    · exact ⟨a, le_refl a, hab, hv.symm⟩
    · obtain ⟨m, hm1, hm2, hm3⟩ := mem_seg l (a + 1) b hb v hv
      exact ⟨m, by omega, hm2, hm3⟩
  · rw [seg_empty l a b (by omega)] at hv
    exact absurd hv (List.not_mem_nil v)
termination_by a b => b + 1 - a
decreasing_by omega

theorem seg_decomp (l : List α) (lo hi : Nat) (h1 : lo ≤ hi + 1) (h2 : hi < l.length) :
    l = l.take lo ++ seg l lo hi ++ l.drop (hi + 1) := by
  rw [seg, List.append_assoc]
  have e1 : l.drop (hi + 1) = (l.drop lo).drop (hi + 1 - lo) := by
    rw [List.drop_drop]
    congr 1
    omega
  rw [e1, List.take_append_drop, List.take_append_drop]

end QuickHelpers

theorem drop_eq_of_getD (l1 l2 : List Int) (n : Nat) (hlen : l1.length = l2.length)
    (h : ∀ m, n ≤ m → l1.getD m default = l2.getD m default) :
    l1.drop n = l2.drop n := by
  apply List.ext_getElem?
  intro i
  rw [List.getElem?_drop, List.getElem?_drop]
  by_cases hlt : n + i < l1.length
  · have hd := h (n + i) (by omega)
    rw [List.getD_eq_getElem l1 default hlt,
      List.getD_eq_getElem l2 default (by omega)] at hd
    rw [List.getElem?_eq_getElem hlt,
      List.getElem?_eq_getElem (show n + i < l2.length by omega), hd]
  · rw [List.getElem?_eq_none (by omega), List.getElem?_eq_none (by omega)]

theorem take_eq_of_getD (l1 l2 : List Int) (n : Nat) (hlen : l1.length = l2.length)
    (h : ∀ m, m < n → l1.getD m default = l2.getD m default) :
    l1.take n = l2.take n := by
  apply List.ext_getElem?
  intro i
  rw [List.getElem?_take, List.getElem?_take]
  by_cases hin : i < n
  · rw [if_pos hin, if_pos hin]
    by_cases hlt : i < l1.length
    · have hd := h i hin
      rw [List.getD_eq_getElem l1 default hlt,
        List.getD_eq_getElem l2 default (by omega)] at hd
      rw [List.getElem?_eq_getElem hlt,
        List.getElem?_eq_getElem (show i < l2.length by omega), hd]
    · rw [List.getElem?_eq_none (by omega), List.getElem?_eq_none (by omega)]
  · rw [if_neg hin, if_neg hin]

theorem rot_perm (data : List Int) (pivot i : Nat) (pv : Int) (hpi : pivot < i)
    (hi : i < data.length) (hpv : data.getD pivot default = pv) :
    (((data.set pivot (data.getD i default)).set i
        (data.getD (pivot + 1) default)).set (pivot + 1) pv).Perm data := by
  rw [List.perm_iff_count]
  intro x
  have c1 := count_set_default data pivot (data.getD i default) x (by omega)
  have c2 := count_set_default (data.set pivot (data.getD i default)) i
    (data.getD (pivot + 1) default) x (by simp only [List.length_set]; omega)
  have c3 := count_set_default
    ((data.set pivot (data.getD i default)).set i (data.getD (pivot + 1) default))
    (pivot + 1) pv x (by simp only [List.length_set]; omega)
  have e1 : (data.set pivot (data.getD i default)).getD i default
      = data.getD i default := by
    rw [getD_set_ne' _ _ _ _ (by omega)]
  have e2 : ((data.set pivot (data.getD i default)).set i
      (data.getD (pivot + 1) default)).getD (pivot + 1) default
      = data.getD (pivot + 1) default := by
    by_cases hpe : pivot + 1 = i
    · rw [hpe, getD_set_self' _ _ _ (by simp only [List.length_set]; omega)]
    · rw [getD_set_ne' _ _ _ _ (Ne.symm hpe), getD_set_ne' _ _ _ _ (by omega)]
  rw [e1] at c2
  rw [e2] at c3
  rw [hpv] at c1
  by_cases f1 : data.getD i default = x <;>
    by_cases f2 : data.getD (pivot + 1) default = x <;>
    by_cases f3 : pv = x <;>
    simp [f1, f2, f3] at c1 c2 c3 ⊢ <;>
    omega

theorem partition_loop_spec (lt : Int → Int → Bool) (hirr : ∀ a, lt a a = false)
    (pv : Int) (lo hi : Nat) :
    ∀ (i pivot : Nat) (data : List Int),
    hi < data.length → lo ≤ pivot → pivot ≤ i → pivot ≤ hi →
    data.getD pivot default = pv →
    (∀ m, lo ≤ m → m < pivot → lt (data.getD m default) pv = true) →
    (∀ m, pivot < m → m < i → lt (data.getD m default) pv = false) →
    (partition_loop lt pv data i hi pivot).1.length = data.length ∧
    (partition_loop lt pv data i hi pivot).1.Perm data ∧
    (∀ m, m < lo → (partition_loop lt pv data i hi pivot).1.getD m default
      = data.getD m default) ∧
    (∀ m, hi < m → (partition_loop lt pv data i hi pivot).1.getD m default
      = data.getD m default) ∧
    lo ≤ (partition_loop lt pv data i hi pivot).2 ∧
    (partition_loop lt pv data i hi pivot).2 ≤ hi ∧
    (partition_loop lt pv data i hi pivot).1.getD
      (partition_loop lt pv data i hi pivot).2 default = pv ∧
    (∀ m, lo ≤ m → m < (partition_loop lt pv data i hi pivot).2 →
      lt ((partition_loop lt pv data i hi pivot).1.getD m default) pv = true) ∧
    (∀ m, (partition_loop lt pv data i hi pivot).2 < m → m ≤ hi →
      lt ((partition_loop lt pv data i hi pivot).1.getD m default) pv = false) := by
  intro i pivot data hhilen hlop hpi hphi hpv hlow hhigh
  rw [partition_loop]
  split
  · rename_i hile
    split
    · rename_i hsw
      have hpilt : pivot < i := by
        rcases Nat.eq_or_lt_of_le hpi with he | hl
        · exfalso
          rw [← he, hpv, hirr pv] at hsw
          exact Bool.false_ne_true hsw
        · exact hl
      set d2 := ((data.set pivot (data.getD i default)).set i
        (data.getD (pivot + 1) default)).set (pivot + 1) pv with hd2
      have hlen2 : d2.length = data.length := by
        rw [hd2]
        simp
      have hget : ∀ m, d2.getD m default
          = if m = pivot + 1 then pv
            else if m = i then data.getD (pivot + 1) default
            else if m = pivot then data.getD i default
            else data.getD m default := by
        intro m
        rw [hd2]
        exact rot_getD data pivot i m pv (by omega) (by omega) (by omega)
      have hperm2 : d2.Perm data := by
        rw [hd2]
        exact rot_perm data pivot i pv hpilt (by omega) hpv
      have hlow2 : ∀ m, lo ≤ m → m < pivot + 1 → lt (d2.getD m default) pv = true := by
        intro m h1 h2
        rw [hget m]
        by_cases hm : m = pivot
        · rw [if_neg (by omega), if_neg (by omega), if_pos hm]
          exact hsw
        · rw [if_neg (by omega), if_neg (by omega), if_neg hm]
          exact hlow m h1 (by omega)
      have hhigh2 : ∀ m, pivot + 1 < m → m < i + 1 → lt (d2.getD m default) pv = false := by
        intro m h1 h2
        rw [hget m, if_neg (by omega)]
        by_cases hm : m = i
        · rw [if_pos hm]
          exact hhigh (pivot + 1) (by omega) (by omega)
        · rw [if_neg hm, if_neg (by omega)]
          exact hhigh m (by omega) (by omega)
      have IH := partition_loop_spec lt hirr pv lo hi (i + 1) (pivot + 1) d2
        (by omega) (by omega) (by omega) (by omega)
        (by rw [hget (pivot + 1), if_pos rfl]) hlow2 hhigh2
      obtain ⟨g1, g2, g3, g4, g5, g6, g7, g8, g9⟩ := IH
      refine ⟨by rw [g1, hlen2], g2.trans hperm2, ?_, ?_, by omega, g6, g7, g8, g9⟩
      · intro m hm
        rw [g3 m hm, hget m, if_neg (by omega), if_neg (by omega), if_neg (by omega)]
      · intro m hm
        rw [g4 m hm, hget m, if_neg (by omega), if_neg (by omega), if_neg (by omega)]
    · rename_i hsw
      have hswf : lt (data.getD i default) pv = false := by
        cases hx : lt (data.getD i default) pv
        · rfl
        · exact absurd hx hsw
      refine partition_loop_spec lt hirr pv lo hi (i + 1) pivot data hhilen hlop
        (by omega) hphi hpv hlow ?_
      intro m h1 h2
      by_cases hm : m = i
      · rw [hm]
        exact hswf
      · exact hhigh m h1 (by omega)
  · rename_i hile
    refine ⟨rfl, List.Perm.refl data, fun m _ => rfl, fun m _ => rfl, hlop, hphi, hpv,
      hlow, ?_⟩
    intro m h1 h2
    exact hhigh m h1 (by omega)
termination_by i pivot data => hi + 1 - i
decreasing_by
  all_goals omega

theorem seg_perm_of_perm (l1 l2 : List Int) (lo hi : Nat)
    (hperm : l1.Perm l2) (htake : l1.take lo = l2.take lo)
    (hdrop : l1.drop (hi + 1) = l2.drop (hi + 1)) (h1 : lo ≤ hi + 1)
    (h2 : hi < l1.length) : (seg l1 lo hi).Perm (seg l2 lo hi) := by
  have hlen := hperm.length_eq
  have d1 := seg_decomp l1 lo hi h1 h2
  have d2 := seg_decomp l2 lo hi h1 (by omega)
  have hp := hperm
  rw [d1, d2, htake, hdrop] at hp
  rw [List.append_assoc, List.append_assoc] at hp
  have hp2 := (List.perm_append_left_iff _).mp hp
  exact (List.perm_append_right_iff _).mp hp2

theorem quick_sort_spec (lt : Int → Int → Bool)
    (hasym : ∀ a b, lt a b = true → lt b a = false)
    (pick : Nat → Nat → Nat) (hpick : ∀ a b, a ≤ b → a ≤ pick a b ∧ pick a b ≤ b) :
    ∀ (fuel : Nat) (data : List Int) (lo hi : Nat),
    lo ≤ hi + 1 → hi < data.length → hi + 1 - lo ≤ fuel →
    ∃ S : List Int, S.Perm (seg data lo hi) ∧
      List.Chain' (fun a b => lt b a = false) S ∧
      quick_sort lt pick fuel data lo hi = data.take lo ++ S ++ data.drop (hi + 1)
  | 0, data, lo, hi, hlohi, hhi, hfuel => by
    have he : lo = hi + 1 := by omega
    refine ⟨[], ?_, List.chain'_nil, ?_⟩
    · rw [seg_empty data lo hi (by omega)]
    · rw [quick_sort, he, List.append_nil, List.take_append_drop]
  | fuel + 1, data, lo, hi, hlohi, hhi, hfuel => by
    by_cases hge : lo ≥ hi
    · have hms : quick_sort lt pick (fuel + 1) data lo hi = data := by
        rw [quick_sort, if_pos hge]
      by_cases hlr2 : lo = hi + 1
      · refine ⟨[], ?_, List.chain'_nil, ?_⟩
        · rw [seg_empty data lo hi (by omega)]
        · rw [hms, hlr2, List.append_nil, List.take_append_drop]
      · have hlr3 : lo = hi := by omega
        refine ⟨[data.getD hi default], ?_, List.chain'_singleton _, ?_⟩
        · rw [seg_cons data lo hi (by omega) (by omega),
            seg_empty data (lo + 1) hi (by omega), hlr3]
        · rw [hms, hlr3, List.append_assoc, List.singleton_append]
          exact take_getD_decomp data hi hhi
    · have hlohi2 : lo < hi := by omega
      have hpk := hpick lo hi (by omega)
      have hirr : ∀ a, lt a a = false := by
        intro a
        cases hx : lt a a
        · rfl
        · have h2 := hasym a a hx
          rw [hx] at h2
          exact h2
      set pv := data.getD (pick lo hi) default with hpv
      set d1 := (data.set (pick lo hi) (data.getD lo default)).set lo pv with hd1
      set pr := partition_loop lt pv d1 lo hi lo with hpr
      have hms : quick_sort lt pick (fuel + 1) data lo hi
          = quick_sort lt pick fuel (quick_sort lt pick fuel pr.1 lo (pr.2 - 1))
              (pr.2 + 1) hi := by
        rw [hpr, hd1, hpv, quick_sort, if_neg (by omega)]
      have hd1len : d1.length = data.length := by
        rw [hd1]
        simp
      have hd1get : ∀ m, d1.getD m default
          = if m = lo then pv
            else if m = pick lo hi then data.getD lo default
            else data.getD m default := by
        intro m
        rw [hd1, hpv]
        exact double_set_getD data (pick lo hi) lo m (by omega) (by omega)
      have hd1perm : d1.Perm data := by
        rw [hd1, hpv]
        exact transposition_perm data (pick lo hi) lo (by omega) (by omega)
      have hd1take : d1.take lo = data.take lo := by
        refine take_eq_of_getD d1 data lo (by rw [hd1len]) ?_
        intro m hm
        rw [hd1get m, if_neg (by omega), if_neg (by omega)]
      have hd1drop : d1.drop (hi + 1) = data.drop (hi + 1) := by
        refine drop_eq_of_getD d1 data (hi + 1) (by rw [hd1len]) ?_
        intro m hm
        rw [hd1get m, if_neg (by omega), if_neg (by omega)]
      have hpspec := partition_loop_spec lt hirr pv lo hi lo lo d1 (by omega)
        (le_refl lo) (le_refl lo) (by omega) (by rw [hd1get lo, if_pos rfl])
        (by intro m h1 h2; omega) (by intro m h1 h2; omega)
      rw [← hpr] at hpspec
      obtain ⟨p1, p2, p3, p4, p5, p6, p7, p8, p9⟩ := hpspec
      have hprlen : pr.1.length = data.length := by
        rw [p1, hd1len]
      have hprtake : pr.1.take lo = data.take lo := by
        refine Eq.trans ?_ hd1take
        exact take_eq_of_getD pr.1 d1 lo (by rw [p1]) (fun m hm => p3 m hm)
      have hprdrop : pr.1.drop (hi + 1) = data.drop (hi + 1) := by
        refine Eq.trans ?_ hd1drop
        exact drop_eq_of_getD pr.1 d1 (hi + 1) (by rw [p1])
          (fun m hm => p4 m (by omega))
      have hprperm : pr.1.Perm data := p2.trans hd1perm
      have hsegperm : (seg pr.1 lo hi).Perm (seg data lo hi) :=
        seg_perm_of_perm pr.1 data lo hi hprperm hprtake hprdrop (by omega)
          (by rw [hprlen]; omega)
      have hprdropP : pr.1.drop pr.2 = pv :: pr.1.drop (pr.2 + 1) := by
        have hplen : pr.2 < pr.1.length := by
          rw [hprlen]
          omega
        rw [List.drop_eq_getElem_cons hplen]
        rw [← List.getD_eq_getElem pr.1 default hplen, p7]
      -- the right-hand recursive call facts are shared by both cases below
      by_cases hplo : pr.2 = lo
      · -- empty low block: the left call leaves pr.1 unchanged
        have hL : quick_sort lt pick fuel pr.1 lo (pr.2 - 1) = pr.1 := by
          by_cases hlo0 : lo = 0
          · obtain ⟨S0, hS0p, _, hS0e⟩ := quick_sort_spec lt hasym pick hpick fuel
              pr.1 lo (pr.2 - 1) (by omega) (by rw [hprlen]; omega) (by omega)
            have hgl : pr.1.getD 0 default = pv := by
              have h7 := p7
              rw [hplo, hlo0] at h7
              exact h7
            have hseg0 : seg pr.1 lo (pr.2 - 1) = [pv] := by
              rw [hplo, hlo0]
              have hz : (0 : Nat) - 1 = 0 := rfl
              rw [hz, seg_cons pr.1 0 0 (le_refl 0) (by rw [hprlen]; omega),
                seg_empty pr.1 1 0 (by omega), hgl]
            rw [hseg0] at hS0p
            have hS0 : S0 = [pv] := List.perm_singleton.mp hS0p
            rw [hS0e, hS0, hlo0]
            have hz2 : pr.2 - 1 + 1 = 1 := by omega
            rw [hz2, List.take_zero, List.nil_append, List.singleton_append]
            have hd := take_getD_decomp pr.1 0 (by rw [hprlen]; omega)
            rw [List.take_zero, List.nil_append, hgl] at hd
            exact hd.symm
          · obtain ⟨S0, hS0p, _, hS0e⟩ := quick_sort_spec lt hasym pick hpick fuel
              pr.1 lo (pr.2 - 1) (by omega) (by rw [hprlen]; omega) (by omega)
            have hS0 : S0 = [] := by
              refine List.Perm.eq_nil ?_
              rw [hplo, seg_empty pr.1 lo (lo - 1) (by omega)] at hS0p
              exact hS0p
            rw [hS0e, hS0]
            have he1 : pr.2 - 1 + 1 = lo := by omega
            rw [he1, List.append_nil, List.take_append_drop]
        obtain ⟨SR, hSRp, hSRc, hSRe⟩ := quick_sort_spec lt hasym pick hpick fuel
          pr.1 (pr.2 + 1) hi (by omega) (by rw [hprlen]; omega) (by omega)
        have hSRmem : ∀ x ∈ SR, lt x pv = false := by
          intro x hx
          have hx2 := hSRp.mem_iff.mp hx
          obtain ⟨m, hm1, hm2, hm3⟩ := mem_seg pr.1 (pr.2 + 1) hi
            (by rw [hprlen]; omega) x hx2
          rw [← hm3]
          exact p9 m (by omega) hm2
        refine ⟨pv :: SR, ?_, ?_, ?_⟩
        · refine List.Perm.trans ?_ hsegperm
          have hsc : seg pr.1 lo hi = pv :: seg pr.1 (pr.2 + 1) hi := by
            rw [seg_cons pr.1 lo hi (by omega) (by rw [hprlen]; omega)]
            have hgl : pr.1.getD lo default = pv := by
              rw [← hplo]
              exact p7
            rw [hgl, hplo]
          rw [hsc]
          exact hSRp.cons pv
        · rw [List.chain'_cons']
          refine ⟨?_, hSRc⟩
          intro y hy
          exact hSRmem y (List.mem_of_mem_head? hy)
        · rw [hms, hL, hSRe]
          have ht : pr.1.take (pr.2 + 1) = data.take lo ++ [pv] := by
            have hd := take_getD_decomp pr.1 pr.2 (by rw [hprlen]; omega)
            have hgl : pr.1.getD pr.2 default = pv := p7
            rw [hgl] at hd
            rw [hd]
            have he2 : pr.2 + 1 = (pr.1.take pr.2).length + 1 := by
              rw [List.length_take]
              rw [hprlen]
              omega
            rw [he2, List.take_append]
            simp only [List.take_succ_cons, List.take_zero]
            congr 1
            rw [hplo]
            exact hprtake
          rw [ht, hprdrop]
          simp [List.append_assoc]
      · -- nonempty low block
        obtain ⟨SL, hSLp, hSLc, hSLe⟩ := quick_sort_spec lt hasym pick hpick fuel
          pr.1 lo (pr.2 - 1) (by omega) (by rw [hprlen]; omega) (by omega)
        have he1 : pr.2 - 1 + 1 = pr.2 := by omega
        rw [he1] at hSLe
        have hSLlen : SL.length = pr.2 - lo := by
          rw [hSLp.length_eq, seg_length pr.1 lo (pr.2 - 1) (by rw [hprlen]; omega)]
          omega
        have htakelo : (pr.1.take lo).length = lo := by
          rw [List.length_take, hprlen]
          omega
        have hqlen : (quick_sort lt pick fuel pr.1 lo (pr.2 - 1)).length
            = data.length := by
          rw [hSLe]
          simp only [List.length_append, List.length_drop]
          rw [htakelo, hSLlen, hprlen]
          omega
        have hqdropP : (quick_sort lt pick fuel pr.1 lo (pr.2 - 1)).drop pr.2
            = pr.1.drop pr.2 := by
          rw [hSLe]
          exact List.drop_left' (by rw [List.length_append, htakelo, hSLlen]; omega)
        obtain ⟨SR, hSRp, hSRc, hSRe⟩ := quick_sort_spec lt hasym pick hpick fuel
          (quick_sort lt pick fuel pr.1 lo (pr.2 - 1)) (pr.2 + 1) hi (by omega)
          (by rw [hqlen]; omega) (by omega)
        have hsegR : seg (quick_sort lt pick fuel pr.1 lo (pr.2 - 1)) (pr.2 + 1) hi
            = seg pr.1 (pr.2 + 1) hi := by
          rw [seg, seg]
          have hd : (quick_sort lt pick fuel pr.1 lo (pr.2 - 1)).drop (pr.2 + 1)
              = pr.1.drop (pr.2 + 1) := by
            have e2 : pr.2 + 1 = pr.2 + 1 := rfl
            have h3 : (quick_sort lt pick fuel pr.1 lo (pr.2 - 1)).drop (pr.2 + 1)
                = ((quick_sort lt pick fuel pr.1 lo (pr.2 - 1)).drop pr.2).drop 1 := by
              rw [List.drop_drop]
            rw [h3, hqdropP, List.drop_drop]
          rw [hd]
        rw [hsegR] at hSRp
        have hSRmem : ∀ x ∈ SR, lt x pv = false := by
          intro x hx
          have hx2 := hSRp.mem_iff.mp hx
          obtain ⟨m, hm1, hm2, hm3⟩ := mem_seg pr.1 (pr.2 + 1) hi
            (by rw [hprlen]; omega) x hx2
          rw [← hm3]
          exact p9 m (by omega) hm2
        have hSLmem : ∀ x ∈ SL, lt x pv = true := by
          intro x hx
          have hx2 := hSLp.mem_iff.mp hx
          obtain ⟨m, hm1, hm2, hm3⟩ := mem_seg pr.1 lo (pr.2 - 1)
            (by rw [hprlen]; omega) x hx2
          rw [← hm3]
          exact p8 m hm1 (by omega)
        refine ⟨SL ++ pv :: SR, ?_, ?_, ?_⟩
        · refine List.Perm.trans ?_ hsegperm
          have hsc : seg pr.1 pr.2 hi = pv :: seg pr.1 (pr.2 + 1) hi := by
            rw [seg_cons pr.1 pr.2 hi (by omega) (by rw [hprlen]; omega), p7]
          have hsa := seg_append pr.1 lo (pr.2 - 1) hi (by omega) (by omega)
          rw [he1] at hsa
          rw [← hsa, hsc]
          exact List.Perm.append hSLp (hSRp.cons pv)
        · rw [List.chain'_append]
          refine ⟨hSLc, ?_, ?_⟩
          · rw [List.chain'_cons']
            refine ⟨?_, hSRc⟩
            intro y hy
            exact hSRmem y (List.mem_of_mem_head? hy)
          · intro x hx y hy
            simp only [List.head?_cons, Option.mem_def, Option.some.injEq] at hy
            rw [← hy]
            exact hasym x pv (hSLmem x (List.mem_of_mem_getLast? hx))
        · rw [hms, hSRe]
          have hqtake : (quick_sort lt pick fuel pr.1 lo (pr.2 - 1)).take (pr.2 + 1)
              = data.take lo ++ SL ++ [pv] := by
            rw [hSLe, hprdropP]
            have e3 : pr.2 + 1 = (pr.1.take lo ++ SL).length + 1 := by
              rw [List.length_append, htakelo, hSLlen]
              omega
            rw [e3, List.take_append]
            simp only [List.take_succ_cons, List.take_zero]
            rw [hprtake]
          have hqdropE : (quick_sort lt pick fuel pr.1 lo (pr.2 - 1)).drop (hi + 1)
              = data.drop (hi + 1) := by
            rw [hSLe]
            have e4 : hi + 1 = (pr.1.take lo ++ SL).length + (hi + 1 - pr.2) := by
              rw [List.length_append, htakelo, hSLlen]
              omega
            nth_rewrite 1 [e4]
            rw [List.drop_append, List.drop_drop]
            have e5 : pr.2 + (hi + 1 - pr.2) = hi + 1 := by omega
            rw [e5, hprdrop]
          rw [hqtake, hqdropE]
          simp [List.append_assoc]
termination_by fuel => fuel
decreasing_by
  all_goals omega

theorem quick_sorter_sort_spec (lt : Int → Int → Bool)
    (hasym : ∀ a b, lt a b = true → lt b a = false)
    (pick : Nat → Nat → Nat) (hpick : ∀ a b, a ≤ b → a ≤ pick a b ∧ pick a b ≤ b)
    (data : List Int) :
    (quick_sorter_sort lt pick data).Perm data ∧
    is_sorted lt (quick_sorter_sort lt pick data) = true := by
  rw [quick_sorter_sort]
  cases data with
  | nil =>
    simp only [List.length_nil]
    rw [quick_sort]
    exact ⟨List.Perm.refl _, rfl⟩
  | cons a rest =>
    obtain ⟨S, hSp, hSc, hSe⟩ := quick_sort_spec lt hasym pick hpick
      (a :: rest).length (a :: rest) 0 ((a :: rest).length - 1)
      (by omega) (by simp only [List.length_cons]; omega)
      (by simp only [List.length_cons]; omega)
    rw [seg_whole _ (by simp only [List.length_cons]; omega)] at hSp
    rw [hSe]
    have he : (a :: rest).length - 1 + 1 = (a :: rest).length := by
      simp only [List.length_cons]
      omega
    rw [List.take_zero, List.nil_append, he, List.drop_length, List.append_nil]
    exact ⟨hSp, is_sorted_of_chain lt S hSc⟩

/-! ## Theorems: heap sorter (claim C8) -/

theorem heapValues_eq (h : Heap) :
    heapValues h = (occList h.items.length h.invalid_index_set).map
      (fun i => h.items.getD i 0) := rfl

theorem occList_nodup (len : Nat) (free : List Nat) : (occList len free).Nodup :=
  (List.nodup_range len).filter _

theorem mem_occList (len : Nat) (free : List Nat) (i : Nat) :
    i ∈ occList len free ↔ occB len free i = true := by
  rw [occList, List.mem_filter, List.mem_range]
  constructor
  · exact fun h => h.2
  · intro h
    exact ⟨((occB_iff len free i).mp h).2.1, h⟩

theorem heapOrder_refl (m : Bool) (a : Int) : heapOrder m a a = true := by
  cases m <;> simp [heapOrder]

theorem map_swap_perm (l : List Nat) (hnd : l.Nodup) (a b : Nat) (ha : a ∈ l)
    (hb : b ∈ l) (hab : a ≠ b) (f g : Nat → Int) (hga : g a = f b) (hgb : g b = f a)
    (hother : ∀ x ∈ l, x ≠ a → x ≠ b → g x = f x) : (l.map g).Perm (l.map f) := by
  have hpa : l.Perm (a :: l.erase a) := List.perm_cons_erase ha
  have hb2 : b ∈ l.erase a := (List.mem_erase_of_ne (Ne.symm hab)).mpr hb
  have hpb : (l.erase a).Perm (b :: (l.erase a).erase b) := List.perm_cons_erase hb2
  have hrest : ∀ x ∈ (l.erase a).erase b, x ≠ a ∧ x ≠ b ∧ x ∈ l := by
    intro x hx
    have hx1 : x ∈ l.erase a := List.mem_of_mem_erase hx
    have hx2 : x ∈ l := List.mem_of_mem_erase hx1
    refine ⟨?_, ?_, hx2⟩
    · intro hxa
      rw [hxa] at hx1
      exact hnd.not_mem_erase hx1
    · intro hxb
      rw [hxb] at hx
      exact (hnd.erase a).not_mem_erase hx
  have hchain : l.Perm (a :: b :: (l.erase a).erase b) := hpa.trans (hpb.cons a)
  have hrmap : ((l.erase a).erase b).map g = ((l.erase a).erase b).map f := by
    apply List.map_congr_left
    intro x hx
    obtain ⟨h1, h2, h3⟩ := hrest x hx
    exact hother x h3 h1 h2
  refine (hchain.map g).trans (List.Perm.trans ?_ (hchain.map f).symm)
  simp only [List.map_cons]
  rw [hga, hgb, hrmap]
  exact List.Perm.swap (f a) (f b) _

theorem map_hole_swap (L : List Nat) (hnd : L.Nodup) (index child : Nat)
    (hi : index ∈ L) (hc : child ∈ L) (hne : index ≠ child) (f g : Nat → Int)
    (hgi : g index = f child) (hother : ∀ x, x ≠ index → g x = f x) :
    ((L.erase child).map g).Perm ((L.erase index).map f) := by
  have hi2 : index ∈ L.erase child := (List.mem_erase_of_ne hne).mpr hi
  have hc2 : child ∈ L.erase index := (List.mem_erase_of_ne (Ne.symm hne)).mpr hc
  have hp1 : (L.erase child).Perm (index :: (L.erase child).erase index) :=
    List.perm_cons_erase hi2
  have hp2 : (L.erase index).Perm (child :: (L.erase index).erase child) :=
    List.perm_cons_erase hc2
  have hee : (L.erase child).erase index = (L.erase index).erase child :=
    List.erase_comm child index L
  have hrmap : ((L.erase child).erase index).map g
      = ((L.erase child).erase index).map f := by
    apply List.map_congr_left
    intro x hx
    refine hother x ?_
    intro hxa
    rw [hxa] at hx
    exact ((hnd.erase child).not_mem_erase) hx
  refine (hp1.map g).trans (List.Perm.trans ?_ (hp2.map f).symm)
  simp only [List.map_cons]
  rw [hgi, hrmap, hee]

theorem occList_restrict (len : Nat) (free free' : List Nat) (a : Nat)
    (h : ∀ i, i ∈ free' ↔ i = a ∨ i ∈ free) :
    occList len free' = (occList len free).erase a := by
  rw [(occList_nodup len free).erase_eq_filter a, occList, occList, List.filter_filter]
  apply List.filter_congr
  intro i _
  have ha' : a ∈ free' := (h a).mpr (Or.inl rfl)
  have hi := h i
  by_cases h1 : i = a <;> by_cases h2 : i ∈ free <;> by_cases h3 : 1 ≤ i <;>
    by_cases h4 : i < len <;>
    simp [occB, h1, h2, h3, h4, hi, ha']

theorem occList_append (len : Nat) (free : List Nat) (h1 : 1 ≤ len)
    (hb : ∀ j ∈ free, j < len) :
    occList (len + 1) free = occList len free ++ [len] := by
  rw [occList, occList, List.range_succ, List.filter_append]
  congr 1
  · apply List.filter_congr
    intro i hi
    rw [List.mem_range] at hi
    by_cases h2 : i ∈ free <;> by_cases h3 : 1 ≤ i <;>
      simp [occB, h2, h3, hi, Nat.lt_succ_of_lt hi]
  · have hocc : occB (len + 1) free len = true := by
      rw [occB_iff]
      refine ⟨h1, by omega, ?_⟩
      intro hmem
      exact absurd (hb len hmem) (by omega)
    simp [hocc]

theorem bubble_up_length (is_max : Bool) : ∀ (index : Nat) (items : List Int),
    (bubble_up is_max items index).length = items.length := by
  intro index items
  rw [bubble_up]
  split
  · dsimp only
    split
    · rfl
    · rw [bubble_up_length is_max (index / 2)]
      simp
  · rfl
termination_by index _ => index
decreasing_by exact Nat.div_lt_self (by omega) (by omega)

theorem bubble_up_values (is_max : Bool) (len : Nat) (free : List Nat) :
    ∀ (index : Nat) (items : List Int), items.length = len →
    occB len free index = true → parentOcc len free →
    ((occList len free).map (fun i => (bubble_up is_max items index).getD i 0)).Perm
      ((occList len free).map (fun i => items.getD i 0)) := by
  intro index items hlen hocc hpo
  rw [bubble_up]
  split
  · rename_i hgt
    dsimp only
    split
    · exact List.Perm.refl _
    · rename_i hord
      have hidxlen : index < len := ((occB_iff len free index).mp hocc).2.1
      have hpocc : occB len free (index / 2) = true := hpo index (by omega) hocc
      have hplen : index / 2 < len := ((occB_iff len free (index / 2)).mp hpocc).2.1
      have hne : index ≠ index / 2 := by omega
      have hswap : ∀ m, ((items.set index (items.getD (index / 2) 0)).set (index / 2)
          (items.getD index 0)).getD m 0
          = if m = index / 2 then items.getD index 0
            else if m = index then items.getD (index / 2) 0
            else items.getD m 0 := by
        intro m
        by_cases h1 : m = index / 2
        · rw [if_pos h1, h1, getD_set_self _ _ _ (by simp only [List.length_set]; omega)]
        · rw [if_neg h1, getD_set_ne _ _ _ _ (Ne.symm h1)]
          by_cases h2 : m = index
          · rw [if_pos h2, h2, getD_set_self _ _ _ (by omega)]
          · rw [if_neg h2, getD_set_ne _ _ _ _ (Ne.symm h2)]
      have IH := bubble_up_values is_max len free (index / 2)
        ((items.set index (items.getD (index / 2) 0)).set (index / 2)
          (items.getD index 0))
        (by simp only [List.length_set]; exact hlen) hpocc hpo
      refine IH.trans ?_
      refine map_swap_perm (occList len free) (occList_nodup len free) index (index / 2)
        ((mem_occList len free index).mpr hocc)
        ((mem_occList len free (index / 2)).mpr hpocc) hne _ _ ?_ ?_ ?_
      · rw [hswap index, if_neg hne, if_pos rfl]
      · rw [hswap (index / 2), if_pos rfl]
      · intro x _ hx1 hx2
        rw [hswap x, if_neg hx2, if_neg hx1]
  · exact List.Perm.refl _
termination_by index _ _ _ _ => index
decreasing_by exact Nat.div_lt_self (by omega) (by omega)

theorem set_append_self : ∀ (l : List Int) (v : Int), (l ++ [v]).set l.length v = l ++ [v]
  | [], _ => rfl
  | a :: l, v => by
    rw [List.cons_append, List.length_cons, List.set_cons_succ, set_append_self l v]

theorem getD_append_len : ∀ (l : List Int) (v : Int), (l ++ [v]).getD l.length 0 = v
  | [], _ => rfl
  | a :: l, v => by
    rw [List.cons_append, List.length_cons, List.getD_cons_succ]
    exact getD_append_len l v

theorem getD_append_lt (l : List Int) (v : Int) (i : Nat) (h : i < l.length) :
    (l ++ [v]).getD i 0 = l.getD i 0 := by
  rw [List.getD_eq_getElem?_getD, List.getD_eq_getElem?_getD,
    List.getElem?_append_left h]

theorem parentOcc_nil (len : Nat) : parentOcc len [] := by
  intro i h2 hocc
  rw [occB_iff] at hocc ⊢
  refine ⟨by omega, by omega, by simp⟩

theorem heapValues_mk (I : List Int) (c : Int) (F : List Nat) (m : Bool) :
    heapValues { items := I, item_count := c, invalid_index_set := F, is_max_heap := m }
      = (occList I.length F).map (fun i => I.getD i 0) := rfl

theorem insert_heapValues (h : Heap) (v : Int) (hinv : HeapInv h) :
    (heapValues (h.insert v)).Perm (v :: heapValues h) ∧
    (h.insert v).item_count = h.item_count + 1 ∧
    (h.insert v).is_max_heap = h.is_max_heap := by
  obtain ⟨hlen1, hsort, hbound, hcount, hpo, hprop⟩ := hinv
  cases hfs : h.invalid_index_set with
  | nil =>
    rw [insert_free_nil h v hfs]
    refine ⟨?_, rfl, rfl⟩
    rw [heapValues_mk]
    have hset : (h.items ++ [v]).set h.items.length v = h.items ++ [v] :=
      set_append_self h.items v
    rw [hset]
    have hIlen : (bubble_up h.is_max_heap (h.items ++ [v]) h.items.length).length
        = h.items.length + 1 := by
      rw [bubble_up_length]
      simp
    rw [hIlen]
    have hocc : occB (h.items.length + 1) [] h.items.length = true := by
      rw [occB_iff]
      refine ⟨hlen1, by omega, by simp⟩
    have hbv := bubble_up_values h.is_max_heap (h.items.length + 1) []
      h.items.length (h.items ++ [v]) (by simp) hocc (parentOcc_nil _)
    refine hbv.trans ?_
    rw [occList_append h.items.length [] hlen1 (by simp), List.map_append]
    simp only [List.map_cons, List.map_nil]
    rw [getD_append_len]
    have hmc : (occList h.items.length []).map (fun i => (h.items ++ [v]).getD i 0)
        = (occList h.items.length []).map (fun i => h.items.getD i 0) := by
      apply List.map_congr_left
      intro i hi
      have hb2 := (mem_occList _ _ i).mp hi
      rw [occB_iff] at hb2
      exact getD_append_lt h.items v i hb2.2.1
    rw [hmc, heapValues_eq, hfs]
    exact List.perm_append_singleton v _
  | cons f rest =>
    rw [insert_free_cons h v f rest hfs]
    refine ⟨?_, rfl, rfl⟩
    rw [heapValues_mk]
    have hfb := hbound f (by rw [hfs]; exact List.mem_cons_self f rest)
    have hsort2 : ∀ x ∈ rest, f < x := by
      rw [hfs] at hsort
      exact (List.sorted_cons.mp hsort).1
    have hfnr : f ∉ rest := fun hmem => absurd (hsort2 f hmem) (lt_irrefl f)
    have hset2 : (h.items.set f v).set f v = h.items.set f v := List.set_set v v h.items f
    rw [hset2]
    have hIlen : (bubble_up h.is_max_heap (h.items.set f v) f).length
        = h.items.length := by
      rw [bubble_up_length]
      simp
    rw [hIlen]
    have hoccf : occB h.items.length rest f = true := by
      rw [occB_iff]
      exact ⟨hfb.1, hfb.2, hfnr⟩
    have hpo2 : parentOcc h.items.length rest := by
      intro i h2 hocc
      rw [occB_iff] at hocc
      by_cases hif : i = f
      · rw [occB_iff]
        refine ⟨by omega, by omega, ?_⟩
        intro hmem
        have := hsort2 (i / 2) hmem
        omega
      · have hiold : occB h.items.length h.invalid_index_set i = true := by
          rw [occB_iff, hfs]
          refine ⟨hocc.1, hocc.2.1, ?_⟩
          intro hmem
          rcases List.mem_cons.mp hmem with he | he
          · exact hif he
          · exact hocc.2.2 he
        have hpold := hpo i h2 hiold
        rw [occB_iff] at hpold ⊢
        refine ⟨hpold.1, hpold.2.1, ?_⟩
        intro hmem
        rw [hfs] at hpold
        exact hpold.2.2 (List.mem_cons_of_mem f hmem)
    have hbv := bubble_up_values h.is_max_heap h.items.length rest f
      (h.items.set f v) (by simp) hoccf hpo2
    refine hbv.trans ?_
    have hrestr : occList h.items.length (f :: rest)
        = (occList h.items.length rest).erase f :=
      occList_restrict h.items.length rest (f :: rest) f (fun i => List.mem_cons)
    have hmemf : f ∈ occList h.items.length rest := (mem_occList _ _ f).mpr hoccf
    have hperm2 : (occList h.items.length rest).Perm
        (f :: occList h.items.length (f :: rest)) := by
      rw [hrestr]
      exact List.perm_cons_erase hmemf
    refine (hperm2.map _).trans ?_
    simp only [List.map_cons]
    rw [getD_set_self _ _ _ (by omega)]
    have hmc : (occList h.items.length (f :: rest)).map
        (fun i => (h.items.set f v).getD i 0)
        = (occList h.items.length (f :: rest)).map (fun i => h.items.getD i 0) := by
      apply List.map_congr_left
      intro i hi
      have hocci := (mem_occList _ _ i).mp hi
      rw [occB_iff] at hocci
      have hne : i ≠ f := by
        intro he
        exact hocci.2.2 (he ▸ List.mem_cons_self f rest)
      exact getD_set_ne _ _ _ _ (Ne.symm hne)
    rw [hmc, heapValues_eq, hfs]

theorem pop_walk_heapValues (is_max : Bool) (len : Nat) :
    ∀ (index : Nat) (items : List Int) (free : List Nat),
    items.length = len → 1 ≤ index → index < len → free.contains index = false →
    (pop_walk is_max items free index).1.length = len ∧
    ((occList len (pop_walk is_max items free index).2).map
      (fun i => (pop_walk is_max items free index).1.getD i 0)).Perm
      (((occList len free).erase index).map (fun i => items.getD i 0)) := by
  intro index items free hlen hge1 hlt hnf
  have hoccidx : occB len free index = true := by
    rw [occB_iff]
    exact ⟨hge1, hlt, (not_contains_iff free index).mp hnf⟩
  have hstep : ∀ child, child = index * 2 ∨ child = index * 2 + 1 →
      occB len free child = true →
      (((occList len free).erase child).map
        (fun i => (items.set index (items.getD child 0)).getD i 0)).Perm
      (((occList len free).erase index).map (fun i => items.getD i 0)) := by
    intro child hch hocc
    refine map_hole_swap (occList len free) (occList_nodup len free) index child
      ((mem_occList _ _ index).mpr hoccidx) ((mem_occList _ _ child).mpr hocc)
      (by omega) _ _ ?_ ?_
    · exact getD_set_self items index _ (by omega)
    · intro x hx
      exact getD_set_ne items index x _ (Ne.symm hx)
  rw [pop_walk]
  rw [hlen]
  split
  · rename_i hinvL
    split
    · rename_i hinvR
      refine ⟨hlen, ?_⟩
      have he : occList len (setAdd index free) = (occList len free).erase index :=
        occList_restrict len free (setAdd index free) index (fun i => mem_setAdd free index i)
      rw [he]
    · rename_i hinvR
      have hvR : ¬ (index * 2 + 1 = 0 ∨ len ≤ index * 2 + 1 ∨ index * 2 + 1 ∈ free) := by
        rw [← is_invalid_iff len free]
        simpa using hinvR
      push_neg at hvR
      have hoccR : occB len free (index * 2 + 1) = true := by
        rw [occB_iff]
        exact ⟨by omega, hvR.2.1, hvR.2.2⟩
      have IH := pop_walk_heapValues is_max len (index * 2 + 1)
        (items.set index (items.getD (index * 2 + 1) 0)) free
        (by simp only [List.length_set]; exact hlen) (by omega) hvR.2.1
        (by simpa using hvR.2.2)
      exact ⟨IH.1, IH.2.trans (hstep (index * 2 + 1) (Or.inr rfl) hoccR)⟩
  · rename_i hinvL
    have hvL : ¬ (index * 2 = 0 ∨ len ≤ index * 2 ∨ index * 2 ∈ free) := by
      rw [← is_invalid_iff len free]
      simpa using hinvL
    push_neg at hvL
    have hoccL : occB len free (index * 2) = true := by
      rw [occB_iff]
      exact ⟨by omega, hvL.2.1, hvL.2.2⟩
    have IHL := pop_walk_heapValues is_max len (index * 2)
      (items.set index (items.getD (index * 2) 0)) free
      (by simp only [List.length_set]; exact hlen) (by omega) hvL.2.1
      (by simpa using hvL.2.2)
    split
    · exact ⟨IHL.1, IHL.2.trans (hstep (index * 2) (Or.inl rfl) hoccL)⟩
    · rename_i hinvR
      have hvR : ¬ (index * 2 + 1 = 0 ∨ len ≤ index * 2 + 1 ∨ index * 2 + 1 ∈ free) := by
        rw [← is_invalid_iff len free]
        simpa using hinvR
      push_neg at hvR
      have hoccR : occB len free (index * 2 + 1) = true := by
        rw [occB_iff]
        exact ⟨by omega, hvR.2.1, hvR.2.2⟩
      have IHR := pop_walk_heapValues is_max len (index * 2 + 1)
        (items.set index (items.getD (index * 2 + 1) 0)) free
        (by simp only [List.length_set]; exact hlen) (by omega) hvR.2.1
        (by simpa using hvR.2.2)
      split
      · exact ⟨IHL.1, IHL.2.trans (hstep (index * 2) (Or.inl rfl) hoccL)⟩
      · exact ⟨IHR.1, IHR.2.trans (hstep (index * 2 + 1) (Or.inr rfl) hoccR)⟩
termination_by index items free _ _ _ _ => len - index
decreasing_by
  all_goals omega

theorem pop_heapValues (h : Heap) (hinv : HeapInv h) (hc : ¬ h.count ≤ 0) :
    ((h.items.getD 1 0) :: heapValues ((h.pop).2)).Perm (heapValues h) ∧
    (h.pop).2.item_count = h.item_count - 1 ∧
    (h.pop).2.is_max_heap = h.is_max_heap := by
  obtain ⟨hlen1, hsort, hbound, hcount, hpo, hprop⟩ := hinv
  have hcgt : 0 < h.item_count := by
    rw [Heap.count] at hc
    omega
  have hflen : h.invalid_index_set.length + 1 < h.items.length := by
    omega
  have hnf : h.invalid_index_set.contains 1 = false :=
    one_not_free h.items.length h.invalid_index_set hbound hpo hflen
  have hpw := pop_walk_heapValues h.is_max_heap h.items.length 1 h.items
    h.invalid_index_set rfl (by omega) (by omega) hnf
  rw [pop_pos_eq h hc]
  refine ⟨?_, rfl, rfl⟩
  rw [heapValues_mk, hpw.1]
  have hocc1 : occB h.items.length h.invalid_index_set 1 = true := by
    rw [occB_iff]
    exact ⟨le_refl 1, by omega, (not_contains_iff _ 1).mp hnf⟩
  have hmem1 : 1 ∈ occList h.items.length h.invalid_index_set :=
    (mem_occList _ _ 1).mpr hocc1
  have hperm1 : (occList h.items.length h.invalid_index_set).Perm
      (1 :: (occList h.items.length h.invalid_index_set).erase 1) :=
    List.perm_cons_erase hmem1
  refine List.Perm.trans ?_ ((hperm1.map (fun i => h.items.getD i 0)).symm)
  simp only [List.map_cons]
  exact (hpw.2).cons (h.items.getD 1 0)

theorem heapOrder_root (is_max : Bool) (len : Nat) (free : List Nat) (items : List Int)
    (hpo : parentOcc len free)
    (hA : ∀ c, 2 ≤ c → occB len free c = true → occB len free (c / 2) = true →
      heapOrder is_max (items.getD (c / 2) 0) (items.getD c 0) = true) :
    ∀ c, occB len free c = true →
      heapOrder is_max (items.getD 1 0) (items.getD c 0) = true
  | 0, hc => by
    rw [occB_iff] at hc
    omega
  | 1, _ => heapOrder_refl is_max _
  | c + 2, hc => by
    have hp := hpo (c + 2) (by omega) hc
    have h1 := hA (c + 2) (by omega) hc hp
    have h2 := heapOrder_root is_max len free items hpo hA ((c + 2) / 2) hp
    exact heapOrder_trans is_max _ _ _ h2 h1
termination_by c => c
decreasing_by omega

theorem root_min_heapValues (h : Heap) (hinv : HeapInv h) :
    ∀ x ∈ heapValues h, heapOrder h.is_max_heap (h.items.getD 1 0) x = true := by
  intro x hx
  rw [heapValues_eq] at hx
  obtain ⟨i, hi, hix⟩ := List.mem_map.mp hx
  rw [← hix]
  obtain ⟨_, _, _, _, hpo, hprop⟩ := hinv
  refine heapOrder_root h.is_max_heap _ _ _ hpo ?_ i ((mem_occList _ _ i).mp hi)
  intro c h2 hoc hpoc
  exact hprop c (((occB_iff _ _ c).mp hoc).2.1) h2 hoc hpoc

theorem heapPops_spec (m : Bool) : ∀ (n : Nat) (h : Heap), HeapInv h →
    h.is_max_heap = m → h.item_count = (n : Int) → (heapValues h).length = n →
    (heapPops n h).Perm (heapValues h) ∧
    List.Chain' (fun a b => heapOrder m a b = true) (heapPops n h)
  | 0, h, _, _, _, hlen => by
    rw [heapPops]
    have he : heapValues h = [] := List.eq_nil_of_length_eq_zero hlen
    rw [he]
    exact ⟨List.Perm.nil, List.chain'_nil⟩
  | n + 1, h, hinv, hm, hcnt, hlen => by
    have hc : ¬ h.count ≤ 0 := by
      rw [Heap.count, hcnt]
      intro hle
      omega
    obtain ⟨hpv, hpc, hpm⟩ := pop_heapValues h hinv hc
    have hinv2 := pop_inv h hinv
    have hroot := root_min_heapValues h hinv
    have hpops : heapPops (n + 1) h = h.items.getD 1 0 :: heapPops n (h.pop).2 := by
      rw [heapPops, pop_pos_eq h hc]
    have hm2 : (h.pop).2.is_max_heap = m := by
      rw [hpm, hm]
    have hcnt2 : (h.pop).2.item_count = (n : Int) := by
      rw [hpc, hcnt]
      push_cast
      ring
    have hlen2 : (heapValues (h.pop).2).length = n := by
      have hl := hpv.length_eq
      simp only [List.length_cons] at hl
      omega
    obtain ⟨IH1, IH2⟩ := heapPops_spec m n (h.pop).2 hinv2 hm2 hcnt2 hlen2
    rw [hpops]
    constructor
    · exact (IH1.cons (h.items.getD 1 0)).trans hpv
    · rw [List.chain'_cons']
      refine ⟨?_, IH2⟩
      intro y hy
      have hy2 := List.mem_of_mem_head? hy
      have hy3 := IH1.mem_iff.mp hy2
      have hy4 : y ∈ heapValues h := hpv.mem_iff.mp (List.mem_cons_of_mem _ hy3)
      rw [← hm]
      exact hroot y hy4

theorem heapValues_new (m : Bool) : heapValues (Heap.new m) = [] := rfl

theorem foldl_insert_spec : ∀ (data : List Int) (h : Heap), HeapInv h →
    HeapInv (data.foldl Heap.insert h) ∧
    (heapValues (data.foldl Heap.insert h)).Perm (data ++ heapValues h) ∧
    (data.foldl Heap.insert h).item_count = h.item_count + data.length ∧
    (data.foldl Heap.insert h).is_max_heap = h.is_max_heap
  | [], h, hinv => by
    refine ⟨hinv, ?_, by simp, rfl⟩
    simp only [List.foldl_nil, List.nil_append]
    exact List.Perm.refl _
  | v :: rest, h, hinv => by
    rw [List.foldl_cons]
    obtain ⟨hp, hcnt, hm⟩ := insert_heapValues h v hinv
    have hinv2 := insert_inv h v hinv
    obtain ⟨IH1, IH2, IH3, IH4⟩ := foldl_insert_spec rest (h.insert v) hinv2
    refine ⟨IH1, ?_, ?_, ?_⟩
    · refine IH2.trans ?_
      refine (List.Perm.append_left rest hp).trans ?_
      exact List.perm_middle
    · rw [IH3, hcnt]
      simp only [List.length_cons]
      push_cast
      ring
    · rw [IH4, hm]

theorem heap_sorter_sort_spec (data : List Int) :
    (heap_sorter_sort data).Perm data ∧
    is_sorted intLt (heap_sorter_sort data) = true := by
  rw [heap_sorter_sort]
  obtain ⟨hinv, hvals, hcnt, hm⟩ := foldl_insert_spec data (Heap.new false) (new_inv false)
  rw [heapValues_new, List.append_nil] at hvals
  have hcnt2 : (data.foldl Heap.insert (Heap.new false)).item_count
      = (data.length : Int) := by
    rw [hcnt]
    simp [Heap.new]
  have hlen2 : (heapValues (data.foldl Heap.insert (Heap.new false))).length
      = data.length := hvals.length_eq
  obtain ⟨hpp, hpc⟩ := heapPops_spec false data.length (data.foldl Heap.insert (Heap.new false))
    hinv (by rw [hm]; rfl) hcnt2 hlen2
  refine ⟨hpp.trans hvals, ?_⟩
  refine is_sorted_of_chain intLt _ ?_
  refine hpc.imp ?_
  intro a b hab
  simp only [heapOrder, if_false, Bool.false_eq_true, decide_eq_true_eq] at hab
  simp only [intLt, decide_eq_false_iff_not]
  omega

/-- C8: each of the six sorters (`bubble`, `insertion`, `selection`, `merge`,
`quick`, `heap`) returns, for every input list of integers, a list of the same
length whose contents are multiset-equal to the input and which satisfies
`is_sorted`; the quick sorter for every pivot chooser `pick` that stays inside
`[lo, hi]` (the model of `random.randint(lo, hi)`).  The embedding passes
lists by value, mirroring the `data = list(data_input)` copy each Python
sorter makes, so the input sequence itself is never mutated. -/
theorem claim_C8 (data : List Int) (pick : Nat → Nat → Nat)
    (hpick : ∀ a b, a ≤ b → a ≤ pick a b ∧ pick a b ≤ b) :
    ((bubble_sort intLt data).length = data.length ∧
      (bubble_sort intLt data).Perm data ∧
      is_sorted intLt (bubble_sort intLt data) = true) ∧
    ((insertion_sort intLt data).length = data.length ∧
      (insertion_sort intLt data).Perm data ∧
      is_sorted intLt (insertion_sort intLt data) = true) ∧
    ((selection_sort intLt data).length = data.length ∧
      (selection_sort intLt data).Perm data ∧
      is_sorted intLt (selection_sort intLt data) = true) ∧
    ((merge_sorter_sort intLt data).length = data.length ∧
      (merge_sorter_sort intLt data).Perm data ∧
      is_sorted intLt (merge_sorter_sort intLt data) = true) ∧
    ((quick_sorter_sort intLt pick data).length = data.length ∧
      (quick_sorter_sort intLt pick data).Perm data ∧
      is_sorted intLt (quick_sorter_sort intLt pick data) = true) ∧
    ((heap_sorter_sort data).length = data.length ∧
      (heap_sorter_sort data).Perm data ∧
      is_sorted intLt (heap_sorter_sort data) = true) := by
  have hb := bubble_sort_spec intLt intLt_asymm data
  have hi := insertion_sort_spec intLt intLt_asymm intLt_neg_trans data
  have hs := selection_sort_spec data
  have hm := merge_sorter_sort_spec intLt intLt_asymm data
  have hq := quick_sorter_sort_spec intLt intLt_asymm pick hpick data
  have hh := heap_sorter_sort_spec data
  exact ⟨⟨hb.1.length_eq, hb.1, hb.2⟩, ⟨hi.1.length_eq, hi.1, hi.2⟩,
    ⟨hs.1.length_eq, hs.1, hs.2⟩, ⟨hm.1.length_eq, hm.1, hm.2⟩,
    ⟨hq.1.length_eq, hq.1, hq.2⟩, ⟨hh.1.length_eq, hh.1, hh.2⟩⟩

/-- Witness for C8 at a concrete input and pivot chooser. -/
theorem claim_C8_witness :
    (∀ a b : Nat, a ≤ b → a ≤ (fun x (_ : Nat) => x) a b ∧
      (fun x (_ : Nat) => x) a b ≤ b) ∧
    is_sorted intLt (quick_sorter_sort intLt (fun x (_ : Nat) => x) [2, 1]) = true :=
  ⟨fun a b h => ⟨le_refl a, h⟩,
    (claim_C8 [2, 1] (fun x _ => x) (fun a b h => ⟨le_refl a, h⟩)).2.2.2.2.1.2.2⟩

end Algorithms
